import Mathlib

/-!
# The UTF-7 codec of sakura_core/charset/CUtf7.cpp

Bytes (`char`) are natural numbers below 256 and UTF-16 code units
(`wchar_t`, two bytes wide, little-endian host) are natural numbers below
65536.  A buffer is a list; a pointer into a buffer is an index.

`CUtf7.cpp` calls classifiers, block scanners, the base64 routines,
`BinToText` and `CMemory::SwapHLByte`, none of which is defined in that file.
The classifiers' tables, the two block scanners and the outcome of the
`new (std::nothrow)` allocations are the fields of `Env`; the other routines
are written out from their description in the specification.
-/

namespace CUtf7

/-! ## Routines used by CUtf7.cpp and defined elsewhere -/

/-- The parts of the program that `CUtf7.cpp` relies on without defining them.
`direct` and `setD` are the character tables behind `IsUtf7Direct` and
`IsUtf7SetD`.  A scanner receives the bytes from the read position to the end
of the input and answers with the block length it returns, the distance from
the read position to the next read position it stores through its pointer
argument, and the error flag it stores.  `alloc n` tells whether a
`new (std::nothrow)` of `n` elements succeeds. -/
structure Env where
  direct : Nat → Bool
  setD : Nat → Bool
  CheckUtf7DPart : List Nat → Nat × Nat × Bool
  CheckUtf7BPart : List Nat → Nat × Nat × Bool
  alloc : Nat → Bool

/-- Modelled from the spec: `IsUtf7Direct` (declared in charset/charcode.h) is the
classifier "is UTF-7 direct"; the direct set consists of ASCII characters, the
set itself is the table `Env.direct`. -/
def IsUtf7Direct (E : Env) (c : Nat) : Bool :=
  decide (c < 0x80) && E.direct c

/-- Modelled from the spec: `IsUtf7SetD` (declared in charset/charcode.h) is the
classifier "is UTF-7 set D"; set D consists of ASCII characters, the set itself
is the table `Env.setD`. -/
def IsUtf7SetD (E : Env) (c : Nat) : Bool :=
  decide (c < 0x80) && E.setD c

/-- Modelled from the spec: the hex-fallback unit of one opaque byte,
`U+DC00 + byte`. -/
def BinToTextUnit (b : Nat) : Nat :=
  0xDC00 + b

/-- Modelled from the spec: `BinToText` (convert/convert_util2.h) maps each
opaque byte to the reserved low-surrogate code unit `0xDC00 + byte`; the units
it writes are returned, their number is what the routine returns. -/
def BinToText (pSrc : List Nat) : List Nat :=
  pSrc.map BinToTextUnit

/-- Modelled from the spec: `CMemory::SwapHLByte` swaps the two bytes of every
16-bit word of the buffer. -/
def SwapHLByte : List Nat → List Nat
  | a :: b :: rest => b :: a :: SwapHLByte rest
  | l => l

/-- Modelled from the spec: the value of a character of the base64 alphabet
`A–Z a–z 0–9 + /`, and `none` for every other byte. -/
def base64Value (c : Nat) : Option Nat :=
  if 0x41 ≤ c ∧ c ≤ 0x5A then some (c - 0x41)
  else if 0x61 ≤ c ∧ c ≤ 0x7A then some (c - 0x61 + 26)
  else if 0x30 ≤ c ∧ c ≤ 0x39 then some (c - 0x30 + 52)
  else if c = 0x2B then some 62
  else if c = 0x2F then some 63
  else none

/-- Modelled from the spec: the character of the base64 alphabet for a 6-bit
value. -/
def base64Char (v : Nat) : Nat :=
  if v < 26 then 0x41 + v
  else if v < 52 then 0x61 + (v - 26)
  else if v < 62 then 0x30 + (v - 52)
  else if v = 62 then 0x2B
  else 0x2F

/-- Modelled from the spec: every four accepted characters produce three output
bytes; a trailing group of 2 produces 1 output byte, of 3 produces 2, of 1 is
discarded.  The argument is the list of 6-bit values. -/
def decodeSextets : List Nat → List Nat
  | a :: b :: c :: d :: rest =>
      (a * 4 + b / 16) :: ((b % 16) * 16 + c / 4) :: ((c % 4) * 64 + d) :: decodeSextets rest
  | [a, b, c] => [a * 4 + b / 16, (b % 16) * 16 + c / 4]
  | [a, b] => [a * 4 + b / 16]
  | _ => []

/-- Modelled from the spec: `_DecodeBase64` (convert/convert_util2.h) skips
non-alphabet bytes silently and decodes the accepted characters in groups of
four; the bytes it writes are returned, their number is what the routine
returns. -/
def _DecodeBase64 (pSrc : List Nat) : List Nat :=
  decodeSextets (pSrc.filterMap base64Value)

/-- Modelled from the spec: bytes are grouped big-endian within each 24-bit
frame; the result is the list of 6-bit values, without padding. -/
def encodeSextets : List Nat → List Nat
  | a :: b :: c :: rest =>
      (a / 4) :: ((a % 4) * 16 + b / 16) :: ((b % 16) * 4 + c / 64) :: (c % 64) :: encodeSextets rest
  | [a, b] => [a / 4, (a % 4) * 16 + b / 16, (b % 16) * 4]
  | [a] => [a / 4, (a % 4) * 16]
  | [] => []

/-- Modelled from the spec: `_EncodeBase64` (convert/convert_util2.h) produces
standard base64 output without padding and without embedded whitespace; the
characters it writes are returned, their number is what the routine returns. -/
def _EncodeBase64 (pSrc : List Nat) : List Nat :=
  (encodeSextets pSrc).map base64Char

/-! ## Memory of `wchar_t` arrays (two bytes per unit, low byte first) -/

/-- The code units read from an array of `wchar_t` whose bytes are given
(`memcpy` of bytes into a `wchar_t` array): low byte first. -/
def wcharsOfBytes : List Nat → List Nat
  | lo :: hi :: rest => (lo + 256 * hi) :: wcharsOfBytes rest
  | _ => []

/-- The bytes of an array of `wchar_t` (the array seen through a `char*`). -/
def bytesOfWchars : List Nat → List Nat
  | [] => []
  | u :: rest => (u % 256) :: (u / 256 % 256) :: bytesOfWchars rest

/-- The C library routine `wcsncpy(dst, src, n)` where `src` holds at least the
`n` units given: units are copied up to and including the first NUL, and the
rest of the `n` destination units is filled with NUL. -/
def wcsncpy : List Nat → List Nat
  | [] => []
  | u :: rest => if u = 0 then List.replicate (rest.length + 1) 0 else u :: wcsncpy rest

/-! ## CUtf7.cpp, decoding -/

/-- Embedding of `CUtf7::_Utf7SetDToUni_block`: the code units written for the
`nSrcLen` bytes at `pSrc`; the value returned, `pw - pDst`, is their number. -/
def _Utf7SetDToUni_block (E : Env) : List Nat → List Nat
  | [] => []
  | b :: rest =>
      (if IsUtf7Direct E b then b else BinToTextUnit b) :: _Utf7SetDToUni_block E rest

/-- Result of `CUtf7::_Utf7SetBToUni_block`: the units written at `pDst`, the
value returned, and the value of `*pbError` afterwards. -/
structure BBlock where
  written : List Nat
  ret : Nat
  bError : Bool
deriving DecidableEq

/-- Embedding of `CUtf7::_Utf7SetBToUni_block` for the `nSrcLen` bytes at
`pSrc`; `bError` is the value of `*pbError` on entry. -/
def _Utf7SetBToUni_block (E : Env) (pSrc : List Nat) (bError : Bool) : BBlock :=
  if E.alloc pSrc.length = false then
    { written := [], ret := 0, bError := true }
  else
    let pbuf := _DecodeBase64 pSrc
    let nModLen := pbuf.length % 2
    let ndecoded_len := pbuf.length - nModLen
    let pDst := wcharsOfBytes (SwapHLByte (pbuf.take ndecoded_len))
    if nModLen ≠ 0 then
      let tail := BinToText ((pbuf.drop ndecoded_len).take nModLen)
      { written := pDst ++ tail, ret := (ndecoded_len + tail.length * 2) / 2, bError := true }
    else
      { written := pDst, ret := ndecoded_len / 2, bError := bError }

/-- State of the loop of `CUtf7::Utf7ToUni`: the read position `pr` (an index
into the source), the units written so far (`pw` is their end) and the
accumulated flag `berror`. -/
structure DecState where
  pr : Nat
  pw : List Nat
  berror : Bool
deriving DecidableEq

/-- The `n` bytes at index `pr` of the source buffer; `none` when the block does
not lie inside the buffer (the C code would read outside it). -/
def readBlock (pSrc : List Nat) (pr n : Nat) : Option (List Nat) :=
  if pr + n ≤ pSrc.length then some ((pSrc.drop pr).take n) else none

/-- The byte `*(p - 1)`; `none` when it lies outside the buffer. -/
def readBefore (pSrc : List Nat) : Nat → Option Nat
  | 0 => none
  | q + 1 => pSrc[q]?

/-- Lines 95-101 of `CUtf7::Utf7ToUni`: scan a D-part, convert it, move to the
next read position. -/
def Utf7ToUni_DPart (E : Env) (pSrc : List Nat) (s : DecState) : Option DecState :=
  match E.CheckUtf7DPart (pSrc.drop s.pr) with
  | (nblocklen, next, berror_tmp) =>
    (readBlock pSrc s.pr nblocklen).map fun block =>
      { pr := s.pr + next
        pw := s.pw ++ _Utf7SetDToUni_block E block
        berror := s.berror || berror_tmp }

/-- Lines 107-124 of `CUtf7::Utf7ToUni`: scan a B-part (option `UC_LOOSE`), then
either write `+` for the sequence `+-` or convert the block, and move to the
next read position. -/
def Utf7ToUni_BPart (E : Env) (pSrc : List Nat) (s : DecState) : Option DecState :=
  match E.CheckUtf7BPart (pSrc.drop s.pr) with
  | (nblocklen, next, berror_tmp) =>
    let pr_next := s.pr + next
    let berror := s.berror || berror_tmp
    let isPlusMinus : Option Bool :=
      if nblocklen < 1 then (readBefore pSrc pr_next).map (fun c => decide (c = 0x2D))
      else some false
    isPlusMinus.bind fun pm =>
      if pm then
        some { pr := pr_next, pw := s.pw ++ [0x2B], berror := berror }
      else
        (readBlock pSrc s.pr nblocklen).map fun block =>
          let r := _Utf7SetBToUni_block E block berror_tmp
          { pr := pr_next, pw := s.pw ++ r.written, berror := berror || r.bError }

/-- One pass through the body of the `do … while` of `CUtf7::Utf7ToUni`; the
boolean tells whether the loop goes on (no `break`, and `pr_next < pr_end`). -/
def Utf7ToUni_body (E : Env) (pSrc : List Nat) (s : DecState) : Option (DecState × Bool) :=
  (Utf7ToUni_DPart E pSrc s).bind fun s1 =>
    if pSrc.length ≤ s1.pr then some (s1, false)
    else (Utf7ToUni_BPart E pSrc s1).map fun s2 => (s2, decide (s2.pr < pSrc.length))

/-- The `do … while` of `CUtf7::Utf7ToUni`, run for at most `fuel` passes;
`none` when the passes do not suffice or a read leaves the source buffer. -/
def Utf7ToUni_loop (E : Env) (pSrc : List Nat) : Nat → DecState → Option DecState
  | 0, _ => none
  | fuel + 1, s =>
    match Utf7ToUni_body E pSrc s with
    | none => none
    | some (s1, true) => Utf7ToUni_loop E pSrc fuel s1
    | some (s1, false) => some s1

/-- Embedding of `CUtf7::Utf7ToUni` on the `nSrcLen` bytes `pSrc`: the units
written (the value returned is their number) and the value stored in
`*pbError`. -/
def Utf7ToUni (E : Env) (pSrc : List Nat) (fuel : Nat) : Option (List Nat × Bool) :=
  (Utf7ToUni_loop E pSrc fuel { pr := 0, pw := [], berror := false }).map
    fun s => (s.pw, s.berror)

/-- The values of `EConvertResult` that `CUtf7.cpp` returns. -/
inductive EConvertResult where
  | RESULT_COMPLETE
  | RESULT_LOSESOME
  | RESULT_FAILURE
deriving DecidableEq

/-- Embedding of `CUtf7::UTF7ToUnicode`: the result code and the content of
`pDstMem` afterwards (`dstOld` is its content on entry). -/
def UTF7ToUnicode (E : Env) (cSrc : List Nat) (dstOld : List Nat) (fuel : Nat) :
    Option (EConvertResult × List Nat) :=
  if E.alloc (cSrc.length + 1) = false then
    some (EConvertResult.RESULT_FAILURE, dstOld)
  else
    (Utf7ToUni E cSrc fuel).map fun r =>
      (if r.2 = false then EConvertResult.RESULT_COMPLETE else EConvertResult.RESULT_LOSESOME, r.1)

/-! ## CUtf7.cpp, encoding -/

/-- Embedding of `CUtf7::_UniToUtf7SetD_block`: the bytes written for the
`nSrcLen` units at `pSrc`; the value returned is their number. -/
def _UniToUtf7SetD_block (pSrc : List Nat) : List Nat :=
  pSrc.map fun u => u % 256

/-- Embedding of `CUtf7::_UniToUtf7SetB_block`: the bytes written for the
`nSrcLen` units at `pSrc`; the value returned, `pw - pDst`, is their number. -/
def _UniToUtf7SetB_block (E : Env) (pSrc : List Nat) : List Nat :=
  if pSrc.length < 1 then []
  else if E.alloc pSrc.length = false then []
  else
    let psrc := wcsncpy pSrc
    [0x2B] ++ _EncodeBase64 (SwapHLByte (bytesOfWchars psrc)) ++ [0x2D]

/-- The loops `for( ; pr < pr_end; ++pr ){ if( IsUtf7SetD(*pr) != want ) break; }`
of `CUtf7::UniToUtf7` (`want` is true in the first loop, false in the second),
run for at most `k` steps: the position where the loop stops. -/
def UniToUtf7_scan (E : Env) (want : Bool) (pSrc : List Nat) (pr_end : Nat) :
    Nat → Nat → Option Nat
  | 0, pr => some pr
  | k + 1, pr =>
    if pr < pr_end then
      match pSrc[pr]? with
      | none => none
      | some c => if IsUtf7SetD E c = want then UniToUtf7_scan E want pSrc pr_end k (pr + 1)
                  else some pr
    else some pr

/-- One pass through the body of the `do … while` of `CUtf7::UniToUtf7`, from
the read position `pr` (equal to `pr_base`) with the bytes `pw` written so far:
the new read position and the bytes written. -/
def UniToUtf7_body (E : Env) (pSrc : List Nat) (nSrcLen : Nat) (pr : Nat) (pw : List Nat) :
    Option (Nat × List Nat) :=
  (UniToUtf7_scan E true pSrc nSrcLen (nSrcLen - pr) pr).bind fun pr1 =>
    let pw1 := pw ++ _UniToUtf7SetD_block ((pSrc.drop pr).take (pr1 - pr))
    pSrc[pr1]?.bind fun c =>
      if c = 0x2B then
        some (pr1 + 1, pw1 ++ [0x2B, 0x2D])
      else
        (UniToUtf7_scan E false pSrc nSrcLen (nSrcLen - pr1) pr1).map fun pr2 =>
          (pr2, pw1 ++ _UniToUtf7SetB_block E ((pSrc.drop pr1).take (pr2 - pr1)))

/-- The `do … while` of `CUtf7::UniToUtf7`, run for at most `fuel` passes;
`none` when the passes do not suffice or a read leaves the source buffer. -/
def UniToUtf7_loop (E : Env) (pSrc : List Nat) (nSrcLen : Nat) :
    Nat → Nat → List Nat → Option (List Nat)
  | 0, _, _ => none
  | fuel + 1, pr, pw =>
    match UniToUtf7_body E pSrc nSrcLen pr pw with
    | none => none
    | some (pr1, pw1) =>
      if pr1 < nSrcLen then UniToUtf7_loop E pSrc nSrcLen fuel pr1 pw1 else some pw1

/-- Embedding of `CUtf7::UniToUtf7`: `pSrc` is the memory at the source pointer,
`nSrcLen` the length passed; the bytes written (the value returned is their
number). -/
def UniToUtf7 (E : Env) (pSrc : List Nat) (nSrcLen : Nat) (fuel : Nat) : Option (List Nat) :=
  UniToUtf7_loop E pSrc nSrcLen fuel 0 []

/-- The buffer behind `CNativeW::GetStringPtr()` for the string `S`: the units
of `S` followed by a NUL. -/
def CNativeW (S : List Nat) : List Nat :=
  S ++ [0]

/-- Embedding of `CUtf7::UnicodeToUTF7` for the string `S` held by `cSrc`: the
result code and the content of `pDstMem` afterwards (`dstOld` is its content on
entry). -/
def UnicodeToUTF7 (E : Env) (S : List Nat) (dstOld : List Nat) (fuel : Nat) :
    Option (EConvertResult × List Nat) :=
  if E.alloc (S.length * 5 + 1) = false then
    some (EConvertResult.RESULT_FAILURE, dstOld)
  else
    (UniToUtf7 E (CNativeW S) S.length fuel).map fun out =>
      (EConvertResult.RESULT_COMPLETE, out)

/-! ## One pass of the encoding loop, on lists

The units from the read position to the end of the input are `S`, and `t` is
the unit stored behind them (the terminating NUL of a `CNativeW`). -/

/-- The units the first `for` loop of a pass steps over: the longest run of
set-D units at the read position. -/
def passD (E : Env) (S : List Nat) : List Nat :=
  S.takeWhile fun c => IsUtf7SetD E c

/-- The units behind the run `passD`. -/
def passR (E : Env) (S : List Nat) : List Nat :=
  S.dropWhile fun c => IsUtf7SetD E c

/-- The units the second `for` loop of a pass steps over: the longest run of
units outside set D behind `passD`. -/
def passB (E : Env) (S : List Nat) : List Nat :=
  (passR E S).takeWhile fun c => !IsUtf7SetD E c

/-- The unit `*pr` tested against `+` in a pass. -/
def passHead (E : Env) (S : List Nat) (t : Nat) : Nat :=
  (passR E S).headD t

/-- The number of units one pass moves the read position forward. -/
def passLen (E : Env) (S : List Nat) (t : Nat) : Nat :=
  (passD E S).length + (if passHead E S t = 0x2B then 1 else (passB E S).length)

/-- The bytes one pass writes. -/
def passOut (E : Env) (S : List Nat) (t : Nat) : List Nat :=
  _UniToUtf7SetD_block (passD E S)
    ++ (if passHead E S t = 0x2B then [0x2B, 0x2D] else _UniToUtf7SetB_block E (passB E S))

/-! ## The absent routines, written out from the specification -/

/-- Modelled from the spec: the table of the UTF-7 direct set (set D).  The
spec names the set without listing it and says that the shift character `+` is
not in it; the characters are the ones a UTF-7 stream carries unencoded: letters,
digits, the nine characters `' ( ) , - . / : ?`, and space, tab, CR, LF. -/
def specSetD (c : Nat) : Bool :=
  (decide (0x41 ≤ c) && decide (c ≤ 0x5A)) || (decide (0x61 ≤ c) && decide (c ≤ 0x7A))
    || (decide (0x30 ≤ c) && decide (c ≤ 0x39))
    || [0x27, 0x28, 0x29, 0x2C, 0x2D, 0x2E, 0x2F, 0x3A, 0x3F].contains c
    || [0x20, 0x09, 0x0D, 0x0A].contains c

/-- Modelled from the spec: the block scanner `CheckUtf7DPart`
(charset/codechecker.h).  A D-part runs up to the next shift character `+` or
the end of the input; the next read position is behind the `+`; the error flag
is raised when a byte of the part is outside the direct set. -/
def specCheckUtf7DPart (direct : Nat → Bool) (bytes : List Nat) : Nat × Nat × Bool :=
  let part := bytes.takeWhile fun b => b != 0x2B
  (part.length,
   if part.length < bytes.length then part.length + 1 else part.length,
   part.any fun b => !(decide (b < 0x80) && direct b))

/-- High surrogates `U+D800..U+DBFF`. -/
def isHighSurrogate (u : Nat) : Bool :=
  decide (0xD800 ≤ u) && decide (u ≤ 0xDBFF)

/-- Low surrogates `U+DC00..U+DFFF`. -/
def isLowSurrogate (u : Nat) : Bool :=
  decide (0xDC00 ≤ u) && decide (u ≤ 0xDFFF)

/-- The hex-fallback envelope `U+DC00..U+DCFF`. -/
def isEnvelope (u : Nat) : Bool :=
  decide (0xDC00 ≤ u) && decide (u ≤ 0xDCFF)

/-- Every unit of the envelope range `U+DC00..U+DCFF` in the list directly
follows a high surrogate, that is, it is the low half of a surrogate pair;
`prevHigh` tells whether the unit in front of the list is a high surrogate. -/
def envelopePaired : Bool → List Nat → Bool
  | _, [] => true
  | prevHigh, u :: rest =>
    (!isEnvelope u || prevHigh) && envelopePaired (isHighSurrogate u) rest

/-- No unit of the envelope range occurs in the text other than as the low half
of a surrogate pair. -/
def noLoneEnvelope (l : List Nat) : Bool :=
  envelopePaired false l

/-- What the specification promises of the scanner `CheckUtf7DPart`: a D-part
holding a byte outside the direct set is reported as an error. -/
def DPartErrorsReported (E : Env) : Prop :=
  ∀ (bytes : List Nat) (n next : Nat), E.CheckUtf7DPart bytes = (n, next, false) →
    ∀ b ∈ bytes.take n, IsUtf7Direct E b = true

/-- What the specification promises of the scanner `CheckUtf7BPart`: a B-part
whose payload yields an envelope unit that is not the low half of a surrogate
pair is reported as an error (by the scanner, if not by the conversion). -/
def BPartErrorsReported (E : Env) : Prop :=
  ∀ (bytes : List Nat) (n next : Nat), E.CheckUtf7BPart bytes = (n, next, false) →
    (_Utf7SetBToUni_block E (bytes.take n) false).bError = false →
    noLoneEnvelope (_Utf7SetBToUni_block E (bytes.take n) false).written = true

/-- Well-formed UTF-16: every high surrogate is followed by a low surrogate and
every low surrogate follows a high one. -/
def wellFormedUtf16 : List Nat → Bool
  | [] => true
  | [u] => !isHighSurrogate u && !isLowSurrogate u
  | u :: v :: rest =>
    if isHighSurrogate u then
      isLowSurrogate v && wellFormedUtf16 rest
    else
      !isLowSurrogate u && wellFormedUtf16 (v :: rest)

/-- Modelled from the spec: the block scanner `CheckUtf7BPart`
(charset/codechecker.h) with option `UC_LOOSE`.  A B-part is terminated by any
non-base64 character; the terminator `-` is consumed, any other is retained for
the next D block.  The error flag is raised for an invalid B-part: a payload
with an odd UTF-16 byte count or one that is not well-formed UTF-16. -/
def specCheckUtf7BPart (bytes : List Nat) : Nat × Nat × Bool :=
  let part := bytes.takeWhile fun c => (base64Value c).isSome
  let decoded := _DecodeBase64 part
  (part.length,
   if (bytes.drop part.length).head? = some 0x2D then part.length + 1 else part.length,
   decide (decoded.length % 2 ≠ 0) || !wellFormedUtf16 (wcharsOfBytes (SwapHLByte decoded)))

/-- Modelled from the spec: the absent routines as the specification describes
them, with every allocation succeeding. -/
def specEnv : Env where
  direct := specSetD
  setD := specSetD
  CheckUtf7DPart := specCheckUtf7DPart specSetD
  CheckUtf7BPart := specCheckUtf7BPart
  alloc := fun _ => true

/-- The bytes of the units written high byte first (big-endian UTF-16). -/
def bigEndianBytes : List Nat → List Nat
  | [] => []
  | u :: rest => (u / 256 % 256) :: (u % 256) :: bigEndianBytes rest

/-- An environment as the specification describes it: the scanners are the
spec-written ones, set D lies inside the direct set and does not hold `+`, and
every allocation succeeds. -/
structure AsSpecified (E : Env) : Prop where
  direct_of_setD : ∀ c, IsUtf7SetD E c = true → IsUtf7Direct E c = true
  plus_outside : IsUtf7SetD E 0x2B = false
  dscan : E.CheckUtf7DPart = specCheckUtf7DPart E.direct
  bscan : E.CheckUtf7BPart = specCheckUtf7BPart
  allocated : ∀ n, E.alloc n = true

/-- The state with its read position moved by `k`. -/
def DecState.shift (k : Nat) (s : DecState) : DecState :=
  { s with pr := k + s.pr }

/-- The units written and the flag at the end of the decoding loop when it is
entered at the start of `bytes` with the units `pw` written and the flag `e`. -/
def decodeFrom (E : Env) (bytes : List Nat) (fuel : Nat) (pw : List Nat) (e : Bool) :
    Option (List Nat × Bool) :=
  (Utf7ToUni_loop E bytes fuel { pr := 0, pw := pw, berror := e }).map
    fun s => (s.pw, s.berror)

/-! ## The byte-order mark and the line ends -/

/-- Modelled from the spec: `CMemory::SetRawData` (absent from the sources).  A
byte buffer is an owned sequence of octets with its length; the call replaces
the content the buffer had by the first `nLen` bytes at `pData`. -/
def SetRawData (_old : List Nat) (pData : List Nat) (nLen : Nat) : List Nat :=
  pData.take nLen

/-- The table `UTF7_BOM` of `CUtf7::GetBom`: the characters `+/v8-`. -/
def UTF7_BOM : List Nat := [0x2B, 0x2F, 0x76, 0x38, 0x2D]

/-- `CUtf7::GetBom`, where `pcmemBom` is the content the destination has before
the call; `sizeof(UTF7_BOM)` is the number of entries of the table. -/
def GetBom (pcmemBom : List Nat) : List Nat :=
  SetRawData pcmemBom UTF7_BOM UTF7_BOM.length

/-- Modelled from the spec: the EOL styles `EEolType` (declared outside the
sources), in the order of the spec (none, CR LF, LF, CR, NEL, LS, PS) under the
names the table of `GetEol` gives them. -/
inductive EEolType
  | none
  | cr_and_lf
  | line_feed
  | carriage_return
  | next_line
  | line_separator
  | paragraph_separator
  deriving DecidableEq

/-- The value `static_cast<size_t>(eEolType)` of an EOL style. -/
def EEolType.toIndex : EEolType → Nat
  | .none => 0
  | .cr_and_lf => 1
  | .line_feed => 2
  | .carriage_return => 3
  | .next_line => 4
  | .line_separator => 5
  | .paragraph_separator => 6

/-- The table `aEolTable` of `CUtf7::GetEol`: the characters `szData` (without the
NUL that ends the literal) and the length `nLen` of each entry. -/
def aEolTable : List (List Nat × Nat) :=
  [ ([], 0),
    ([0x0D, 0x0A], 2),
    ([0x0A], 1),
    ([0x0D], 1),
    ([0x2B, 0x41, 0x49, 0x55, 0x2D], 5),
    ([0x2B, 0x49, 0x43, 0x67, 0x2D], 5),
    ([0x2B, 0x49, 0x43, 0x6B, 0x2D], 5) ]

/-- `CUtf7::GetEol`, where `pcmemEol` is the content the destination has before
the call. -/
def GetEol (pcmemEol : List Nat) (eEolType : EEolType) : List Nat :=
  let data := aEolTable.getD eEolType.toIndex ([], 0)
  SetRawData pcmemEol data.1 data.2

/-- The environment of the specification with an allocator that has no room for
a scratch buffer of one element and grants every other request. -/
def specEnvNoScratch : Env :=
  { specEnv with alloc := fun n => decide (n ≠ 1) }

/-- The state with the units `pw` written in front of its output and the flag
`e` raised before. -/
def DecState.frame (pw : List Nat) (e : Bool) (s : DecState) : DecState :=
  { pr := s.pr, pw := pw ++ s.pw, berror := e || s.berror }

/-- A contract of the scanners: the block a scanner returns lies inside what it
steps over (`pr + nblocklen ≤ pr_next ≤ pr_end`), and the D scanner steps over
the shift character behind its block unless it reaches the end of the input. -/
structure BlocksInside (E : Env) : Prop where
  dblock : ∀ bytes, (E.CheckUtf7DPart bytes).1 ≤ (E.CheckUtf7DPart bytes).2.1
  dnext : ∀ bytes, (E.CheckUtf7DPart bytes).2.1 ≤ bytes.length
  dshift : ∀ bytes, (E.CheckUtf7DPart bytes).2.1 < bytes.length →
    (E.CheckUtf7DPart bytes).1 < (E.CheckUtf7DPart bytes).2.1
  bblock : ∀ bytes, (E.CheckUtf7BPart bytes).1 ≤ (E.CheckUtf7BPart bytes).2.1
  bnext : ∀ bytes, (E.CheckUtf7BPart bytes).2.1 ≤ bytes.length

/-! ## The decoding loop with a record of its calls

The same statements as `Utf7ToUni`, where every call of `CheckUtf7DPart`, of
`CheckUtf7BPart` and of `_Utf7SetBToUni_block` is recorded with the answer to
"did this call report an error": for a scanner the flag it returns, for the
block conversion whether it sets the flag it is handed. -/

/-- An environment whose scanners return blocks that lie inside the remaining
input and overlap: the D scanner returns the whole rest of the input as its
block and the next byte as the next read position, the B scanner returns the
empty block at the read position. -/
def overlapEnv : Env :=
  { specEnv with
    CheckUtf7DPart := fun bytes => (bytes.length, min 1 bytes.length, false)
    CheckUtf7BPart := fun _ => (0, 0, false) }

/-! ## The MIME encoded-word decoder (`CCodeBase::MIMEHeaderDecode`)

The routine is not part of the sources at hand, which hold only its unit test;
it is written out from the specification (section 4.11). -/

/-- Modelled from the spec: the encoding tags, under the names the unit tests
use for them. -/
inductive ECodeType
  | CODE_SJIS
  | CODE_JIS
  | CODE_EUC
  | CODE_LATIN1
  | CODE_UTF8
  | CODE_CESU8
  | CODE_UNICODE
  | CODE_UNICODEBE
  | CODE_UTF7
  deriving DecidableEq

/-- Modelled from the spec: the lower-case form of an ASCII letter (charsets
are matched case-insensitively). -/
def asciiLower (c : Nat) : Nat :=
  if 0x41 ≤ c ∧ c ≤ 0x5A then c + 0x20 else c

/-- Modelled from the spec: `CHARSET` matches the encoding tag when its
lower-case form is in the canonical alias list of the tag; the alias lists are
the parameter `aliases`. -/
def charsetNames (aliases : ECodeType → List (List Nat)) (tag : ECodeType)
    (charset : List Nat) : Bool :=
  (aliases tag).contains (charset.map asciiLower)

/-- Modelled from the spec: the value of a hexadecimal digit. -/
def hexValue (c : Nat) : Option Nat :=
  if 0x30 ≤ c ∧ c ≤ 0x39 then some (c - 0x30)
  else if 0x41 ≤ c ∧ c ≤ 0x46 then some (c - 0x41 + 10)
  else if 0x61 ≤ c ∧ c ≤ 0x66 then some (c - 0x61 + 10)
  else none

/-- Modelled from the spec: quoted-printable decoding of a payload, with `=HH`
hex escapes and `_` for a space; `n` bounds the number of steps. -/
def decodeQ : Nat → List Nat → List Nat
  | 0, _ => []
  | _, [] => []
  | n + 1, c :: rest =>
    if c = 0x5F then 0x20 :: decodeQ n rest
    else
      match (if c = 0x3D then rest else []) with
      | h :: l :: rest2 =>
        match hexValue h, hexValue l with
        | some a, some b => (16 * a + b) :: decodeQ n rest2
        | _, _ => c :: decodeQ n rest
      | _ => c :: decodeQ n rest

/-- The bytes in front of the first `?=` and the bytes behind it; `none` when
there is no `?=`. -/
def splitAtClose : List Nat → Option (List Nat × List Nat)
  | [] => none
  | a :: rest =>
    if a = 0x3F ∧ rest.head? = some 0x3D then some ([], rest.drop 1)
    else (splitAtClose rest).map fun r => (a :: r.1, r.2)

/-- A token `=?CHARSET?ENCODING?PAYLOAD?=`: its parts and its length in
bytes. -/
structure EncodedWord where
  charset : List Nat
  encoding : Nat
  payload : List Nat
  length : Nat
  deriving DecidableEq

/-- Modelled from the spec: the token of the shape
`=?CHARSET?ENCODING?PAYLOAD?=` with `ENCODING ∈ {B, Q, b, q}` at the start of
`s`; `none` when `s` does not start with such a token, in particular when the
closing `?=` is missing. -/
def parseEncodedWord (s : List Nat) : Option EncodedWord :=
  if s.take 2 = [0x3D, 0x3F] then
    let charset := (s.drop 2).takeWhile fun c => c != 0x3F
    let after := (s.drop 2).drop charset.length
    match after with
    | q1 :: enc :: q2 :: rest =>
      if q1 = 0x3F ∧ q2 = 0x3F ∧ (enc = 0x42 ∨ enc = 0x51 ∨ enc = 0x62 ∨ enc = 0x71) then
        (splitAtClose rest).map fun r =>
          { charset := charset, encoding := enc, payload := r.1,
            length := 2 + charset.length + 3 + r.1.length + 2 }
      else none
    | _ => none
  else none

/-- Modelled from the spec: `B` selects base64, `Q` selects quoted-printable. -/
def decodeEncodedWord (w : EncodedWord) : List Nat :=
  if w.encoding = 0x42 ∨ w.encoding = 0x62 then _DecodeBase64 w.payload
  else decodeQ w.payload.length w.payload

/-- Modelled from the spec: the scan of a header line for tokens.  A token is
decoded only if its `CHARSET` matches the encoding tag, otherwise it is passed
through unchanged; every other byte is passed through.  `fuel` bounds the
number of steps. -/
def MIMEHeaderDecode_scan (aliases : ECodeType → List (List Nat)) (tag : ECodeType) :
    Nat → List Nat → Option (List Nat)
  | _, [] => some []
  | 0, _ :: _ => none
  | fuel + 1, c :: rest =>
    match parseEncodedWord (c :: rest) with
    | none => (MIMEHeaderDecode_scan aliases tag fuel rest).map fun o => c :: o
    | some w =>
      (MIMEHeaderDecode_scan aliases tag fuel ((c :: rest).drop w.length)).map fun o =>
        (if charsetNames aliases tag w.charset then decodeEncodedWord w
         else (c :: rest).take w.length) ++ o

/-- Modelled from the spec: `mime_header_decode(line, tag)`, the bytes of the
decoded line and the flag returned (section 6 and scenarios 7 and 8: true). -/
def MIMEHeaderDecode (aliases : ECodeType → List (List Nat)) (pSrc : List Nat)
    (eCodetype : ECodeType) : Option (List Nat × Bool) :=
  (MIMEHeaderDecode_scan aliases eCodetype pSrc.length pSrc).map fun o => (o, true)

/-- Modelled from the spec: the alias lists as far as the unit test
`MIMEHeaderDecode` shows them: `iso-2022-jp` names JIS and `utf-8` names UTF-8. -/
def testAliases : ECodeType → List (List Nat)
  | .CODE_JIS => [[0x69, 0x73, 0x6F, 0x2D, 0x32, 0x30, 0x32, 0x32, 0x2D, 0x6A, 0x70]]
  | .CODE_UTF8 => [[0x75, 0x74, 0x66, 0x2D, 0x38]]
  | _ => []

/-- A byte the encoder may write: the value of a set-D character, a character
of the base64 alphabet, `+` or `-`. -/
def encoderByte (E : Env) (b : Nat) : Prop :=
  IsUtf7SetD E b = true ∨ (base64Value b).isSome = true ∨ b = 0x2B ∨ b = 0x2D

/-- The number of passes through the body that the `do … while` of
`CUtf7::UniToUtf7` makes, counted along the loop `UniToUtf7_loop`. -/
def UniToUtf7_passes (E : Env) (pSrc : List Nat) (nSrcLen : Nat) :
    Nat → Nat → List Nat → Option Nat
  | 0, _, _ => none
  | fuel + 1, pr, pw =>
    match UniToUtf7_body E pSrc nSrcLen pr pw with
    | none => none
    | some (pr1, pw1) =>
      if pr1 < nSrcLen then (UniToUtf7_passes E pSrc nSrcLen fuel pr1 pw1).map fun k => k + 1
      else some 1

/-- The Unicode line terminator of each EOL style, as the specification names
them: nothing, U+000D U+000A, U+000A, U+000D, U+0085 (NEL), U+2028 (LS) and
U+2029 (PS). -/
def eolTerminator : EEolType → List Nat
  | .none => []
  | .cr_and_lf => [0x0D, 0x0A]
  | .line_feed => [0x0A]
  | .carriage_return => [0x0D]
  | .next_line => [0x85]
  | .line_separator => [0x2028]
  | .paragraph_separator => [0x2029]

/-! ## Lemmas -/

theorem beUnits_length : ∀ (l : List Nat), (wcharsOfBytes (SwapHLByte l)).length = l.length / 2
  | [] => by simp [SwapHLByte, wcharsOfBytes]
  | [_] => by simp [SwapHLByte, wcharsOfBytes]
  | a :: b :: rest => by
    simp only [SwapHLByte, wcharsOfBytes, List.length_cons, beUnits_length rest]
    omega

theorem beUnits_get : ∀ (l : List Nat) (i b0 b1 : Nat),
    l[2 * i]? = some b0 → l[2 * i + 1]? = some b1 →
    (wcharsOfBytes (SwapHLByte l))[i]? = some (b0 * 256 + b1)
  | [], i, b0, b1, h0, _ => by simp at h0
  | [_], i, b0, b1, _, h1 => by simp at h1
  | a :: b :: rest, 0, b0, b1, h0, h1 => by
    simp at h0 h1
    simp [SwapHLByte, wcharsOfBytes, h0, h1]
    omega
  | a :: b :: rest, i + 1, b0, b1, h0, h1 => by
    have e0 : 2 * (i + 1) = (2 * i) + 1 + 1 := by ring
    have e1 : 2 * (i + 1) + 1 = (2 * i + 1) + 1 + 1 := by ring
    rw [e0] at h0
    rw [e1] at h1
    simp only [List.getElem?_cons_succ] at h0 h1
    simp only [SwapHLByte, wcharsOfBytes, List.getElem?_cons_succ]
    exact beUnits_get rest i b0 b1 h0 h1

theorem Utf7SetDToUni_block_length (E : Env) :
    ∀ pSrc : List Nat, (_Utf7SetDToUni_block E pSrc).length = pSrc.length
  | [] => rfl
  | b :: rest => by simp [_Utf7SetDToUni_block, Utf7SetDToUni_block_length E rest]

theorem Utf7SetDToUni_block_get (E : Env) :
    ∀ (pSrc : List Nat) (i b : Nat), pSrc[i]? = some b →
      (_Utf7SetDToUni_block E pSrc)[i]?
        = some (if IsUtf7Direct E b then b else 0xDC00 + b)
  | [], i, b, h => by simp at h
  | a :: rest, 0, b, h => by
    simp at h
    simp [_Utf7SetDToUni_block, BinToTextUnit, h]
  | a :: rest, i + 1, b, h => by
    simp only [List.getElem?_cons_succ] at h
    simp only [_Utf7SetDToUni_block, List.getElem?_cons_succ]
    exact Utf7SetDToUni_block_get E rest i b h

theorem SetB_even (E : Env) (pSrc : List Nat) (bError : Bool) (k : Nat)
    (halloc : E.alloc pSrc.length = true)
    (heven : (_DecodeBase64 pSrc).length = 2 * k) :
    _Utf7SetBToUni_block E pSrc bError
      = { written := wcharsOfBytes (SwapHLByte (_DecodeBase64 pSrc)), ret := k, bError := bError } := by
  have hmod : (_DecodeBase64 pSrc).length % 2 = 0 := by omega
  simp only [_Utf7SetBToUni_block, halloc, hmod]
  simp [heven]
  rw [List.take_of_length_le (by omega)]

theorem SetB_odd (E : Env) (pSrc : List Nat) (bError : Bool) (k : Nat)
    (halloc : E.alloc pSrc.length = true)
    (hodd : (_DecodeBase64 pSrc).length = 2 * k + 1) :
    _Utf7SetBToUni_block E pSrc bError
      = { written := wcharsOfBytes (SwapHLByte ((_DecodeBase64 pSrc).take (2 * k)))
                      ++ BinToText ((_DecodeBase64 pSrc).drop (2 * k)),
          ret := k + 1, bError := true } := by
  have hmod : (_DecodeBase64 pSrc).length % 2 = 1 := by omega
  simp only [_Utf7SetBToUni_block, halloc, hmod]
  simp [hodd, BinToText]

theorem DPart_berror (E : Env) (pSrc : List Nat) (s s1 : DecState)
    (h : Utf7ToUni_DPart E pSrc s = some s1) (hb : s.berror = true) : s1.berror = true := by
  unfold Utf7ToUni_DPart at h
  rcases hsc : E.CheckUtf7DPart (pSrc.drop s.pr) with ⟨n, next, e⟩
  rw [hsc] at h
  simp only [Option.map_eq_some'] at h
  obtain ⟨blk, _, rfl⟩ := h
  simp [hb]

theorem BPart_berror (E : Env) (pSrc : List Nat) (s s1 : DecState)
    (h : Utf7ToUni_BPart E pSrc s = some s1) (hb : s.berror = true) : s1.berror = true := by
  unfold Utf7ToUni_BPart at h
  rcases hsc : E.CheckUtf7BPart (pSrc.drop s.pr) with ⟨n, next, e⟩
  rw [hsc] at h
  simp only [Option.bind_eq_some] at h
  obtain ⟨pm, _, h⟩ := h
  cases pm with
  | true =>
    simp at h
    subst h
    simp [hb]
  | false =>
    simp only [Option.map_eq_some', Bool.false_eq_true, if_false] at h
    obtain ⟨blk, _, rfl⟩ := h
    simp [hb]

theorem body_berror (E : Env) (pSrc : List Nat) (s s1 : DecState) (c : Bool)
    (h : Utf7ToUni_body E pSrc s = some (s1, c)) (hb : s.berror = true) : s1.berror = true := by
  unfold Utf7ToUni_body at h
  simp only [Option.bind_eq_some] at h
  obtain ⟨sd, hd, h⟩ := h
  have hsd := DPart_berror E pSrc s sd hd hb
  by_cases hle : pSrc.length ≤ sd.pr
  · simp [hle] at h
    rw [← h.1]; exact hsd
  · simp only [hle, if_false, Option.map_eq_some'] at h
    obtain ⟨s2, h2, heq⟩ := h
    have := BPart_berror E pSrc sd s2 h2 hsd
    simp only [Prod.mk.injEq] at heq
    rw [← heq.1]; exact this

theorem loop_berror (E : Env) (pSrc : List Nat) :
    ∀ (fuel : Nat) (s r : DecState), Utf7ToUni_loop E pSrc fuel s = some r →
      s.berror = true → r.berror = true
  | 0, s, r, h, _ => by simp [Utf7ToUni_loop] at h
  | fuel + 1, s, r, h, hb => by
    unfold Utf7ToUni_loop at h
    rcases hbody : Utf7ToUni_body E pSrc s with _ | ⟨s1, c⟩
    · rw [hbody] at h; simp at h
    · rw [hbody] at h
      have h1 := body_berror E pSrc s s1 c hbody hb
      cases c with
      | true => exact loop_berror E pSrc fuel s1 r h h1
      | false =>
        simp at h
        rw [← h]; exact h1

theorem scan_shift (E : Env) (want : Bool) (pre suf : List Nat) (m : Nat) :
    ∀ k p, UniToUtf7_scan E want (pre ++ suf) (pre.length + m) k (pre.length + p)
      = (UniToUtf7_scan E want suf m k p).map (fun q => pre.length + q)
  | 0, p => by simp [UniToUtf7_scan]
  | k + 1, p => by
    have hget : (pre ++ suf)[pre.length + p]? = suf[p]? := by
      rw [List.getElem?_append_right (by omega)]; simp
    rw [UniToUtf7_scan, UniToUtf7_scan, hget]
    by_cases hp : p < m
    · have hp2 : pre.length + p < pre.length + m := by omega
      rw [if_pos hp, if_pos hp2]
      cases hc : suf[p]? with
      | none => rfl
      | some c =>
        by_cases hw : IsUtf7SetD E c = want
        · simp only [hw, if_true]
          have := scan_shift E want pre suf m k (p + 1)
          rw [← Nat.add_assoc] at this
          exact this
        · simp [hw]
    · have hp2 : ¬ pre.length + p < pre.length + m := by omega
      rw [if_neg hp, if_neg hp2]
      rfl

theorem scan_takeWhile (E : Env) (want : Bool) :
    ∀ (S rest : List Nat), UniToUtf7_scan E want (S ++ rest) S.length S.length 0
      = some (S.takeWhile (fun c => IsUtf7SetD E c == want)).length
  | [], rest => by simp [UniToUtf7_scan]
  | c :: S, rest => by
    simp only [UniToUtf7_scan, List.length_cons, Nat.zero_lt_succ, if_true, List.cons_append,
      List.getElem?_cons_zero, List.takeWhile_cons]
    by_cases hw : IsUtf7SetD E c = want
    · have hs := scan_shift E want [c] (S ++ rest) S.length S.length 0
      simp only [List.length_singleton, List.singleton_append, Nat.add_zero] at hs
      rw [Nat.add_comm 1 S.length] at hs
      simp only [hw, if_true, Nat.zero_add, hs, scan_takeWhile E want S rest]
      simp [hw, Nat.add_comm]
    · simp [hw]

theorem body_shift (E : Env) (pre suf : List Nat) (m p : Nat) (pw : List Nat) :
    UniToUtf7_body E (pre ++ suf) (pre.length + m) (pre.length + p) pw
      = (UniToUtf7_body E suf m p pw).map (fun r => (pre.length + r.1, r.2)) := by
  unfold UniToUtf7_body
  rw [Nat.add_sub_add_left, scan_shift]
  cases h1 : UniToUtf7_scan E true suf m (m - p) p with
  | none => rfl
  | some q =>
    have hget : (pre ++ suf)[pre.length + q]? = suf[q]? := by
      rw [List.getElem?_append_right (by omega)]; simp
    simp only [Option.map_some', Option.some_bind, hget, Nat.add_sub_add_left, List.drop_append]
    cases hc : suf[q]? with
    | none => rfl
    | some c =>
      simp only [Option.some_bind]
      by_cases hplus : c = 0x2B
      · simp [hplus, Nat.add_assoc]
      · simp only [hplus, if_false, scan_shift, Option.map_map]
        cases h2 : UniToUtf7_scan E false suf m (m - q) q with
        | none => rfl
        | some q2 => simp [Nat.add_sub_add_left, List.drop_append]

theorem loop_shift (E : Env) (pre suf : List Nat) (m : Nat) :
    ∀ (fuel p : Nat) (pw : List Nat),
      UniToUtf7_loop E (pre ++ suf) (pre.length + m) fuel (pre.length + p) pw
        = UniToUtf7_loop E suf m fuel p pw
  | 0, p, pw => rfl
  | fuel + 1, p, pw => by
    rw [UniToUtf7_loop, UniToUtf7_loop, body_shift]
    cases hb : UniToUtf7_body E suf m p pw with
    | none => rfl
    | some r =>
      obtain ⟨q, o⟩ := r
      simp only [Option.map_some', Nat.add_lt_add_iff_left]
      by_cases hq : q < m
      · simp only [hq, if_true]
        exact loop_shift E pre suf m fuel q o
      · simp [hq]

theorem take_length_takeWhile (p : Nat → Bool) :
    ∀ (l rest : List Nat), (l ++ rest).take (l.takeWhile p).length = l.takeWhile p
  | [], rest => by simp
  | a :: l, rest => by
    by_cases h : p a = true
    · simp only [List.takeWhile_cons, h, if_true, List.length_cons, List.cons_append,
        List.take_succ_cons, take_length_takeWhile p l rest]
    · simp [List.takeWhile_cons, h]

theorem body_aux (E : Env) (D R : List Nat) (t : Nat) (junk pw : List Nat)
    (hscan : UniToUtf7_scan E true ((D ++ R) ++ t :: junk) (D ++ R).length (D ++ R).length 0
      = some D.length) :
    UniToUtf7_body E ((D ++ R) ++ t :: junk) (D ++ R).length 0 pw
      = if R.headD t = 0x2B then
          some (D.length + 1, pw ++ _UniToUtf7SetD_block D ++ [0x2B, 0x2D])
        else
          some (D.length + (R.takeWhile (fun c => IsUtf7SetD E c == false)).length,
                pw ++ _UniToUtf7SetD_block D
                  ++ _UniToUtf7SetB_block E (R.takeWhile (fun c => IsUtf7SetD E c == false))) := by
  unfold UniToUtf7_body
  rw [Nat.sub_zero, hscan]
  have hbuf : (D ++ R) ++ t :: junk = D ++ (R ++ t :: junk) := by simp
  have hget : ((D ++ R) ++ t :: junk)[D.length]? = some (R.headD t) := by
    rw [hbuf, List.getElem?_append_right (le_refl _)]
    cases R <;> simp
  have htake : (List.drop 0 ((D ++ R) ++ t :: junk)).take (D.length - 0) = D := by
    rw [hbuf]; simp
  simp only [Option.some_bind, hget, htake]
  by_cases hplus : R.headD t = 0x2B
  · rw [if_pos hplus, if_pos hplus]
  · rw [if_neg hplus, if_neg hplus]
    have h2 : UniToUtf7_scan E false ((D ++ R) ++ t :: junk) (D ++ R).length
        ((D ++ R).length - D.length) D.length
        = some (D.length + (R.takeWhile (fun c => IsUtf7SetD E c == false)).length) := by
      have hs := scan_shift E false D (R ++ t :: junk) R.length R.length 0
      rw [scan_takeWhile E false R (t :: junk)] at hs
      simp only [Nat.add_zero, Option.map_some'] at hs
      rw [hbuf, List.length_append, Nat.add_sub_cancel_left]
      exact hs
    rw [h2]
    simp only [Option.map_some', Nat.add_sub_cancel_left]
    have hblk : (List.drop D.length ((D ++ R) ++ t :: junk)).take
        (R.takeWhile (fun c => IsUtf7SetD E c == false)).length
        = R.takeWhile (fun c => IsUtf7SetD E c == false) := by
      rw [hbuf, List.drop_left]
      exact take_length_takeWhile _ R (t :: junk)
    rw [hblk, List.append_assoc]

theorem body_zero (E : Env) (S : List Nat) (t : Nat) (junk pw : List Nat) :
    UniToUtf7_body E (S ++ t :: junk) S.length 0 pw
      = if (S.dropWhile (fun c => IsUtf7SetD E c == true)).headD t = 0x2B then
          some ((S.takeWhile (fun c => IsUtf7SetD E c == true)).length + 1,
                pw ++ _UniToUtf7SetD_block (S.takeWhile (fun c => IsUtf7SetD E c == true))
                  ++ [0x2B, 0x2D])
        else
          some ((S.takeWhile (fun c => IsUtf7SetD E c == true)).length
                  + ((S.dropWhile (fun c => IsUtf7SetD E c == true)).takeWhile
                      (fun c => IsUtf7SetD E c == false)).length,
                pw ++ _UniToUtf7SetD_block (S.takeWhile (fun c => IsUtf7SetD E c == true))
                  ++ _UniToUtf7SetB_block E
                      ((S.dropWhile (fun c => IsUtf7SetD E c == true)).takeWhile
                        (fun c => IsUtf7SetD E c == false))) := by
  have hS : S.takeWhile (fun c => IsUtf7SetD E c == true)
      ++ S.dropWhile (fun c => IsUtf7SetD E c == true) = S :=
    List.takeWhile_append_dropWhile _ S
  have h := body_aux E (S.takeWhile (fun c => IsUtf7SetD E c == true))
    (S.dropWhile (fun c => IsUtf7SetD E c == true)) t junk pw
  rw [hS] at h
  exact h (scan_takeWhile E true S (t :: junk))

theorem body_pass (E : Env) (S : List Nat) (t : Nat) (junk pw : List Nat) :
    UniToUtf7_body E (S ++ t :: junk) S.length 0 pw
      = some (passLen E S t, pw ++ passOut E S t) := by
  have h1 : (fun c => IsUtf7SetD E c == true) = fun c => IsUtf7SetD E c := by
    funext c; simp
  have h2 : (fun c => IsUtf7SetD E c == false) = fun c => !IsUtf7SetD E c := by
    funext c; simp
  rw [body_zero, h1, h2]
  unfold passLen passOut passHead passB passR passD
  split <;> simp only [List.append_assoc]

theorem loop_pass (E : Env) (S : List Nat) (t : Nat) (junk pw : List Nat) (fuel : Nat) :
    UniToUtf7_loop E (S ++ t :: junk) S.length (fuel + 1) 0 pw
      = if passLen E S t < S.length then
          UniToUtf7_loop E (S.drop (passLen E S t) ++ t :: junk) (S.drop (passLen E S t)).length
            fuel 0 (pw ++ passOut E S t)
        else some (pw ++ passOut E S t) := by
  rw [UniToUtf7_loop, body_pass]
  simp only []
  by_cases hq : passLen E S t < S.length
  · rw [if_pos hq, if_pos hq]
    have hlen : (S.take (passLen E S t)).length = passLen E S t := by
      rw [List.length_take]; omega
    have hs := loop_shift E (S.take (passLen E S t)) (S.drop (passLen E S t) ++ t :: junk)
      (S.drop (passLen E S t)).length fuel 0 (pw ++ passOut E S t)
    rw [← List.append_assoc, List.take_append_drop, hlen, Nat.add_zero, List.length_drop] at hs
    rw [List.length_drop]
    have e : passLen E S t + (S.length - passLen E S t) = S.length := by omega
    rw [e] at hs
    exact hs
  · rw [if_neg hq, if_neg hq]

theorem takeWhile_length_le (p : Nat → Bool) (x : Nat) (l2 : List Nat) (hx : p x = false) :
    ∀ l1 : List Nat, (List.takeWhile p (l1 ++ x :: l2)).length ≤ l1.length
  | [] => by simp [List.takeWhile_cons, hx]
  | a :: l1 => by
    by_cases h : p a = true
    · simp only [List.cons_append, List.takeWhile_cons, h, if_true, List.length_cons]
      exact Nat.succ_le_succ (takeWhile_length_le p x l2 hx l1)
    · simp [List.takeWhile_cons, h]

theorem takeWhile_append_all (p : Nat → Bool) (B : List Nat) :
    ∀ d : List Nat, (∀ u ∈ d, p u = true) → List.takeWhile p (d ++ B) = d ++ List.takeWhile p B
  | [], _ => rfl
  | a :: d, h => by
    have ha : p a = true := h a (List.mem_cons_self a d)
    simp only [List.cons_append, List.takeWhile_cons, ha, if_true]
    rw [takeWhile_append_all p B d (fun u hu => h u (List.mem_cons_of_mem a hu))]

theorem SetD_block_setD (E : Env) :
    ∀ d : List Nat, (∀ u ∈ d, IsUtf7SetD E u = true) → _UniToUtf7SetD_block d = d
  | [], _ => rfl
  | a :: d, h => by
    have ha : IsUtf7SetD E a = true := h a (List.mem_cons_self a d)
    have hlt : a < 0x80 := by
      unfold IsUtf7SetD at ha
      simp only [Bool.and_eq_true, decide_eq_true_eq] at ha
      exact ha.1
    have ih := SetD_block_setD E d (fun u hu => h u (List.mem_cons_of_mem a hu))
    unfold _UniToUtf7SetD_block at ih ⊢
    rw [List.map_cons, ih, Nat.mod_eq_of_lt (by omega)]

theorem pass_cons_setD (E : Env) (a : Nat) (S : List Nat) (t : Nat)
    (ha : IsUtf7SetD E a = true) :
    passLen E (a :: S) t = passLen E S t + 1
    ∧ passOut E (a :: S) t = a :: passOut E S t := by
  have hlt : a < 0x80 := by
    unfold IsUtf7SetD at ha
    simp only [Bool.and_eq_true, decide_eq_true_eq] at ha
    exact ha.1
  have hD : passD E (a :: S) = a :: passD E S := by
    simp [passD, List.takeWhile_cons, ha]
  have hR : passR E (a :: S) = passR E S := by
    simp [passR, List.dropWhile_cons, ha]
  have hB : passB E (a :: S) = passB E S := by
    simp [passB, hR]
  have hH : passHead E (a :: S) t = passHead E S t := by
    simp [passHead, hR]
  constructor
  · simp only [passLen, hD, hB, hH, List.length_cons]; omega
  · simp only [passOut, hD, hB, hH, _UniToUtf7SetD_block, List.map_cons, List.cons_append]
    rw [Nat.mod_eq_of_lt (by omega)]

theorem pass_cons_other (E : Env) (a : Nat) (S : List Nat) (t : Nat)
    (ha : IsUtf7SetD E a = false) :
    passD E (a :: S) = [] ∧ passR E (a :: S) = a :: S ∧ passHead E (a :: S) t = a
    ∧ passB E (a :: S) = a :: S.takeWhile (fun c => !IsUtf7SetD E c) := by
  have hD : passD E (a :: S) = [] := by simp [passD, List.takeWhile_cons, ha]
  have hR : passR E (a :: S) = a :: S := by simp [passR, List.dropWhile_cons, ha]
  refine ⟨hD, hR, ?_, ?_⟩
  · simp [passHead, hR]
  · simp [passB, hR, List.takeWhile_cons, ha]

theorem pass_progress (E : Env) (S : List Nat) (t : Nat) (hS : S ≠ []) : 0 < passLen E S t := by
  cases S with
  | nil => exact absurd rfl hS
  | cons a S =>
    cases ha : IsUtf7SetD E a with
    | true => rw [(pass_cons_setD E a S t ha).1]; omega
    | false =>
      obtain ⟨hD, _, hH, hB⟩ := pass_cons_other E a S t ha
      simp only [passLen, hD, hH, hB, List.length_nil, List.length_cons]
      split <;> omega

theorem loop_total (E : Env) (t : Nat) (junk : List Nat) :
    ∀ (fuel : Nat) (S pw : List Nat), 1 ≤ fuel → S.length ≤ fuel →
      ∃ o, UniToUtf7_loop E (S ++ t :: junk) S.length fuel 0 pw = some (pw ++ o)
  | 0, _, _, h, _ => by omega
  | fuel + 1, S, pw, _, hlen => by
    rw [loop_pass]
    by_cases hq : passLen E S t < S.length
    · rw [if_pos hq]
      have hS : S ≠ [] := by
        intro h; rw [h] at hq; simp at hq
      have hpos := pass_progress E S t hS
      obtain ⟨o, ho⟩ := loop_total E t junk fuel (S.drop (passLen E S t)) (pw ++ passOut E S t)
        (by omega) (by rw [List.length_drop]; omega)
      exact ⟨passOut E S t ++ o, by rw [ho, List.append_assoc]⟩
    · rw [if_neg hq]
      exact ⟨_, rfl⟩

theorem loop_pw (E : Env) (t : Nat) (junk : List Nat) :
    ∀ (fuel : Nat) (S pw : List Nat),
      UniToUtf7_loop E (S ++ t :: junk) S.length fuel 0 pw
        = (UniToUtf7_loop E (S ++ t :: junk) S.length fuel 0 []).map (fun o => pw ++ o)
  | 0, _, _ => rfl
  | fuel + 1, S, pw => by
    rw [loop_pass, loop_pass]
    by_cases hq : passLen E S t < S.length
    · rw [if_pos hq, if_pos hq, loop_pw E t junk fuel _ (pw ++ passOut E S t),
        loop_pw E t junk fuel _ ([] ++ passOut E S t)]
      simp [Option.map_map, Function.comp_def]
    · rw [if_neg hq, if_neg hq]
      simp

theorem UniToUtf7_total (E : Env) (S : List Nat) (fuel : Nat) (h1 : 1 ≤ fuel)
    (hlen : S.length ≤ fuel) : ∃ o, UniToUtf7 E (CNativeW S) S.length fuel = some o := by
  obtain ⟨o, ho⟩ := loop_total E 0 [] fuel S [] h1 hlen
  exact ⟨o, by simpa [UniToUtf7, CNativeW] using ho⟩

/-- One pass in front of the rest of the input. -/
theorem UniToUtf7_pass (E : Env) (S : List Nat) (fuel : Nat) (h1 : 1 ≤ fuel)
    (hlen : (S.drop (passLen E S 0)).length ≤ fuel) :
    ∃ o, UniToUtf7 E (CNativeW (S.drop (passLen E S 0))) (S.drop (passLen E S 0)).length fuel
          = some o
      ∧ UniToUtf7 E (CNativeW S) S.length (fuel + 1) = some (passOut E S 0 ++ o) := by
  obtain ⟨o, ho⟩ := UniToUtf7_total E (S.drop (passLen E S 0)) fuel h1 hlen
  refine ⟨o, ho, ?_⟩
  unfold UniToUtf7 CNativeW at ho ⊢
  rw [loop_pass]
  by_cases hq : passLen E S 0 < S.length
  · rw [if_pos hq, loop_pw, ho]
    simp
  · rw [if_neg hq]
    have hnil : S.drop (passLen E S 0) = [] := List.drop_eq_nil_of_le (by omega)
    rw [hnil] at ho
    cases fuel with
    | zero => omega
    | succ f =>
      rw [loop_pass] at ho
      simp [passLen, passOut, passHead, passD, passR, passB, _UniToUtf7SetD_block,
        _UniToUtf7SetB_block] at ho
      subst ho
      simp

theorem pass_setD_run (E : Env) (t : Nat) (R : List Nat) :
    ∀ d : List Nat, (∀ u ∈ d, IsUtf7SetD E u = true) →
      passLen E (d ++ R) t = d.length + passLen E R t
      ∧ passOut E (d ++ R) t = d ++ passOut E R t
  | [], _ => by simp
  | a :: d, h => by
    have ha : IsUtf7SetD E a = true := h a (List.mem_cons_self a d)
    obtain ⟨h1, h2⟩ := pass_setD_run E t R d (fun u hu => h u (List.mem_cons_of_mem a hu))
    obtain ⟨h3, h4⟩ := pass_cons_setD E a (d ++ R) t ha
    constructor
    · rw [List.cons_append, h3, h1, List.length_cons]; omega
    · rw [List.cons_append, h4, h2, List.cons_append]

theorem pass_nil (E : Env) (t : Nat) (ht : t ≠ 0x2B) :
    passLen E [] t = 0 ∧ passOut E [] t = [] := by
  simp [passLen, passOut, passHead, passD, passR, passB, ht, _UniToUtf7SetD_block,
    _UniToUtf7SetB_block]

theorem pass_plus (E : Env) (t : Nat) (rest : List Nat) (hplus : IsUtf7SetD E 0x2B = false) :
    passLen E (0x2B :: rest) t = 1 ∧ passOut E (0x2B :: rest) t = [0x2B, 0x2D] := by
  obtain ⟨hD, _, hH, _⟩ := pass_cons_other E 0x2B rest t hplus
  simp [passLen, passOut, hD, hH, _UniToUtf7SetD_block]

theorem takeWhile_not_setD (E : Env) (rest : List Nat)
    (hrest : ∀ u ∈ rest.head?, IsUtf7SetD E u = true) :
    ∀ b : List Nat, (∀ u ∈ b, IsUtf7SetD E u = false) →
      List.takeWhile (fun c => !IsUtf7SetD E c) (b ++ rest) = b
  | [], _ => by
    cases rest with
    | nil => rfl
    | cons r rest =>
      have hr : IsUtf7SetD E r = true := hrest r (by simp)
      simp [List.takeWhile_cons, hr]
  | a :: b, h => by
    have ha : IsUtf7SetD E a = false := h a (List.mem_cons_self a b)
    simp only [List.cons_append, List.takeWhile_cons, ha, Bool.not_false, if_true]
    rw [takeWhile_not_setD E rest hrest b (fun u hu => h u (List.mem_cons_of_mem a hu))]

theorem pass_run (E : Env) (t c : Nat) (b rest : List Nat) (hc : c ≠ 0x2B)
    (hb : ∀ u ∈ c :: b, IsUtf7SetD E u = false)
    (hrest : ∀ u ∈ rest.head?, IsUtf7SetD E u = true) :
    passLen E ((c :: b) ++ rest) t = (c :: b).length
    ∧ passOut E ((c :: b) ++ rest) t = _UniToUtf7SetB_block E (c :: b) := by
  have hcD : IsUtf7SetD E c = false := hb c (List.mem_cons_self c b)
  obtain ⟨hD, _, hH, hB⟩ := pass_cons_other E c (b ++ rest) t hcD
  have hB2 : passB E (c :: (b ++ rest)) = c :: b := by
    rw [hB, takeWhile_not_setD E rest hrest b (fun u hu => hb u (List.mem_cons_of_mem c hu))]
  simp only [List.cons_append, passLen, passOut, hD, hH, hB2, hc, if_false, List.length_nil,
    Nat.zero_add, _UniToUtf7SetD_block, List.map_nil, List.nil_append, and_self]

theorem pass_cases (E : Env) (t : Nat) (d B : List Nat) (hne : d ≠ [])
    (hd : ∀ u ∈ d, IsUtf7SetD E u = true) :
    ∀ A : List Nat, (∃ X Y, passOut E (A ++ d ++ B) t = X ++ d ++ Y)
      ∨ passLen E (A ++ d ++ B) t ≤ A.length
  | [] => by
    left
    obtain ⟨_, h2⟩ := pass_setD_run E t B d hd
    exact ⟨[], passOut E B t, by simpa using h2⟩
  | a :: A => by
    cases ha : IsUtf7SetD E a with
    | true =>
      obtain ⟨h1, h2⟩ := pass_cons_setD E a (A ++ d ++ B) t ha
      rcases pass_cases E t d B hne hd A with ⟨X, Y, hXY⟩ | hle
      · left
        exact ⟨a :: X, Y, by simp only [List.cons_append, List.append_assoc] at h2 hXY ⊢; rw [h2, hXY]⟩
      · right
        simp only [List.cons_append, List.append_assoc, List.length_cons] at h1 hle ⊢
        omega
    | false =>
      right
      obtain ⟨hD, _, hH, hB⟩ := pass_cons_other E a (A ++ d ++ B) t ha
      simp only [List.cons_append, List.append_assoc] at hD hH hB ⊢
      simp only [passLen, hD, hH, hB, List.length_nil, Nat.zero_add, List.length_cons]
      split
      · omega
      · cases d with
        | nil => exact absurd rfl hne
        | cons d0 d =>
          have hd0 : IsUtf7SetD E d0 = true := hd d0 (List.mem_cons_self d0 d)
          have := takeWhile_length_le (fun c => !IsUtf7SetD E c) d0 (d ++ B) (by simp [hd0]) A
          simp only [List.cons_append] at this ⊢
          omega

theorem loop_verbatim (E : Env) (d B : List Nat) (hne : d ≠ [])
    (hd : ∀ u ∈ d, IsUtf7SetD E u = true) :
    ∀ (fuel : Nat) (A pw : List Nat), 1 ≤ fuel → (A ++ d ++ B).length ≤ fuel →
      ∃ X Y, UniToUtf7_loop E ((A ++ d ++ B) ++ [0]) (A ++ d ++ B).length fuel 0 pw
        = some (pw ++ X ++ d ++ Y)
  | 0, _, _, h, _ => by omega
  | fuel + 1, A, pw, _, hlen => by
    rw [loop_pass]
    have hdl : 0 < d.length := List.length_pos.2 hne
    by_cases hq : passLen E (A ++ d ++ B) 0 < (A ++ d ++ B).length
    · rw [if_pos hq]
      have hS : A ++ d ++ B ≠ [] := by
        intro h; rw [h] at hq; simp at hq
      have hpos := pass_progress E (A ++ d ++ B) 0 hS
      have hf1 : 1 ≤ fuel := by omega
      have hf2 : ((A ++ d ++ B).drop (passLen E (A ++ d ++ B) 0)).length ≤ fuel := by
        rw [List.length_drop]; omega
      rcases pass_cases E 0 d B hne hd A with ⟨X, Y, hXY⟩ | hle
      · obtain ⟨o, ho⟩ := loop_total E 0 [] fuel _ (pw ++ passOut E (A ++ d ++ B) 0) hf1 hf2
        refine ⟨X, Y ++ o, ?_⟩
        rw [ho, hXY]
        simp only [List.append_assoc]
      · have hdrop : ∀ q, q ≤ A.length → (A ++ d ++ B).drop q = A.drop q ++ d ++ B := by
          intro q hq
          rw [List.append_assoc, List.drop_append_of_le_length hq, List.append_assoc]
        rw [hdrop _ hle] at hf2 ⊢
        obtain ⟨X, Y, hXY⟩ := loop_verbatim E d B hne hd fuel
          (A.drop (passLen E (A ++ d ++ B) 0)) (pw ++ passOut E (A ++ d ++ B) 0) hf1 hf2
        refine ⟨passOut E (A ++ d ++ B) 0 ++ X, Y, ?_⟩
        rw [hXY]
        simp only [List.append_assoc]
    · rw [if_neg hq]
      rcases pass_cases E 0 d B hne hd A with ⟨X, Y, hXY⟩ | hle
      · refine ⟨X, Y, ?_⟩
        rw [hXY]
        simp only [List.append_assoc]
      · simp only [List.length_append] at hq
        omega

theorem envelopePaired_mono : ∀ (l : List Nat) (p : Bool),
    envelopePaired false l = true → envelopePaired p l = true
  | [], _, _ => rfl
  | u :: rest, p, h => by
    simp only [envelopePaired, Bool.or_false, Bool.and_eq_true] at h ⊢
    exact ⟨by simp [h.1], h.2⟩

theorem envelopePaired_append : ∀ (a b : List Nat) (p : Bool),
    envelopePaired p a = true → envelopePaired false b = true →
      envelopePaired p (a ++ b) = true
  | [], b, p, _, hb => envelopePaired_mono b p hb
  | u :: a, b, p, ha, hb => by
    simp only [List.cons_append, envelopePaired, Bool.and_eq_true] at ha ⊢
    exact ⟨ha.1, envelopePaired_append a b _ ha.2 hb⟩

theorem noLoneEnvelope_append (a b : List Nat) (ha : noLoneEnvelope a = true)
    (hb : noLoneEnvelope b = true) : noLoneEnvelope (a ++ b) = true :=
  envelopePaired_append a b false ha hb

theorem isEnvelope_isLow (u : Nat) (h : isLowSurrogate u = false) : isEnvelope u = false := by
  unfold isLowSurrogate at h
  unfold isEnvelope
  simp only [Bool.and_eq_false_iff, decide_eq_false_iff_not] at h ⊢
  omega

theorem isEnvelope_isHigh (u : Nat) (h : isHighSurrogate u = true) : isEnvelope u = false := by
  unfold isHighSurrogate at h
  unfold isEnvelope
  simp only [Bool.and_eq_true, decide_eq_true_eq, Bool.and_eq_false_iff,
    decide_eq_false_iff_not] at h ⊢
  omega

theorem wellFormed_noLone : ∀ l : List Nat, wellFormedUtf16 l = true → noLoneEnvelope l = true
  | [], _ => rfl
  | [u], h => by
    simp only [wellFormedUtf16, Bool.and_eq_true, Bool.not_eq_true'] at h
    simp [noLoneEnvelope, envelopePaired, isEnvelope_isLow u h.2]
  | u :: v :: rest, h => by
    unfold wellFormedUtf16 at h
    by_cases hu : isHighSurrogate u = true
    · rw [if_pos hu] at h
      simp only [Bool.and_eq_true] at h
      have ih := wellFormed_noLone rest h.2
      simp only [noLoneEnvelope, envelopePaired, hu, isEnvelope_isHigh u hu, Bool.not_false,
        Bool.true_or, Bool.or_true, Bool.true_and]
      exact envelopePaired_mono rest _ ih
    · rw [if_neg hu] at h
      simp only [Bool.and_eq_true, Bool.not_eq_true'] at h
      have ih := wellFormed_noLone (v :: rest) h.2
      have hu2 : isHighSurrogate u = false := by simpa using hu
      simp only [noLoneEnvelope] at ih ⊢
      rw [envelopePaired, hu2, isEnvelope_isLow u h.1]
      simpa using ih

theorem SetDToUni_direct_noLone (E : Env) : ∀ (blk : List Nat) (p : Bool),
    (∀ b ∈ blk, IsUtf7Direct E b = true) →
      envelopePaired p (_Utf7SetDToUni_block E blk) = true
  | [], _, _ => rfl
  | b :: blk, p, h => by
    have hb : IsUtf7Direct E b = true := h b (List.mem_cons_self b blk)
    have hlt : b < 0x80 := by
      unfold IsUtf7Direct at hb
      simp only [Bool.and_eq_true, decide_eq_true_eq] at hb
      exact hb.1
    have henv : isEnvelope b = false := by
      unfold isEnvelope
      simp only [Bool.and_eq_false_iff, decide_eq_false_iff_not]
      omega
    simp only [_Utf7SetDToUni_block, hb, if_true, envelopePaired, henv, Bool.not_false,
      Bool.true_or, Bool.true_and]
    exact SetDToUni_direct_noLone E blk _ (fun c hc => h c (List.mem_cons_of_mem b hc))

theorem readBlock_eq (pSrc : List Nat) (pr n : Nat) (blk : List Nat)
    (h : readBlock pSrc pr n = some blk) : blk = (pSrc.drop pr).take n := by
  unfold readBlock at h
  split at h
  · simpa using h.symm
  · simp at h

theorem DPart_noLone (E : Env) (hD : DPartErrorsReported E) (pSrc : List Nat) (s s1 : DecState)
    (h : Utf7ToUni_DPart E pSrc s = some s1) (he : s1.berror = false)
    (hs : noLoneEnvelope s.pw = true) :
    s.berror = false ∧ noLoneEnvelope s1.pw = true := by
  unfold Utf7ToUni_DPart at h
  rcases hsc : E.CheckUtf7DPart (pSrc.drop s.pr) with ⟨n, next, e⟩
  rw [hsc] at h
  simp only [Option.map_eq_some'] at h
  obtain ⟨blk, hblk, rfl⟩ := h
  simp only [Bool.or_eq_false_iff] at he
  obtain ⟨hsb, hef⟩ := he
  subst hef
  have hdir := hD _ n next hsc
  rw [← readBlock_eq pSrc s.pr n blk hblk] at hdir
  exact ⟨hsb, noLoneEnvelope_append _ _ hs (SetDToUni_direct_noLone E blk false hdir)⟩

theorem BPart_noLone (E : Env) (hB : BPartErrorsReported E) (pSrc : List Nat) (s s1 : DecState)
    (h : Utf7ToUni_BPart E pSrc s = some s1) (he : s1.berror = false)
    (hs : noLoneEnvelope s.pw = true) :
    s.berror = false ∧ noLoneEnvelope s1.pw = true := by
  unfold Utf7ToUni_BPart at h
  rcases hsc : E.CheckUtf7BPart (pSrc.drop s.pr) with ⟨n, next, e⟩
  rw [hsc] at h
  simp only [Option.bind_eq_some] at h
  obtain ⟨pm, _, h⟩ := h
  cases pm with
  | true =>
    simp only [if_true, Option.some.injEq] at h
    subst h
    simp only [Bool.or_eq_false_iff] at he
    exact ⟨he.1, noLoneEnvelope_append _ _ hs (by decide)⟩
  | false =>
    simp only [Option.map_eq_some', Bool.false_eq_true, if_false] at h
    obtain ⟨blk, hblk, rfl⟩ := h
    simp only [Bool.or_eq_false_iff] at he
    obtain ⟨⟨hsb, hef⟩, hbe⟩ := he
    subst hef
    have := hB _ n next hsc
    rw [← readBlock_eq pSrc s.pr n blk hblk] at this
    exact ⟨hsb, noLoneEnvelope_append _ _ hs (this hbe)⟩

theorem body_noLone (E : Env) (hD : DPartErrorsReported E) (hB : BPartErrorsReported E)
    (pSrc : List Nat) (s s1 : DecState) (c : Bool)
    (h : Utf7ToUni_body E pSrc s = some (s1, c)) (he : s1.berror = false)
    (hs : noLoneEnvelope s.pw = true) :
    s.berror = false ∧ noLoneEnvelope s1.pw = true := by
  unfold Utf7ToUni_body at h
  simp only [Option.bind_eq_some] at h
  obtain ⟨sd, hd, h⟩ := h
  by_cases hle : pSrc.length ≤ sd.pr
  · simp only [hle, if_true, Option.some.injEq, Prod.mk.injEq] at h
    obtain ⟨rfl, _⟩ := h
    exact DPart_noLone E hD pSrc s sd hd he hs
  · simp only [hle, if_false, Option.map_eq_some', Prod.mk.injEq] at h
    obtain ⟨s2, h2, rfl, _⟩ := h
    cases hsd : sd.berror with
    | true =>
      have := BPart_berror E pSrc sd s2 h2 hsd
      rw [this] at he
      exact absurd he (by simp)
    | false =>
      obtain ⟨hsb, hsd1⟩ := DPart_noLone E hD pSrc s sd hd hsd hs
      exact ⟨hsb, (BPart_noLone E hB pSrc sd s2 h2 he hsd1).2⟩

theorem loop_noLone (E : Env) (hD : DPartErrorsReported E) (hB : BPartErrorsReported E)
    (pSrc : List Nat) :
    ∀ (fuel : Nat) (s r : DecState), Utf7ToUni_loop E pSrc fuel s = some r →
      r.berror = false → noLoneEnvelope s.pw = true → noLoneEnvelope r.pw = true
  | 0, s, r, h, _, _ => by simp [Utf7ToUni_loop] at h
  | fuel + 1, s, r, h, he, hs => by
    unfold Utf7ToUni_loop at h
    rcases hbody : Utf7ToUni_body E pSrc s with _ | ⟨s1, c⟩
    · rw [hbody] at h; simp at h
    · rw [hbody] at h
      cases c with
      | true =>
        simp only at h
        cases hs1 : s1.berror with
        | true =>
          have := loop_berror E pSrc fuel s1 r h hs1
          rw [this] at he
          exact absurd he (by simp)
        | false =>
          have h1 := body_noLone E hD hB pSrc s s1 true hbody hs1 hs
          exact loop_noLone E hD hB pSrc fuel s1 r h he h1.2
      | false =>
        simp only [Option.some.injEq] at h
        subst h
        exact (body_noLone E hD hB pSrc s s1 false hbody he hs).2

theorem body_DPart (E : Env) (pSrc : List Nat) (s s1 : DecState) (c : Bool)
    (h : Utf7ToUni_body E pSrc s = some (s1, c)) :
    ∃ sd, Utf7ToUni_DPart E pSrc s = some sd ∧ (sd.berror = true → s1.berror = true) := by
  unfold Utf7ToUni_body at h
  simp only [Option.bind_eq_some] at h
  obtain ⟨sd, hd, h⟩ := h
  refine ⟨sd, hd, ?_⟩
  by_cases hle : pSrc.length ≤ sd.pr
  · simp only [hle, if_true, Option.some.injEq, Prod.mk.injEq] at h
    obtain ⟨rfl, _⟩ := h
    exact id
  · simp only [hle, if_false, Option.map_eq_some', Prod.mk.injEq] at h
    obtain ⟨s2, h2, rfl, _⟩ := h
    exact BPart_berror E pSrc sd s2 h2

theorem loop_fallback_flag (E : Env) (hD : DPartErrorsReported E) (pSrc : List Nat)
    (s : DecState) (b : Nat)
    (hb : b ∈ (pSrc.drop s.pr).take (E.CheckUtf7DPart (pSrc.drop s.pr)).1)
    (hnd : IsUtf7Direct E b = false) :
    ∀ (fuel : Nat) (r : DecState), Utf7ToUni_loop E pSrc fuel s = some r → r.berror = true
  | 0, r, h => by simp [Utf7ToUni_loop] at h
  | fuel + 1, r, h => by
    unfold Utf7ToUni_loop at h
    rcases hbody : Utf7ToUni_body E pSrc s with _ | ⟨s1, c⟩
    · rw [hbody] at h; simp at h
    · rw [hbody] at h
      obtain ⟨sd, hd, himp⟩ := body_DPart E pSrc s s1 c hbody
      have hsd : sd.berror = true := by
        unfold Utf7ToUni_DPart at hd
        rcases hsc : E.CheckUtf7DPart (pSrc.drop s.pr) with ⟨n, next, e⟩
        rw [hsc] at hd hb
        simp only [Option.map_eq_some'] at hd
        obtain ⟨blk, _, rfl⟩ := hd
        cases e with
        | true => simp
        | false =>
          have := hD _ n next hsc b hb
          rw [this] at hnd
          exact absurd hnd (by simp)
      have hs1 := himp hsd
      cases c with
      | true => exact loop_berror E pSrc fuel s1 r h hs1
      | false =>
        simp only [Option.some.injEq] at h
        subst h
        exact hs1

theorem take_takeWhile_self (p : Nat → Bool) (l : List Nat) :
    l.take (l.takeWhile p).length = l.takeWhile p := by
  have := take_length_takeWhile p l []
  simpa using this

theorem spec_DPartErrorsReported : DPartErrorsReported specEnv := by
  intro bytes n next h b hb
  simp only [specEnv, specCheckUtf7DPart, Prod.mk.injEq] at h
  obtain ⟨hn, _, hany⟩ := h
  rw [← hn, take_takeWhile_self] at hb
  simp only [List.any_eq_false, Bool.not_eq_true', Bool.not_eq_false'] at hany
  have := hany b hb
  simpa [IsUtf7Direct, specEnv] using this

theorem spec_BPartErrorsReported : BPartErrorsReported specEnv := by
  intro bytes n next h _
  simp only [specEnv, specCheckUtf7BPart, Prod.mk.injEq, Bool.or_eq_false_iff,
    decide_eq_false_iff_not, Bool.not_eq_false', ne_eq, not_not] at h
  obtain ⟨hn, _, heven, hwf⟩ := h
  rw [← hn, take_takeWhile_self]
  have hk : (_DecodeBase64 (bytes.takeWhile fun c => (base64Value c).isSome)).length
      = 2 * ((_DecodeBase64 (bytes.takeWhile fun c => (base64Value c).isSome)).length / 2) := by
    omega
  rw [SetB_even specEnv _ false _ rfl hk]
  exact wellFormed_noLone _ hwf

/-- The encoder run on a string whose first pass is known. -/
theorem UniToUtf7_first_pass (E : Env) (S rest out : List Nat) (fuel : Nat)
    (hdrop : S.drop (passLen E S 0) = rest) (hout : passOut E S 0 = out)
    (h1 : 1 ≤ fuel) (hlen : rest.length ≤ fuel) :
    ∃ o, UniToUtf7 E (CNativeW rest) rest.length fuel = some o
      ∧ UniToUtf7 E (CNativeW S) S.length (fuel + 1) = some (out ++ o) := by
  subst hdrop hout
  exact UniToUtf7_pass E S fuel h1 hlen


theorem SetB_single_envelope (E : Env) (u : Nat) (hu : 0xDC00 ≤ u ∧ u ≤ 0xDCFF)
    (halloc : E.alloc 1 = true) :
    _UniToUtf7SetB_block E [u] = [0x2B] ++ _EncodeBase64 [0xDC, u % 256] ++ [0x2D] := by
  have hne : u ≠ 0 := by omega
  have hhi : u / 256 % 256 = 0xDC := by omega
  simp [_UniToUtf7SetB_block, halloc, wcsncpy, hne, bytesOfWchars, SwapHLByte, hhi]

theorem wcsncpy_without_nul : ∀ R : List Nat, (∀ u ∈ R, u ≠ 0) → wcsncpy R = R
  | [], _ => rfl
  | u :: R, h => by
    have hu : u ≠ 0 := h u (List.mem_cons_self u R)
    simp only [wcsncpy, hu, if_false]
    rw [wcsncpy_without_nul R (fun v hv => h v (List.mem_cons_of_mem u hv))]

theorem swap_bytesOfWchars : ∀ R : List Nat, SwapHLByte (bytesOfWchars R) = bigEndianBytes R
  | [] => rfl
  | u :: R => by
    simp only [bytesOfWchars, SwapHLByte, bigEndianBytes, swap_bytesOfWchars R]

theorem bigEndianBytes_length : ∀ R : List Nat, (bigEndianBytes R).length = 2 * R.length
  | [] => rfl
  | u :: R => by
    simp only [bigEndianBytes, List.length_cons, bigEndianBytes_length R]
    omega

theorem encodeSextets_length : ∀ l : List Nat, (encodeSextets l).length = (4 * l.length + 2) / 3
  | [] => rfl
  | [_] => by simp [encodeSextets]
  | [_, _] => by simp [encodeSextets]
  | a :: b :: c :: rest => by
    simp only [encodeSextets, List.length_cons, encodeSextets_length rest]
    omega

theorem SetB_block_without_nul (E : Env) (R : List Nat) (hne : R ≠ [])
    (hnul : ∀ u ∈ R, u ≠ 0) (halloc : E.alloc R.length = true) :
    _UniToUtf7SetB_block E R = [0x2B] ++ _EncodeBase64 (bigEndianBytes R) ++ [0x2D]
    ∧ (_UniToUtf7SetB_block E R).length = 2 + (8 * R.length + 2) / 3 := by
  have hlen : ¬ R.length < 1 := by
    have := List.length_pos.2 hne
    omega
  have heq : _UniToUtf7SetB_block E R = [0x2B] ++ _EncodeBase64 (bigEndianBytes R) ++ [0x2D] := by
    simp only [_UniToUtf7SetB_block, hlen, if_false, halloc, Bool.true_eq_false,
      wcsncpy_without_nul R hnul, swap_bytesOfWchars]
  refine ⟨heq, ?_⟩
  rw [heq]
  simp only [_EncodeBase64, List.length_append, List.length_map, encodeSextets_length,
    bigEndianBytes_length, List.length_singleton]
  omega

theorem base64Value_base64Char : ∀ v, v < 64 → base64Value (base64Char v) = some v := by
  decide

theorem base64Value_minus : base64Value 0x2D = none := by decide

theorem encodeSextets_lt : ∀ l : List Nat, (∀ b ∈ l, b < 256) → ∀ s ∈ encodeSextets l, s < 64
  | [], _, s, hs => by simp [encodeSextets] at hs
  | [a], h, s, hs => by
    have ha : a < 256 := h a (by simp)
    simp only [encodeSextets, List.mem_cons, List.mem_singleton, List.not_mem_nil, or_false] at hs
    rcases hs with rfl | rfl <;> omega
  | [a, b], h, s, hs => by
    have ha : a < 256 := h a (by simp)
    have hb : b < 256 := h b (by simp)
    simp only [encodeSextets, List.mem_cons, List.mem_singleton, List.not_mem_nil, or_false] at hs
    rcases hs with rfl | rfl | rfl <;> omega
  | a :: b :: c :: rest, h, s, hs => by
    have ha : a < 256 := h a (by simp)
    have hb : b < 256 := h b (by simp)
    have hc : c < 256 := h c (by simp)
    simp only [encodeSextets, List.mem_cons] at hs
    rcases hs with rfl | rfl | rfl | rfl | hs
    · omega
    · omega
    · omega
    · omega
    · exact encodeSextets_lt rest (fun x hx => h x (by simp [hx])) s hs

theorem decode_encode_sextets : ∀ l : List Nat, (∀ b ∈ l, b < 256) →
    decodeSextets (encodeSextets l) = l
  | [], _ => rfl
  | [a], h => by
    have ha : a < 256 := h a (by simp)
    simp only [encodeSextets, decodeSextets, List.cons.injEq, and_true]
    omega
  | [a, b], h => by
    have ha : a < 256 := h a (by simp)
    have hb : b < 256 := h b (by simp)
    simp only [encodeSextets, decodeSextets, List.cons.injEq, and_true]
    constructor <;> omega
  | a :: b :: c :: rest, h => by
    have ha : a < 256 := h a (by simp)
    have hb : b < 256 := h b (by simp)
    have hc : c < 256 := h c (by simp)
    have ih := decode_encode_sextets rest (fun x hx => h x (by simp [hx]))
    simp only [encodeSextets, decodeSextets, ih, List.cons.injEq, and_true]
    refine ⟨?_, ?_, ?_⟩ <;> omega

theorem filterMap_base64 : ∀ l : List Nat, (∀ s ∈ l, s < 64) →
    (l.map base64Char).filterMap base64Value = l
  | [], _ => rfl
  | s :: l, h => by
    have hs : s < 64 := h s (by simp)
    simp only [List.map_cons, List.filterMap_cons, base64Value_base64Char s hs]
    rw [filterMap_base64 l (fun x hx => h x (by simp [hx]))]

theorem DecodeBase64_EncodeBase64 (l : List Nat) (h : ∀ b ∈ l, b < 256) :
    _DecodeBase64 (_EncodeBase64 l) = l := by
  unfold _DecodeBase64 _EncodeBase64
  rw [filterMap_base64 _ (encodeSextets_lt l h), decode_encode_sextets l h]

theorem bigEndianBytes_lt : ∀ R : List Nat, ∀ b ∈ bigEndianBytes R, b < 256
  | [], b, hb => by simp [bigEndianBytes] at hb
  | u :: R, b, hb => by
    simp only [bigEndianBytes, List.mem_cons] at hb
    rcases hb with rfl | rfl | hb
    · omega
    · omega
    · exact bigEndianBytes_lt R b hb

theorem units_of_bigEndianBytes : ∀ R : List Nat, (∀ u ∈ R, u < 65536) →
    wcharsOfBytes (SwapHLByte (bigEndianBytes R)) = R
  | [], _ => rfl
  | u :: R, h => by
    have hu : u < 65536 := h u (by simp)
    simp only [bigEndianBytes, SwapHLByte, wcharsOfBytes,
      units_of_bigEndianBytes R (fun x hx => h x (by simp [hx])), List.cons.injEq, and_true]
    omega

theorem specEnv_asSpecified : AsSpecified specEnv where
  direct_of_setD := fun _ h => h
  plus_outside := by decide
  dscan := rfl
  bscan := rfl
  allocated := fun _ => rfl

theorem specD_progress (direct : Nat → Bool) (bytes : List Nat) (h : bytes ≠ []) :
    1 ≤ (specCheckUtf7DPart direct bytes).2.1 := by
  cases bytes with
  | nil => exact absurd rfl h
  | cons b rest =>
    simp only [specCheckUtf7DPart]
    split
    · omega
    · rename_i hlt
      simp only [List.length_cons, not_lt] at hlt
      by_cases hb : (b != 0x2B) = true
      · simp [List.takeWhile_cons, hb]
      · simp [List.takeWhile_cons, hb] at hlt

theorem readBlock_shift (pre suf : List Nat) (p n : Nat) :
    readBlock (pre ++ suf) (pre.length + p) n = readBlock suf p n := by
  unfold readBlock
  simp only [List.length_append, List.drop_append]
  by_cases h : p + n ≤ suf.length
  · rw [if_pos h, if_pos (by omega)]
  · rw [if_neg h, if_neg (by omega)]

theorem readBefore_shift (pre suf : List Nat) (q : Nat) (hq : 1 ≤ q) :
    readBefore (pre ++ suf) (pre.length + q) = readBefore suf q := by
  obtain ⟨r, rfl⟩ : ∃ r, q = r + 1 := ⟨q - 1, by omega⟩
  rw [← Nat.add_assoc]
  simp only [readBefore]
  rw [List.getElem?_append_right (by omega)]
  simp

theorem DPart_shift (E : Env) (pre suf : List Nat) (s : DecState) :
    Utf7ToUni_DPart E (pre ++ suf) (s.shift pre.length)
      = (Utf7ToUni_DPart E suf s).map (DecState.shift pre.length) := by
  unfold Utf7ToUni_DPart DecState.shift
  have hd : List.drop (pre.length + s.pr) (pre ++ suf) = List.drop s.pr suf := by
    simp [List.drop_append]
  rw [hd]
  rcases E.CheckUtf7DPart (List.drop s.pr suf) with ⟨n, next, e⟩
  simp only [readBlock_shift]
  cases readBlock suf s.pr n with
  | none => rfl
  | some blk => simp [Nat.add_assoc]

theorem BPart_shift (E : Env) (pre suf : List Nat) (s : DecState) (hs : 1 ≤ s.pr) :
    Utf7ToUni_BPart E (pre ++ suf) (s.shift pre.length)
      = (Utf7ToUni_BPart E suf s).map (DecState.shift pre.length) := by
  unfold Utf7ToUni_BPart DecState.shift
  have hd : List.drop (pre.length + s.pr) (pre ++ suf) = List.drop s.pr suf := by
    simp [List.drop_append]
  rw [hd]
  rcases E.CheckUtf7BPart (List.drop s.pr suf) with ⟨n, next, e⟩
  simp only [readBlock_shift, Nat.add_assoc]
  rw [readBefore_shift pre suf (s.pr + next) (by omega)]
  split
  · cases readBefore suf (s.pr + next) with
    | none => rfl
    | some c =>
      simp only [Option.map_some', Option.some_bind]
      split
      · rfl
      · cases readBlock suf s.pr n with
        | none => rfl
        | some blk => rfl
  · simp only [Option.some_bind, Bool.false_eq_true, if_false]
    cases readBlock suf s.pr n with
    | none => rfl
    | some blk => rfl

theorem DPart_pr (E : Env) (pSrc : List Nat) (s s1 : DecState)
    (h : Utf7ToUni_DPart E pSrc s = some s1) :
    s1.pr = s.pr + (E.CheckUtf7DPart (pSrc.drop s.pr)).2.1 := by
  unfold Utf7ToUni_DPart at h
  rcases hsc : E.CheckUtf7DPart (pSrc.drop s.pr) with ⟨n, next, e⟩
  rw [hsc] at h
  simp only [Option.map_eq_some'] at h
  obtain ⟨blk, _, rfl⟩ := h
  rfl

theorem body_shift_dec (E : Env)
    (hprog : ∀ bytes, bytes ≠ [] → 1 ≤ (E.CheckUtf7DPart bytes).2.1)
    (pre suf : List Nat) (s : DecState) :
    Utf7ToUni_body E (pre ++ suf) (s.shift pre.length)
      = (Utf7ToUni_body E suf s).map (fun r => (r.1.shift pre.length, r.2)) := by
  unfold Utf7ToUni_body
  rw [DPart_shift]
  cases hd : Utf7ToUni_DPart E suf s with
  | none => rfl
  | some s1 =>
    simp only [Option.map_some', Option.some_bind]
    have hpr : (s1.shift pre.length).pr = pre.length + s1.pr := rfl
    by_cases hle : suf.length ≤ s1.pr
    · rw [if_pos hle, if_pos (by rw [hpr, List.length_append]; omega)]
      rfl
    · rw [if_neg hle, if_neg (by rw [hpr, List.length_append]; omega)]
      have h1 : 1 ≤ s1.pr := by
        have hpr1 := DPart_pr E suf s s1 hd
        have hne : suf.drop s.pr ≠ [] := by
          intro hnil
          have := List.drop_eq_nil_iff.1 hnil
          omega
        have := hprog _ hne
        omega
      rw [BPart_shift E pre suf s1 h1]
      cases Utf7ToUni_BPart E suf s1 with
      | none => rfl
      | some s2 =>
        simp only [Option.map_some', DecState.shift, List.length_append,
          Nat.add_lt_add_iff_left]

theorem loop_shift_dec (E : Env)
    (hprog : ∀ bytes, bytes ≠ [] → 1 ≤ (E.CheckUtf7DPart bytes).2.1)
    (pre suf : List Nat) :
    ∀ (fuel : Nat) (s : DecState),
      Utf7ToUni_loop E (pre ++ suf) fuel (s.shift pre.length)
        = (Utf7ToUni_loop E suf fuel s).map (DecState.shift pre.length)
  | 0, _ => rfl
  | fuel + 1, s => by
    rw [Utf7ToUni_loop, Utf7ToUni_loop, body_shift_dec E hprog]
    cases Utf7ToUni_body E suf s with
    | none => rfl
    | some r =>
      obtain ⟨s1, c⟩ := r
      cases c with
      | true => exact loop_shift_dec E hprog pre suf fuel s1
      | false => rfl

theorem setD_ne_plus (E : Env) (hE : AsSpecified E) (u : Nat) (hu : IsUtf7SetD E u = true) :
    (u != 0x2B) = true := by
  simp only [bne_iff_ne, ne_eq]
  intro h
  rw [h, hE.plus_outside] at hu
  exact absurd hu (by simp)

theorem SetDToUni_direct (E : Env) : ∀ d : List Nat, (∀ u ∈ d, IsUtf7Direct E u = true) →
    _Utf7SetDToUni_block E d = d
  | [], _ => rfl
  | u :: d, h => by
    have hu : IsUtf7Direct E u = true := h u (by simp)
    simp only [_Utf7SetDToUni_block, hu, if_true]
    rw [SetDToUni_direct E d (fun x hx => h x (by simp [hx]))]

theorem specD_plus (E : Env) (hE : AsSpecified E) (d Y : List Nat)
    (hd : ∀ u ∈ d, IsUtf7SetD E u = true) :
    E.CheckUtf7DPart (d ++ 0x2B :: Y) = (d.length, d.length + 1, false) := by
  have htw : List.takeWhile (fun b => b != 0x2B) (d ++ 0x2B :: Y) = d := by
    rw [List.takeWhile_append_of_pos (fun u hu => setD_ne_plus E hE u (hd u hu))]
    simp
  rw [hE.dscan]
  simp only [specCheckUtf7DPart, htw, List.length_append, List.length_cons, Prod.mk.injEq,
    true_and]
  refine ⟨by simp, ?_⟩
  simp only [List.any_eq_false, Bool.not_eq_true', Bool.not_eq_false']
  intro u hu
  have := hE.direct_of_setD u (hd u hu)
  unfold IsUtf7Direct at this
  simp [this]

theorem specD_end (E : Env) (hE : AsSpecified E) (d : List Nat)
    (hd : ∀ u ∈ d, IsUtf7SetD E u = true) :
    E.CheckUtf7DPart d = (d.length, d.length, false) := by
  have htw : List.takeWhile (fun b => b != 0x2B) d = d := by
    have := takeWhile_append_all (fun b => b != 0x2B) [] d
      (fun u hu => setD_ne_plus E hE u (hd u hu))
    simpa using this
  rw [hE.dscan]
  simp only [specCheckUtf7DPart, htw, Prod.mk.injEq, true_and]
  refine ⟨by simp, ?_⟩
  simp only [List.any_eq_false, Bool.not_eq_true', Bool.not_eq_false']
  intro u hu
  have := hE.direct_of_setD u (hd u hu)
  unfold IsUtf7Direct at this
  simp [this]

theorem DPart_plus (E : Env) (hE : AsSpecified E) (d Y pw : List Nat) (e : Bool)
    (hd : ∀ u ∈ d, IsUtf7SetD E u = true) :
    Utf7ToUni_DPart E (d ++ 0x2B :: Y) { pr := 0, pw := pw, berror := e }
      = some { pr := d.length + 1, pw := pw ++ d, berror := e } := by
  unfold Utf7ToUni_DPart
  simp only [List.drop_zero, specD_plus E hE d Y hd]
  have hblk : readBlock (d ++ 0x2B :: Y) 0 d.length = some d := by
    unfold readBlock
    simp
  rw [hblk]
  simp [SetDToUni_direct E d (fun u hu => hE.direct_of_setD u (hd u hu))]

theorem DPart_end (E : Env) (hE : AsSpecified E) (d pw : List Nat) (e : Bool)
    (hd : ∀ u ∈ d, IsUtf7SetD E u = true) :
    Utf7ToUni_DPart E d { pr := 0, pw := pw, berror := e }
      = some { pr := d.length, pw := pw ++ d, berror := e } := by
  unfold Utf7ToUni_DPart
  simp only [List.drop_zero, specD_end E hE d hd]
  have hblk : readBlock d 0 d.length = some d := by
    unfold readBlock
    simp
  rw [hblk]
  simp [SetDToUni_direct E d (fun u hu => hE.direct_of_setD u (hd u hu))]

theorem BPart_minus (E : Env) (hE : AsSpecified E) (pre Z pw : List Nat) (e : Bool) :
    Utf7ToUni_BPart E (pre ++ 0x2D :: Z) { pr := pre.length, pw := pw, berror := e }
      = some { pr := pre.length + 1, pw := pw ++ [0x2B], berror := e } := by
  unfold Utf7ToUni_BPart
  have hsc : E.CheckUtf7BPart (0x2D :: Z) = (0, 1, false) := by
    rw [hE.bscan]
    simp [specCheckUtf7BPart, List.takeWhile_cons, base64Value_minus, _DecodeBase64,
      decodeSextets, SwapHLByte, wcharsOfBytes, wellFormedUtf16]
  have hrb : readBefore (pre ++ 0x2D :: Z) (pre.length + 1) = some 0x2D := by
    simp only [readBefore]
    rw [List.getElem?_append_right (le_refl _)]
    simp
  simp only [List.drop_left, hsc, hrb]
  simp

theorem EncodeBase64_alphabet (l : List Nat) (h : ∀ b ∈ l, b < 256) :
    ∀ c ∈ _EncodeBase64 l, (base64Value c).isSome = true := by
  intro c hc
  unfold _EncodeBase64 at hc
  obtain ⟨s, hs, rfl⟩ := List.mem_map.1 hc
  rw [base64Value_base64Char s (encodeSextets_lt l h s hs)]
  rfl

theorem specB_run (E : Env) (hE : AsSpecified E) (b Z : List Nat)
    (hlt : ∀ u ∈ b, u < 65536) (hwf : wellFormedUtf16 b = true) :
    E.CheckUtf7BPart (_EncodeBase64 (bigEndianBytes b) ++ 0x2D :: Z)
      = ((_EncodeBase64 (bigEndianBytes b)).length,
         (_EncodeBase64 (bigEndianBytes b)).length + 1, false) := by
  have htw : List.takeWhile (fun c => (base64Value c).isSome)
      (_EncodeBase64 (bigEndianBytes b) ++ 0x2D :: Z) = _EncodeBase64 (bigEndianBytes b) := by
    rw [List.takeWhile_append_of_pos (EncodeBase64_alphabet _ (bigEndianBytes_lt b))]
    simp [List.takeWhile_cons, base64Value_minus]
  rw [hE.bscan]
  simp only [specCheckUtf7BPart, htw, List.drop_left, List.head?_cons, if_true,
    DecodeBase64_EncodeBase64 _ (bigEndianBytes_lt b), units_of_bigEndianBytes b hlt, hwf,
    bigEndianBytes_length, Prod.mk.injEq, true_and]
  simp

theorem BPart_run (E : Env) (hE : AsSpecified E) (pre Z pw b : List Nat) (e : Bool)
    (hne : b ≠ []) (hlt : ∀ u ∈ b, u < 65536) (hwf : wellFormedUtf16 b = true) :
    Utf7ToUni_BPart E (pre ++ (_EncodeBase64 (bigEndianBytes b) ++ 0x2D :: Z))
        { pr := pre.length, pw := pw, berror := e }
      = some { pr := pre.length + ((_EncodeBase64 (bigEndianBytes b)).length + 1),
               pw := pw ++ b, berror := e } := by
  unfold Utf7ToUni_BPart
  have hlen : ¬ (_EncodeBase64 (bigEndianBytes b)).length < 1 := by
    have := List.length_pos.2 hne
    simp only [_EncodeBase64, List.length_map, encodeSextets_length, bigEndianBytes_length]
    omega
  have hblk : readBlock (pre ++ (_EncodeBase64 (bigEndianBytes b) ++ 0x2D :: Z)) pre.length
      (_EncodeBase64 (bigEndianBytes b)).length = some (_EncodeBase64 (bigEndianBytes b)) := by
    unfold readBlock
    rw [if_pos (by simp only [List.length_append, List.length_cons]; omega), List.drop_left]
    simp
  have hblock : _Utf7SetBToUni_block E (_EncodeBase64 (bigEndianBytes b)) false
      = { written := b, ret := b.length, bError := false } := by
    have hdec := DecodeBase64_EncodeBase64 _ (bigEndianBytes_lt b)
    rw [SetB_even E _ false b.length (hE.allocated _) (by rw [hdec, bigEndianBytes_length]),
      hdec, units_of_bigEndianBytes b hlt]
  simp only [List.drop_left, specB_run E hE b Z hlt hwf, hlen, if_false, Option.some_bind,
    Bool.false_eq_true, hblk, Option.map_some', hblock, Bool.or_false]

theorem wellFormed_cons_plain (u : Nat) (S : List Nat) (hh : isHighSurrogate u = false)
    (hl : isLowSurrogate u = false) : wellFormedUtf16 (u :: S) = wellFormedUtf16 S := by
  cases S with
  | nil => simp [wellFormedUtf16, hh, hl]
  | cons v r => simp [wellFormedUtf16, hh, hl]

theorem setD_plain (E : Env) (u : Nat) (hu : IsUtf7SetD E u = true) :
    isHighSurrogate u = false ∧ isLowSurrogate u = false := by
  have hlt : u < 0x80 := by
    unfold IsUtf7SetD at hu
    simp only [Bool.and_eq_true, decide_eq_true_eq] at hu
    exact hu.1
  unfold isHighSurrogate isLowSurrogate
  simp only [Bool.and_eq_false_iff, decide_eq_false_iff_not]
  omega

theorem wellFormed_drop_setD (E : Env) : ∀ (d R : List Nat),
    (∀ u ∈ d, IsUtf7SetD E u = true) → wellFormedUtf16 (d ++ R) = wellFormedUtf16 R
  | [], _, _ => rfl
  | u :: d, R, h => by
    obtain ⟨hh, hl⟩ := setD_plain E u (h u (by simp))
    rw [List.cons_append, wellFormed_cons_plain u _ hh hl,
      wellFormed_drop_setD E d R (fun x hx => h x (by simp [hx]))]

theorem wellFormed_split (rest : List Nat)
    (hrest : ∀ v ∈ rest.head?, isHighSurrogate v = false ∧ isLowSurrogate v = false) :
    ∀ b : List Nat, wellFormedUtf16 (b ++ rest) = true →
      wellFormedUtf16 b = true ∧ wellFormedUtf16 rest = true
  | [], h => ⟨rfl, h⟩
  | [u], h => by
    cases rest with
    | nil => exact ⟨h, rfl⟩
    | cons v r =>
      obtain ⟨hvh, hvl⟩ := hrest v (by simp)
      simp only [List.singleton_append, wellFormedUtf16] at h
      by_cases hu : isHighSurrogate u = true
      · rw [if_pos hu, hvl] at h
        simp at h
      · rw [if_neg hu] at h
        simp only [Bool.and_eq_true, Bool.not_eq_true'] at h
        have hu2 : isHighSurrogate u = false := by simpa using hu
        exact ⟨by simp [wellFormedUtf16, hu2, h.1], h.2⟩
  | u :: w :: b, h => by
    simp only [List.cons_append, wellFormedUtf16] at h
    by_cases hu : isHighSurrogate u = true
    · rw [if_pos hu] at h
      simp only [Bool.and_eq_true] at h
      obtain ⟨h1, h2⟩ := wellFormed_split rest hrest b h.2
      exact ⟨by simp [wellFormedUtf16, hu, h.1, h1], h2⟩
    · rw [if_neg hu] at h
      simp only [Bool.and_eq_true, Bool.not_eq_true'] at h
      obtain ⟨h1, h2⟩ := wellFormed_split rest hrest (w :: b) h.2
      have hu2 : isHighSurrogate u = false := by simpa using hu
      exact ⟨by simp [wellFormedUtf16, hu2, h.1, h1], h2⟩

theorem dropWhile_head (p : Nat → Bool) : ∀ (l : List Nat) (c : Nat) (r : List Nat),
    l.dropWhile p = c :: r → p c = false
  | [], c, r, h => by simp at h
  | a :: l, c, r, h => by
    by_cases ha : p a = true
    · rw [List.dropWhile_cons_of_pos ha] at h
      exact dropWhile_head p l c r h
    · rw [List.dropWhile_cons_of_neg ha] at h
      simp only [List.cons.injEq] at h
      rw [← h.1]
      simpa using ha

theorem takeWhile_all (p : Nat → Bool) : ∀ (l : List Nat), ∀ u ∈ l.takeWhile p, p u = true
  | [], u, h => by simp at h
  | a :: l, u, h => by
    by_cases ha : p a = true
    · rw [List.takeWhile_cons_of_pos ha] at h
      rcases List.mem_cons.1 h with rfl | h
      · exact ha
      · exact takeWhile_all p l u h
    · rw [List.takeWhile_cons_of_neg ha] at h
      simp at h

/-- Shapes of a non-empty input as a pass of the encoding loop sees it. -/
theorem input_shape (E : Env) (S : List Nat) :
    (∀ u ∈ S, IsUtf7SetD E u = true)
    ∨ (∃ d R, S = d ++ 0x2B :: R ∧ (∀ u ∈ d, IsUtf7SetD E u = true)
        ∧ IsUtf7SetD E 0x2B = false)
    ∨ (∃ d c b rest, S = d ++ (c :: b) ++ rest ∧ (∀ u ∈ d, IsUtf7SetD E u = true)
        ∧ c ≠ 0x2B ∧ (∀ u ∈ c :: b, IsUtf7SetD E u = false)
        ∧ (∀ u ∈ rest.head?, IsUtf7SetD E u = true)) := by
  have hS : S = S.takeWhile (fun c => IsUtf7SetD E c) ++ S.dropWhile (fun c => IsUtf7SetD E c) :=
    (List.takeWhile_append_dropWhile _ S).symm
  have hd := takeWhile_all (fun c => IsUtf7SetD E c) S
  cases hR : S.dropWhile (fun c => IsUtf7SetD E c) with
  | nil =>
    left
    rw [hR, List.append_nil] at hS
    rw [hS]
    exact hd
  | cons c R =>
    right
    have hc : IsUtf7SetD E c = false := dropWhile_head _ S c R hR
    rw [hR] at hS
    by_cases hplus : c = 0x2B
    · left
      subst hplus
      exact ⟨_, R, hS, hd, hc⟩
    · right
      have hR2 : R = R.takeWhile (fun c => !IsUtf7SetD E c)
          ++ R.dropWhile (fun c => !IsUtf7SetD E c) :=
        (List.takeWhile_append_dropWhile _ R).symm
      refine ⟨_, c, R.takeWhile (fun c => !IsUtf7SetD E c),
        R.dropWhile (fun c => !IsUtf7SetD E c), ?_, hd, hplus, ?_, ?_⟩
      · rw [List.append_assoc, List.cons_append, ← hR2]
        exact hS
      · intro u hu
        rcases List.mem_cons.1 hu with rfl | hu
        · exact hc
        · simpa using takeWhile_all (fun c => !IsUtf7SetD E c) R u hu
      · intro u hu
        cases hrest : R.dropWhile (fun c => !IsUtf7SetD E c) with
        | nil => rw [hrest] at hu; simp at hu
        | cons v r =>
          rw [hrest] at hu
          simp only [List.head?_cons, Option.mem_def, Option.some.injEq] at hu
          subst hu
          simpa using dropWhile_head (fun c => !IsUtf7SetD E c) R v r hrest

theorem asSpecified_progress (E : Env) (hE : AsSpecified E) :
    ∀ bytes, bytes ≠ [] → 1 ≤ (E.CheckUtf7DPart bytes).2.1 := by
  intro bytes h
  rw [hE.dscan]
  exact specD_progress E.direct bytes h

theorem decodeFrom_setD (E : Env) (hE : AsSpecified E) (d pw : List Nat) (e : Bool) (fuel : Nat)
    (hd : ∀ u ∈ d, IsUtf7SetD E u = true) :
    decodeFrom E d (fuel + 1) pw e = some (pw ++ d, e) := by
  unfold decodeFrom
  rw [Utf7ToUni_loop]
  unfold Utf7ToUni_body
  rw [DPart_end E hE d pw e hd]
  simp

theorem decodeFrom_step (E : Env) (hE : AsSpecified E) (X o pw pw2 T : List Nat) (e : Bool)
    (fuel : Nat) (s1 : DecState)
    (hD : Utf7ToUni_DPart E (X ++ o) { pr := 0, pw := pw, berror := e } = some s1)
    (hlt : s1.pr < (X ++ o).length)
    (hB : Utf7ToUni_BPart E (X ++ o) s1 = some { pr := X.length, pw := pw2, berror := e })
    (hrest : decodeFrom E o fuel pw2 e = some (pw2 ++ T, e)) :
    decodeFrom E (X ++ o) (fuel + 1) pw e = some (pw2 ++ T, e) := by
  have hbody : Utf7ToUni_body E (X ++ o) { pr := 0, pw := pw, berror := e }
      = some ({ pr := X.length, pw := pw2, berror := e }, decide (X.length < (X ++ o).length)) := by
    unfold Utf7ToUni_body
    rw [hD]
    simp only [Option.some_bind]
    rw [if_neg (by omega), hB]
    rfl
  unfold decodeFrom at hrest ⊢
  rw [Utf7ToUni_loop, hbody]
  by_cases ho : o = []
  · subst ho
    have hT : T = [] := by
      cases fuel with
      | zero => simp [Utf7ToUni_loop] at hrest
      | succ f =>
        have := decodeFrom_setD E hE [] pw2 e f (by simp)
        unfold decodeFrom at this
        rw [this] at hrest
        simpa using hrest
    subst hT
    simp
  · have hpos : X.length < (X ++ o).length := by
      have := List.length_pos.2 ho
      rw [List.length_append]; omega
    simp only [hpos, decide_True]
    have hs := loop_shift_dec E (asSpecified_progress E hE) X o fuel
      { pr := 0, pw := pw2, berror := e }
    simp only [DecState.shift, Nat.add_zero] at hs
    rw [hs]
    cases hl : Utf7ToUni_loop E o fuel { pr := 0, pw := pw2, berror := e } with
    | none => rw [hl] at hrest; simp at hrest
    | some r =>
      rw [hl] at hrest
      simpa using hrest

theorem UniToUtf7_all_setD (E : Env) (d : List Nat) (f : Nat)
    (hd : ∀ u ∈ d, IsUtf7SetD E u = true) (hf : 1 ≤ f) :
    UniToUtf7 E (CNativeW d) d.length f = some d := by
  obtain ⟨g, rfl⟩ : ∃ g, f = g + 1 := ⟨f - 1, by omega⟩
  obtain ⟨hl, ho⟩ := pass_setD_run E 0 [] d hd
  obtain ⟨hl0, ho0⟩ := pass_nil E 0 (by decide)
  rw [List.append_nil, hl0] at hl
  rw [List.append_nil, ho0, List.append_nil] at ho
  unfold UniToUtf7 CNativeW
  rw [loop_pass, hl, ho]
  simp

theorem roundtrip_aux (E : Env) (hE : AsSpecified E) :
    ∀ (n : Nat) (S : List Nat), S.length ≤ n → (∀ u ∈ S, u < 65536) → (∀ u ∈ S, u ≠ 0) →
      wellFormedUtf16 S = true →
      ∃ bytes, UniToUtf7 E (CNativeW S) S.length (n + 1) = some bytes
        ∧ ∀ (pw : List Nat) (e : Bool), decodeFrom E bytes (n + 1) pw e = some (pw ++ S, e) := by
  intro n
  induction n with
  | zero =>
    intro S hlen _ _ _
    have hS : S = [] := List.eq_nil_of_length_eq_zero (by omega)
    subst hS
    exact ⟨[], UniToUtf7_all_setD E [] 1 (by simp) (by omega),
      fun pw e => decodeFrom_setD E hE [] pw e 0 (by simp)⟩
  | succ m ih =>
    intro S hlen hunits hnul hwf
    rcases input_shape E S with hall | ⟨d, R, rfl, hd, hplus⟩ | ⟨d, c, b, rest, rfl, hd, hc, hb, hrest⟩
    · exact ⟨S, UniToUtf7_all_setD E S (m + 1 + 1) hall (by omega),
        fun pw e => decodeFrom_setD E hE S pw e (m + 1) hall⟩
    · -- a `+` behind a set-D run
      have hlenR : R.length ≤ m := by
        simp only [List.length_append, List.length_cons] at hlen; omega
      have hwfR : wellFormedUtf16 R = true := by
        rw [wellFormed_drop_setD E d _ hd,
          wellFormed_cons_plain 0x2B R (by decide) (by decide)] at hwf
        exact hwf
      obtain ⟨o, ho, hdec⟩ := ih R hlenR (fun u hu => hunits u (by simp [hu]))
        (fun u hu => hnul u (by simp [hu])) hwfR
      obtain ⟨hl, hout⟩ := pass_setD_run E 0 (0x2B :: R) d hd
      obtain ⟨hl2, ho2⟩ := pass_plus E 0 R hplus
      rw [hl2] at hl
      rw [ho2] at hout
      have hdrop : (d ++ 0x2B :: R).drop (passLen E (d ++ 0x2B :: R) 0) = R := by
        rw [hl]
        have e1 : d ++ 0x2B :: R = (d ++ [0x2B]) ++ R := by simp
        have e2 : d.length + 1 = (d ++ [0x2B]).length := by simp
        rw [e1, e2, List.drop_left]
      obtain ⟨o2, ho2, henc⟩ := UniToUtf7_first_pass E _ R _ (m + 1) hdrop hout (by omega)
        (by omega)
      have : o2 = o := Option.some.inj (ho2.symm.trans ho)
      subst this
      refine ⟨_, henc, fun pw e => ?_⟩
      have hD := DPart_plus E hE d (0x2D :: o2) pw e hd
      have hB := BPart_minus E hE (d ++ [0x2B]) o2 (pw ++ d) e
      have hbytes : d ++ [0x2B, 0x2D] ++ o2 = (d ++ [0x2B, 0x2D]) ++ o2 := rfl
      have hres := decodeFrom_step E hE (d ++ [0x2B, 0x2D]) o2 pw (pw ++ d ++ [0x2B]) R e (m + 1)
        { pr := d.length + 1, pw := pw ++ d, berror := e }
        (by simpa using hD) (by simp) (by simpa using hB) (hdec _ e)
      simpa using hres
    · -- a run outside set D behind a set-D run
      have hlenR : rest.length ≤ m := by
        simp only [List.length_append, List.length_cons] at hlen; omega
      have hwf2 : wellFormedUtf16 (c :: b) = true ∧ wellFormedUtf16 rest = true := by
        rw [List.append_assoc, wellFormed_drop_setD E d _ hd] at hwf
        exact wellFormed_split rest (fun v hv => setD_plain E v (hrest v hv)) (c :: b) hwf
      obtain ⟨o, ho, hdec⟩ := ih rest hlenR (fun u hu => hunits u (by simp [hu]))
        (fun u hu => hnul u (by simp [hu])) hwf2.2
      obtain ⟨hl, hout⟩ := pass_setD_run E 0 ((c :: b) ++ rest) d hd
      obtain ⟨hl2, ho2⟩ := pass_run E 0 c b rest hc hb hrest
      rw [hl2] at hl
      rw [ho2, (SetB_block_without_nul E (c :: b) (by simp)
        (fun u hu => hnul u (by simp only [List.mem_append]; exact Or.inl (Or.inr hu)))
        (hE.allocated _)).1] at hout
      rw [← List.append_assoc] at hl hout
      have hdrop : (d ++ (c :: b) ++ rest).drop (passLen E (d ++ (c :: b) ++ rest) 0) = rest := by
        rw [hl, ← List.length_append, List.drop_left]
      obtain ⟨o2, ho2, henc⟩ := UniToUtf7_first_pass E _ rest _ (m + 1) hdrop hout (by omega)
        (by omega)
      have : o2 = o := Option.some.inj (ho2.symm.trans ho)
      subst this
      refine ⟨_, henc, fun pw e => ?_⟩
      have hub : ∀ u ∈ c :: b, u < 65536 := fun u hu =>
        hunits u (by simp only [List.mem_append]; exact Or.inl (Or.inr hu))
      have hD := DPart_plus E hE d (_EncodeBase64 (bigEndianBytes (c :: b)) ++ 0x2D :: o2) pw e hd
      have hB := BPart_run E hE (d ++ [0x2B]) o2 (pw ++ d) (c :: b) e (by simp) hub hwf2.1
      have hres := decodeFrom_step E hE
        (d ++ ([0x2B] ++ _EncodeBase64 (bigEndianBytes (c :: b)) ++ [0x2D])) o2 pw
        (pw ++ d ++ (c :: b)) rest e (m + 1)
        { pr := d.length + 1, pw := pw ++ d, berror := e }
        (by simpa using hD) (by simp)
        (by simp at hB ⊢; rw [hB]; simp; omega) (hdec _ e)
      simpa using hres


/-- Behind a buffer whose unit at index `n` is not `+`, a pass stays inside the
`n` units. -/
theorem passLen_le (E : Env) (S : List Nat) (t : Nat) (ht : t ≠ 0x2B) :
    passLen E S t ≤ S.length := by
  have hS : (passD E S).length + (passR E S).length = S.length := by
    have := congrArg List.length (List.takeWhile_append_dropWhile (fun c => IsUtf7SetD E c) S)
    rw [List.length_append] at this
    exact this
  have hB : (passB E S).length ≤ (passR E S).length :=
    (List.takeWhile_sublist _).length_le
  unfold passLen
  by_cases h : passHead E S t = 0x2B
  · rw [if_pos h]
    have hR : passR E S ≠ [] := by
      intro hnil
      unfold passHead at h
      rw [hnil] at h
      exact ht (by simpa using h)
    have := List.length_pos.mpr hR
    omega
  · rw [if_neg h]; omega

/-- A pass looks at the unit behind the input only to compare it with `+`. -/
theorem pass_behind (E : Env) (S : List Nat) (t : Nat) (ht : t ≠ 0x2B) :
    passLen E S t = passLen E S 0 ∧ passOut E S t = passOut E S 0 := by
  have hH : (passHead E S t = 0x2B) ↔ (passHead E S 0 = 0x2B) := by
    unfold passHead
    cases passR E S with
    | nil => simp [ht]
    | cons a R => simp
  unfold passLen passOut
  by_cases h : passHead E S t = 0x2B
  · rw [if_pos h, if_pos h, if_pos (hH.mp h), if_pos (hH.mp h)]; exact ⟨rfl, rfl⟩
  · rw [if_neg h, if_neg h, if_neg (fun h0 => h (hH.mpr h0)), if_neg (fun h0 => h (hH.mpr h0))]
    exact ⟨rfl, rfl⟩

theorem loop_behind (E : Env) (t : Nat) (junk : List Nat) (ht : t ≠ 0x2B) :
    ∀ (fuel : Nat) (S pw : List Nat),
      UniToUtf7_loop E (S ++ t :: junk) S.length fuel 0 pw
        = UniToUtf7_loop E (S ++ 0 :: []) S.length fuel 0 pw
  | 0, _, _ => rfl
  | fuel + 1, S, pw => by
    rw [loop_pass, loop_pass, (pass_behind E S t ht).1, (pass_behind E S t ht).2]
    by_cases hq : passLen E S 0 < S.length
    · rw [if_pos hq, if_pos hq]
      exact loop_behind E t junk ht fuel _ _
    · rw [if_neg hq, if_neg hq]

theorem DPart_frame (E : Env) (pSrc pw : List Nat) (e : Bool) (s : DecState) :
    Utf7ToUni_DPart E pSrc (s.frame pw e)
      = (Utf7ToUni_DPart E pSrc s).map (DecState.frame pw e) := by
  unfold Utf7ToUni_DPart DecState.frame
  rcases E.CheckUtf7DPart (List.drop s.pr pSrc) with ⟨n, next, et⟩
  simp only []
  cases readBlock pSrc s.pr n with
  | none => rfl
  | some blk => simp [List.append_assoc, Bool.or_assoc]

theorem BPart_frame (E : Env) (pSrc pw : List Nat) (e : Bool) (s : DecState) :
    Utf7ToUni_BPart E pSrc (s.frame pw e)
      = (Utf7ToUni_BPart E pSrc s).map (DecState.frame pw e) := by
  unfold Utf7ToUni_BPart DecState.frame
  rcases E.CheckUtf7BPart (List.drop s.pr pSrc) with ⟨n, next, et⟩
  simp only []
  cases (if n < 1 then (readBefore pSrc (s.pr + next)).map (fun c => decide (c = 0x2D))
      else some false) with
  | none => rfl
  | some pm =>
    cases pm with
    | true => simp [List.append_assoc, Bool.or_assoc]
    | false =>
      simp only [Option.some_bind, Bool.false_eq_true, if_false]
      cases readBlock pSrc s.pr n with
      | none => rfl
      | some blk => simp [List.append_assoc, Bool.or_assoc]

theorem body_frame (E : Env) (pSrc pw : List Nat) (e : Bool) (s : DecState) :
    Utf7ToUni_body E pSrc (s.frame pw e)
      = (Utf7ToUni_body E pSrc s).map (fun r => (r.1.frame pw e, r.2)) := by
  unfold Utf7ToUni_body
  rw [DPart_frame]
  cases Utf7ToUni_DPart E pSrc s with
  | none => rfl
  | some s1 =>
    simp only [Option.map_some', Option.some_bind]
    have hpr : (s1.frame pw e).pr = s1.pr := rfl
    rw [hpr]
    by_cases hle : pSrc.length ≤ s1.pr
    · rw [if_pos hle, if_pos hle]; rfl
    · rw [if_neg hle, if_neg hle, BPart_frame]
      cases Utf7ToUni_BPart E pSrc s1 with
      | none => rfl
      | some s2 => rfl

theorem loop_frame (E : Env) (pSrc pw : List Nat) (e : Bool) :
    ∀ (fuel : Nat) (s : DecState),
      Utf7ToUni_loop E pSrc fuel (s.frame pw e)
        = (Utf7ToUni_loop E pSrc fuel s).map (DecState.frame pw e)
  | 0, _ => rfl
  | fuel + 1, s => by
    rw [Utf7ToUni_loop, Utf7ToUni_loop, body_frame]
    cases Utf7ToUni_body E pSrc s with
    | none => rfl
    | some r =>
      obtain ⟨s1, c⟩ := r
      cases c with
      | true => exact loop_frame E pSrc pw e fuel s1
      | false => rfl

theorem decodeSextets_length_le : ∀ l : List Nat, 4 * (decodeSextets l).length ≤ 3 * l.length
  | [] => by simp [decodeSextets]
  | [_] => by simp [decodeSextets]
  | [_, _] => by simp [decodeSextets]
  | [_, _, _] => by simp [decodeSextets]
  | _ :: _ :: _ :: _ :: rest => by
    have := decodeSextets_length_le rest
    simp only [decodeSextets, List.length_cons]
    omega

/-- Base64 decoding of `m` characters yields at most `3 m / 4` bytes. -/
theorem DecodeBase64_length_le (l : List Nat) : 4 * (_DecodeBase64 l).length ≤ 3 * l.length := by
  have h1 := decodeSextets_length_le (l.filterMap base64Value)
  have h2 := List.length_filterMap_le base64Value l
  unfold _DecodeBase64
  omega

/-- A B block of `m` characters is converted to at most `m` code units. -/
theorem SetB_written_length (E : Env) (blk : List Nat) (e : Bool) :
    (_Utf7SetBToUni_block E blk e).written.length ≤ blk.length := by
  have hd := DecodeBase64_length_le blk
  by_cases ha : E.alloc blk.length = false
  · simp [_Utf7SetBToUni_block, ha]
  · have ha1 : E.alloc blk.length = true := by simpa using ha
    rcases Nat.even_or_odd' (_DecodeBase64 blk).length with ⟨k, hk | hk⟩
    · rw [SetB_even E blk e k ha1 hk]
      simp only [beUnits_length]
      omega
    · rw [SetB_odd E blk e k ha1 hk]
      simp only [List.length_append, beUnits_length, List.length_take, BinToText,
        List.length_map, List.length_drop]
      omega

theorem DPart_inside (E : Env) (hE : BlocksInside E) (pSrc : List Nat) (s : DecState)
    (hs : s.pr ≤ pSrc.length) :
    ∃ s1, Utf7ToUni_DPart E pSrc s = some s1
      ∧ s1.pr = s.pr + (E.CheckUtf7DPart (pSrc.drop s.pr)).2.1
      ∧ s1.pw.length = s.pw.length + (E.CheckUtf7DPart (pSrc.drop s.pr)).1 := by
  have h1 := hE.dblock (pSrc.drop s.pr)
  have h2 := hE.dnext (pSrc.drop s.pr)
  rw [List.length_drop] at h2
  unfold Utf7ToUni_DPart
  generalize E.CheckUtf7DPart (List.drop s.pr pSrc) = sc at h1 h2 ⊢
  obtain ⟨n, next, e⟩ := sc
  simp only [] at h1 h2 ⊢
  have hb : readBlock pSrc s.pr n = some ((pSrc.drop s.pr).take n) := by
    unfold readBlock
    rw [if_pos (by omega)]
  rw [hb]
  refine ⟨_, rfl, rfl, ?_⟩
  simp only [List.length_append, Utf7SetDToUni_block_length, List.length_take, List.length_drop]
  omega

theorem BPart_inside (E : Env) (hE : BlocksInside E) (pSrc : List Nat) (s : DecState)
    (hs : s.pr ≤ pSrc.length) (h1 : 1 ≤ s.pr) :
    ∃ s2, Utf7ToUni_BPart E pSrc s = some s2
      ∧ s2.pr = s.pr + (E.CheckUtf7BPart (pSrc.drop s.pr)).2.1
      ∧ s2.pw.length ≤ s.pw.length + 1 + (E.CheckUtf7BPart (pSrc.drop s.pr)).1 := by
  have hb1 := hE.bblock (pSrc.drop s.pr)
  have hb2 := hE.bnext (pSrc.drop s.pr)
  rw [List.length_drop] at hb2
  unfold Utf7ToUni_BPart
  generalize E.CheckUtf7BPart (List.drop s.pr pSrc) = sc at hb1 hb2 ⊢
  obtain ⟨m, nx, eb⟩ := sc
  simp only [] at hb1 hb2 ⊢
  have hblk : readBlock pSrc s.pr m = some ((pSrc.drop s.pr).take m) := by
    unfold readBlock
    rw [if_pos (by omega)]
  have hrb : ∃ c, readBefore pSrc (s.pr + nx) = some c := by
    obtain ⟨q, hq⟩ : ∃ q, s.pr + nx = q + 1 := ⟨s.pr + nx - 1, by omega⟩
    rw [hq]
    simp only [readBefore]
    exact ⟨_, List.getElem?_eq_getElem (by omega)⟩
  obtain ⟨c, hc⟩ := hrb
  have hw := SetB_written_length E ((pSrc.drop s.pr).take m) eb
  have hlen : ((pSrc.drop s.pr).take m).length = m := by
    rw [List.length_take, List.length_drop]; omega
  rw [hlen] at hw
  by_cases hm : m < 1
  · rw [if_pos hm, hc]
    simp only [Option.map_some', Option.some_bind]
    by_cases hpm : decide (c = 0x2D) = true
    · rw [if_pos hpm]
      refine ⟨_, rfl, rfl, ?_⟩
      simp only [List.length_append, List.length_cons, List.length_nil]
      omega
    · rw [if_neg hpm, hblk]
      refine ⟨_, rfl, rfl, ?_⟩
      simp only [List.length_append]
      omega
  · rw [if_neg hm]
    simp only [Option.some_bind, Bool.false_eq_true, if_false]
    rw [hblk]
    refine ⟨_, rfl, rfl, ?_⟩
    simp only [List.length_append]
    omega

/-- One pass under the contract `BlocksInside`: it returns, stays inside the
input, writes no more units than it steps over bytes, and goes on only after
having moved forward. -/
theorem body_inside (E : Env) (hE : BlocksInside E) (pSrc : List Nat) (s : DecState)
    (hs : s.pr ≤ pSrc.length) :
    ∃ s2 c, Utf7ToUni_body E pSrc s = some (s2, c)
      ∧ s2.pr ≤ pSrc.length
      ∧ s2.pw.length + s.pr ≤ s.pw.length + s2.pr
      ∧ (c = true → s.pr < s2.pr ∧ s2.pr < pSrc.length)
      ∧ (c = false → pSrc.length ≤ s2.pr) := by
  obtain ⟨s1, hD, hpr1, hpw1⟩ := DPart_inside E hE pSrc s hs
  have d1 := hE.dblock (pSrc.drop s.pr)
  have d2 := hE.dnext (pSrc.drop s.pr)
  have d3 := hE.dshift (pSrc.drop s.pr)
  rw [List.length_drop] at d2 d3
  unfold Utf7ToUni_body
  rw [hD]
  simp only [Option.some_bind]
  by_cases hle : pSrc.length ≤ s1.pr
  · rw [if_pos hle]
    exact ⟨s1, false, rfl, by omega, by omega, by simp, fun _ => hle⟩
  · rw [if_neg hle]
    obtain ⟨s2, hB, hpr2, hpw2⟩ := BPart_inside E hE pSrc s1 (by omega) (by omega)
    have b1 := hE.bblock (pSrc.drop s1.pr)
    have b2 := hE.bnext (pSrc.drop s1.pr)
    rw [List.length_drop] at b2
    rw [hB]
    refine ⟨s2, decide (s2.pr < pSrc.length), rfl, by omega, by omega, ?_, ?_⟩
    · intro hc
      have := of_decide_eq_true hc
      omega
    · intro hc
      have := of_decide_eq_false hc
      omega

/-- Under the contract `BlocksInside` the loop returns within as many passes as
there are bytes left (at least one), at the end of the input, and has written
no more units than it has stepped over bytes. -/
theorem loop_inside (E : Env) (hE : BlocksInside E) (pSrc : List Nat) :
    ∀ (fuel : Nat) (s : DecState), s.pr ≤ pSrc.length → pSrc.length - s.pr < fuel →
      ∃ r, Utf7ToUni_loop E pSrc fuel s = some r
        ∧ r.pr = pSrc.length
        ∧ r.pw.length + s.pr ≤ s.pw.length + r.pr
  | 0, _, _, h => by omega
  | fuel + 1, s, hs, hf => by
    obtain ⟨s2, c, hb, h1, h2, h3, h4⟩ := body_inside E hE pSrc s hs
    rw [Utf7ToUni_loop, hb]
    cases c with
    | true =>
      have := h3 rfl
      obtain ⟨r, hr, hr1, hr2⟩ := loop_inside E hE pSrc fuel s2 h1 (by omega)
      exact ⟨r, hr, hr1, by omega⟩
    | false =>
      have := h4 rfl
      exact ⟨s2, rfl, by omega, h2⟩

theorem spec_blocksInside (E : Env) (hE : AsSpecified E) : BlocksInside E where
  dblock := by
    intro bytes
    rw [hE.dscan]
    simp only [specCheckUtf7DPart]
    split <;> omega
  dnext := by
    intro bytes
    rw [hE.dscan]
    simp only [specCheckUtf7DPart]
    have := (List.takeWhile_sublist (fun b => b != 0x2B) : (bytes.takeWhile _).Sublist bytes).length_le
    split <;> omega
  dshift := by
    intro bytes
    rw [hE.dscan]
    simp only [specCheckUtf7DPart]
    split <;> omega
  bblock := by
    intro bytes
    rw [hE.bscan]
    simp only [specCheckUtf7BPart]
    split <;> omega
  bnext := by
    intro bytes
    rw [hE.bscan]
    simp only [specCheckUtf7BPart]
    have hle := (List.takeWhile_sublist (fun c => (base64Value c).isSome) :
      (bytes.takeWhile _).Sublist bytes).length_le
    split
    · rename_i hh
      have : (bytes.drop (List.takeWhile (fun c => (base64Value c).isSome) bytes).length) ≠ [] := by
        intro hn; rw [hn] at hh; simp at hh
      have := List.length_pos.2 this
      rw [List.length_drop] at this
      omega
    · omega

/-- The pass on the byte-order mark `+/v8-` in front of any bytes. -/
theorem body_bom (E : Env) (hE : AsSpecified E) (P : List Nat) :
    Utf7ToUni_body E (UTF7_BOM ++ P) { pr := 0, pw := [], berror := false }
      = some ({ pr := 5, pw := [0xFEFF], berror := false }, decide (P ≠ [])) := by
  have hD := DPart_plus E hE [] ([0x2F, 0x76, 0x38, 0x2D] ++ P) [] false (by simp)
  have hsrc : UTF7_BOM ++ P = [] ++ 0x2B :: ([0x2F, 0x76, 0x38, 0x2D] ++ P) := rfl
  have hsc : E.CheckUtf7BPart (0x2F :: 0x76 :: 0x38 :: 0x2D :: P) = (3, 4, false) := by
    rw [hE.bscan]
    simp [specCheckUtf7BPart, List.takeWhile_cons, base64Value, _DecodeBase64, decodeSextets,
      SwapHLByte, wcharsOfBytes, wellFormedUtf16, isHighSurrogate, isLowSurrogate]
  have hblock : _Utf7SetBToUni_block E [0x2F, 0x76, 0x38] false
      = { written := [0xFEFF], ret := 1, bError := false } := by
    rw [SetB_even E _ false 1 (hE.allocated _) (by simp [_DecodeBase64, base64Value, decodeSextets])]
    simp [_DecodeBase64, base64Value, decodeSextets, SwapHLByte, wcharsOfBytes]
  have hB : Utf7ToUni_BPart E (UTF7_BOM ++ P) { pr := 1, pw := [], berror := false }
      = some { pr := 5, pw := [0xFEFF], berror := false } := by
    unfold Utf7ToUni_BPart
    have hdrop : List.drop 1 (UTF7_BOM ++ P) = 0x2F :: 0x76 :: 0x38 :: 0x2D :: P := rfl
    have hblk : readBlock (UTF7_BOM ++ P) 1 3 = some [0x2F, 0x76, 0x38] := by
      unfold readBlock
      rw [if_pos (by simp [UTF7_BOM])]
      rfl
    simp only [hdrop, hsc]
    simp [hblk, hblock]
  unfold Utf7ToUni_body
  rw [hsrc, hD, ← hsrc]
  simp only [Option.some_bind, List.length_nil, Nat.zero_add, List.append_nil]
  rw [if_neg (by simp [UTF7_BOM]), hB]
  cases P with
  | nil => simp [UTF7_BOM]
  | cons p P => simp [UTF7_BOM]

theorem parseEncodedWord_length (s : List Nat) (w : EncodedWord)
    (h : parseEncodedWord s = some w) : 1 ≤ w.length := by
  unfold parseEncodedWord at h
  split at h
  · simp only [] at h
    split at h
    · split at h
      · simp only [Option.map_eq_some'] at h
        obtain ⟨r, _, rfl⟩ := h
        simp only []
        omega
      · cases h
    · cases h
  · cases h

/-- A line none of whose encoded words names the tag is passed through
unchanged. -/
theorem scan_unchanged (aliases : ECodeType → List (List Nat)) (tag : ECodeType) :
    ∀ (fuel : Nat) (s : List Nat), s.length ≤ fuel →
      (∀ suf, suf <:+ s →
        (parseEncodedWord suf).all (fun w => !charsetNames aliases tag w.charset) = true) →
      MIMEHeaderDecode_scan aliases tag fuel s = some s
  | 0, [], _, _ => rfl
  | 0, _ :: _, h, _ => by simp at h
  | fuel + 1, [], _, _ => rfl
  | fuel + 1, c :: rest, hlen, hall => by
    rw [MIMEHeaderDecode_scan]
    have hrest : ∀ k, ∀ suf, suf <:+ (c :: rest).drop k →
        (parseEncodedWord suf).all (fun w => !charsetNames aliases tag w.charset) = true :=
      fun k suf hs => hall suf (hs.trans (List.drop_suffix k (c :: rest)))
    cases hp : parseEncodedWord (c :: rest) with
    | none =>
      simp only []
      rw [scan_unchanged aliases tag fuel rest (by simpa using hlen) (hrest 1)]
      rfl
    | some w =>
      have hpos := parseEncodedWord_length (c :: rest) w hp
      have hno := hall (c :: rest) (List.suffix_refl _)
      rw [hp] at hno
      simp only [Option.all_some, Bool.not_eq_true'] at hno
      simp only []
      rw [scan_unchanged aliases tag fuel ((c :: rest).drop w.length)
        (by rw [List.length_drop]; simp only [List.length_cons] at hlen ⊢; omega)
        (hrest w.length), hno]
      simp

theorem base64Char_alphabet (v : Nat) : (base64Value (base64Char v)).isSome = true := by
  unfold base64Char
  split
  · have h : base64Value (0x41 + v) = some (0x41 + v - 0x41) := by
      unfold base64Value; rw [if_pos (by omega)]
    rw [h]; rfl
  · split
    · have h : base64Value (0x61 + (v - 26)) = some (0x61 + (v - 26) - 0x61 + 26) := by
        unfold base64Value; rw [if_neg (by omega), if_pos (by omega)]
      rw [h]; rfl
    · split
      · have h : base64Value (0x30 + (v - 52)) = some (0x30 + (v - 52) - 0x30 + 52) := by
          unfold base64Value; rw [if_neg (by omega), if_neg (by omega), if_pos (by omega)]
        rw [h]; rfl
      · split <;> rfl

theorem encoderByte_lt (E : Env) (b : Nat) (h : encoderByte E b) : b < 0x80 := by
  rcases h with h | h | h | h
  · unfold IsUtf7SetD at h
    simp only [Bool.and_eq_true, decide_eq_true_eq] at h
    exact h.1
  · unfold base64Value at h
    split at h
    · omega
    · split at h
      · omega
      · split at h
        · omega
        · split at h
          · omega
          · split at h
            · omega
            · cases h
  · omega
  · omega

theorem UniToUtf7SetB_block_bytes (E : Env) (B : List Nat) :
    ∀ b ∈ _UniToUtf7SetB_block E B, encoderByte E b := by
  intro b hb
  unfold _UniToUtf7SetB_block at hb
  split at hb
  · cases hb
  · split at hb
    · cases hb
    · simp only [List.mem_append, List.mem_singleton, _EncodeBase64, List.mem_map] at hb
      rcases hb with (hb | ⟨v, _, rfl⟩) | hb
      · exact Or.inr (Or.inr (Or.inl hb))
      · exact Or.inr (Or.inl (base64Char_alphabet v))
      · exact Or.inr (Or.inr (Or.inr hb))

theorem passOut_bytes (E : Env) (S : List Nat) (t : Nat) :
    ∀ b ∈ passOut E S t, encoderByte E b := by
  intro b hb
  have hD : ∀ u ∈ passD E S, IsUtf7SetD E u = true := by
    intro u hu
    unfold passD at hu
    exact List.mem_takeWhile_imp hu
  unfold passOut at hb
  rw [SetD_block_setD E (passD E S) hD, List.mem_append] at hb
  rcases hb with hb | hb
  · exact Or.inl (hD b hb)
  · split at hb
    · simp only [List.mem_cons, List.mem_singleton, List.not_mem_nil, or_false] at hb
      rcases hb with hb | hb
      · exact Or.inr (Or.inr (Or.inl hb))
      · exact Or.inr (Or.inr (Or.inr hb))
    · exact UniToUtf7SetB_block_bytes E _ b hb

theorem loop_bytes (E : Env) (t : Nat) (junk : List Nat) :
    ∀ (fuel : Nat) (S pw out : List Nat), (∀ b ∈ pw, encoderByte E b) →
      UniToUtf7_loop E (S ++ t :: junk) S.length fuel 0 pw = some out →
      ∀ b ∈ out, encoderByte E b
  | 0, _, _, _, _, h => by simp [UniToUtf7_loop] at h
  | fuel + 1, S, pw, out, hpw, h => by
    rw [loop_pass] at h
    have hpw2 : ∀ b ∈ pw ++ passOut E S t, encoderByte E b := by
      intro b hb
      rcases List.mem_append.1 hb with hb | hb
      · exact hpw b hb
      · exact passOut_bytes E S t b hb
    by_cases hq : passLen E S t < S.length
    · rw [if_pos hq] at h
      exact loop_bytes E t junk fuel _ _ out hpw2 h
    · rw [if_neg hq] at h
      cases h
      exact hpw2

theorem passes_shift (E : Env) (pre suf : List Nat) (m : Nat) :
    ∀ (fuel p : Nat) (pw : List Nat),
      UniToUtf7_passes E (pre ++ suf) (pre.length + m) fuel (pre.length + p) pw
        = UniToUtf7_passes E suf m fuel p pw
  | 0, p, pw => rfl
  | fuel + 1, p, pw => by
    rw [UniToUtf7_passes, UniToUtf7_passes, body_shift]
    cases hb : UniToUtf7_body E suf m p pw with
    | none => rfl
    | some r =>
      obtain ⟨q, o⟩ := r
      simp only [Option.map_some']
      by_cases hq : q < m
      · rw [if_pos hq, if_pos (by omega), passes_shift E pre suf m fuel q o]
      · rw [if_neg hq, if_neg (by omega)]

theorem passes_pass (E : Env) (S : List Nat) (t : Nat) (junk pw : List Nat) (fuel : Nat) :
    UniToUtf7_passes E (S ++ t :: junk) S.length (fuel + 1) 0 pw
      = if passLen E S t < S.length then
          (UniToUtf7_passes E (S.drop (passLen E S t) ++ t :: junk)
            (S.drop (passLen E S t)).length fuel 0 (pw ++ passOut E S t)).map fun k => k + 1
        else some 1 := by
  rw [UniToUtf7_passes, body_pass]
  simp only []
  by_cases hq : passLen E S t < S.length
  · rw [if_pos hq, if_pos hq]
    have hlen : (S.take (passLen E S t)).length = passLen E S t := by
      rw [List.length_take]; omega
    have hs := passes_shift E (S.take (passLen E S t)) (S.drop (passLen E S t) ++ t :: junk)
      (S.drop (passLen E S t)).length fuel 0 (pw ++ passOut E S t)
    rw [← List.append_assoc, List.take_append_drop, hlen, Nat.add_zero, List.length_drop] at hs
    rw [List.length_drop]
    have e : passLen E S t + (S.length - passLen E S t) = S.length := by omega
    rw [e] at hs
    rw [hs]
  · rw [if_neg hq, if_neg hq]

/-- The loop makes at least one pass and at most `max 1 n` passes. -/
theorem passes_bound (E : Env) (t : Nat) (junk : List Nat) :
    ∀ (fuel : Nat) (S pw : List Nat), 1 ≤ fuel → S.length ≤ fuel →
      ∃ k, UniToUtf7_passes E (S ++ t :: junk) S.length fuel 0 pw = some k
        ∧ 1 ≤ k ∧ k ≤ max 1 S.length
  | 0, _, _, h, _ => by omega
  | fuel + 1, S, pw, _, hlen => by
    rw [passes_pass]
    by_cases hq : passLen E S t < S.length
    · rw [if_pos hq]
      have hS : S ≠ [] := by
        intro h; rw [h] at hq; simp at hq
      have hpos := pass_progress E S t hS
      obtain ⟨k, hk, hk1, hk2⟩ := passes_bound E t junk fuel (S.drop (passLen E S t))
        (pw ++ passOut E S t) (by omega) (by rw [List.length_drop]; omega)
      rw [List.length_drop] at hk2
      refine ⟨k + 1, by rw [hk]; rfl, by omega, ?_⟩
      have : max 1 (S.length - passLen E S t) = S.length - passLen E S t := by
        apply Nat.max_eq_right; omega
      rw [this] at hk2
      have : max 1 S.length = S.length := by
        apply Nat.max_eq_right; omega
      rw [this]
      omega
    · rw [if_neg hq]
      exact ⟨1, rfl, le_refl _, Nat.le_max_left _ _⟩

/-- A pass that starts with unread input, at any read position of a
NUL-terminated buffer: it moves forward and stays inside the input. -/
theorem body_progress (E : Env) (S : List Nat) (pr : Nat) (pw : List Nat) (hpr : pr < S.length) :
    ∃ pr1 pw1, UniToUtf7_body E (CNativeW S) S.length pr pw = some (pr1, pw1)
      ∧ pr < pr1 ∧ pr1 ≤ S.length := by
  have hsplit : S = S.take pr ++ S.drop pr := (List.take_append_drop pr S).symm
  have hlen : (S.take pr).length = pr := by rw [List.length_take]; omega
  have hne : S.drop pr ≠ [] := by
    intro h
    have := congrArg List.length h
    rw [List.length_drop] at this
    simp at this
    omega
  have hb := body_shift E (S.take pr) (S.drop pr ++ [0]) (S.drop pr).length 0 pw
  rw [← List.append_assoc, List.take_append_drop, hlen, Nat.add_zero, List.length_drop] at hb
  have e : pr + (S.length - pr) = S.length := by omega
  rw [e, ← List.length_drop, body_pass] at hb
  refine ⟨pr + passLen E (S.drop pr) 0, pw ++ passOut E (S.drop pr) 0, ?_, ?_, ?_⟩
  · unfold CNativeW
    rw [hb]; rfl
  · have := pass_progress E (S.drop pr) 0 hne
    omega
  · have := passLen_le E (S.drop pr) 0 (by decide)
    rw [List.length_drop] at this
    omega

/-- The encoding of a single unit outside the ASCII range: one B block. -/
theorem UniToUtf7_single (E : Env) (u : Nat) (fuel : Nat) (hu : 0x80 ≤ u)
    (halloc : E.alloc 1 = true) (hf : 1 ≤ fuel) :
    UniToUtf7 E (CNativeW [u]) 1 fuel
      = some ([0x2B] ++ _EncodeBase64 (bigEndianBytes [u]) ++ [0x2D]) := by
  obtain ⟨g, rfl⟩ : ∃ g, fuel = g + 1 := ⟨fuel - 1, by omega⟩
  have hset : ∀ x ∈ [u], IsUtf7SetD E x = false := by
    intro x hx
    simp only [List.mem_singleton] at hx
    subst hx
    unfold IsUtf7SetD
    simp only [Bool.and_eq_false_imp, decide_eq_true_eq]
    intro h; omega
  obtain ⟨hl, ho⟩ := pass_run E 0 u [] [] (by omega) hset (by simp)
  obtain ⟨hblk, _⟩ := SetB_block_without_nul E [u] (by simp)
    (by intro x hx; simp only [List.mem_singleton] at hx; omega) halloc
  simp only [List.append_nil, List.length_cons, List.length_nil] at hl ho
  have hp := loop_pass E [u] 0 [] [] g
  rw [hl, ho, hblk] at hp
  unfold UniToUtf7 CNativeW
  simpa using hp

/-- The decoding of the encoding of a line terminator. -/
theorem decode_of_encode (E : Env) (hE : AsSpecified E) (S bytes : List Nat) (fuel : Nat)
    (hlen : S.length + 1 ≤ fuel) (hlt : ∀ u ∈ S, u < 65536) (hnul : ∀ u ∈ S, u ≠ 0)
    (hwf : wellFormedUtf16 S = true)
    (henc : UniToUtf7 E (CNativeW S) S.length fuel = some bytes) :
    Utf7ToUni E bytes fuel = some (S, false) := by
  obtain ⟨n, rfl⟩ : ∃ n, fuel = n + 1 := ⟨fuel - 1, by omega⟩
  obtain ⟨bytes2, h1, h2⟩ := roundtrip_aux E hE n S (by omega) hlt hnul hwf
  rw [henc] at h1
  cases h1
  have := h2 [] false
  unfold decodeFrom at this
  unfold Utf7ToUni
  simpa using this

/-! ## The claims -/

/-- C1: the text round trip of UTF-7 fails on the code for the valid string
U+0000 U+3042.  `UniToUtf7` hands the run to `_UniToUtf7SetB_block`, whose
`wcsncpy` stops at the NUL and fills the rest with NUL, so the string is written
as `+AAAAAA-`, the very bytes written for U+0000 U+0000; `Utf7ToUni` turns them
into U+0000 U+0000, while `UnicodeToUTF7` reports `RESULT_COMPLETE`.  For every
valid string without U+0000 the round trip holds in an environment as the
specification describes it: `Utf7ToUni` returns the string from the bytes of
`UniToUtf7` with the error flag false, and `UnicodeToUTF7` returns
`RESULT_COMPLETE`. -/
theorem roundtrip_fails_on_embedded_nul :
    (UniToUtf7 specEnv (CNativeW [0x0000, 0x3042]) 2 1
        = some [0x2B, 0x41, 0x41, 0x41, 0x41, 0x41, 0x41, 0x2D]
      ∧ UniToUtf7 specEnv (CNativeW [0x0000, 0x0000]) 2 1
        = some [0x2B, 0x41, 0x41, 0x41, 0x41, 0x41, 0x41, 0x2D]
      ∧ UnicodeToUTF7 specEnv [0x0000, 0x3042] [] 1
        = some (EConvertResult.RESULT_COMPLETE,
            [0x2B, 0x41, 0x41, 0x41, 0x41, 0x41, 0x41, 0x2D])
      ∧ Utf7ToUni specEnv [0x2B, 0x41, 0x41, 0x41, 0x41, 0x41, 0x41, 0x2D] 1
        = some ([0x0000, 0x0000], false))
    ∧ ∀ (E : Env) (S dstOld : List Nat) (fuel : Nat), AsSpecified E →
        (∀ u ∈ S, u < 65536) → (∀ u ∈ S, u ≠ 0) → wellFormedUtf16 S = true →
        S.length < fuel →
        ∃ bytes, UniToUtf7 E (CNativeW S) S.length fuel = some bytes
          ∧ UnicodeToUTF7 E S dstOld fuel = some (EConvertResult.RESULT_COMPLETE, bytes)
          ∧ Utf7ToUni E bytes fuel = some (S, false) := by
  refine ⟨by decide, ?_⟩
  intro E S dstOld fuel hE hunits hnul hwf hfuel
  obtain ⟨n, rfl⟩ : ∃ n, fuel = n + 1 := ⟨fuel - 1, by omega⟩
  obtain ⟨bytes, henc, hdec⟩ := roundtrip_aux E hE n S (by omega) hunits hnul hwf
  refine ⟨bytes, henc, ?_, ?_⟩
  · simp [UnicodeToUTF7, hE.allocated, henc]
  · have := hdec [] false
    simpa [decodeFrom, Utf7ToUni] using this

/-- C2: B-part decoding is big-endian UTF-16.  When the scratch buffer is
allocated and the base64 payload of the block decodes to the `2 * k` bytes
`b0 b1 …`, `_Utf7SetBToUni_block` writes exactly `k` code units, unit `i` being
`b(2i) * 256 + b(2i+1)`, returns `k` and leaves the error flag as it found it.
Decoding the bytes `+- test +AIU-` yields `+ test ` followed by U+0085 with
`RESULT_COMPLETE`. -/
theorem Utf7SetBToUni_block_even (E : Env) (pSrc : List Nat) (bError : Bool) (k : Nat)
    (halloc : E.alloc pSrc.length = true)
    (heven : (_DecodeBase64 pSrc).length = 2 * k) :
    ((_Utf7SetBToUni_block E pSrc bError).written.length = k
      ∧ (_Utf7SetBToUni_block E pSrc bError).ret = k
      ∧ (_Utf7SetBToUni_block E pSrc bError).bError = bError
      ∧ ∀ (i b0 b1 : Nat), (_DecodeBase64 pSrc)[2 * i]? = some b0 →
          (_DecodeBase64 pSrc)[2 * i + 1]? = some b1 →
          (_Utf7SetBToUni_block E pSrc bError).written[i]? = some (b0 * 256 + b1))
    ∧ UTF7ToUnicode specEnv
        [0x2B, 0x2D, 0x20, 0x74, 0x65, 0x73, 0x74, 0x20, 0x2B, 0x41, 0x49, 0x55, 0x2D] [] 2
        = some (EConvertResult.RESULT_COMPLETE,
            [0x2B, 0x20, 0x74, 0x65, 0x73, 0x74, 0x20, 0x85]) := by
  rw [SetB_even E pSrc bError k halloc heven]
  refine ⟨⟨?_, rfl, rfl, ?_⟩, by decide⟩
  · rw [beUnits_length, heven]; omega
  · intro i b0 b1 h0 h1
    exact beUnits_get _ i b0 b1 h0 h1

/-- Witness of C2: the block `AIU` decodes to the bytes 00 85 and is written as
the single unit U+0085. -/
theorem Utf7SetBToUni_block_even_witness :
    specEnv.alloc [0x41, 0x49, 0x55].length = true
    ∧ (_DecodeBase64 [0x41, 0x49, 0x55]).length = 2 * 1
    ∧ (_Utf7SetBToUni_block specEnv [0x41, 0x49, 0x55] false).written.length = 1
    ∧ (_Utf7SetBToUni_block specEnv [0x41, 0x49, 0x55] false).ret = 1
    ∧ (_Utf7SetBToUni_block specEnv [0x41, 0x49, 0x55] false).bError = false
    ∧ (_Utf7SetBToUni_block specEnv [0x41, 0x49, 0x55] false).written[0]? = some 0x85 :=
  have h := Utf7SetBToUni_block_even specEnv [0x41, 0x49, 0x55] false 1 (by decide) (by decide)
  ⟨by decide, by decide, h.1.1, h.1.2.1, h.1.2.2.1, h.1.2.2.2 0 0x00 0x85 (by decide) (by decide)⟩

/-- C3: the `+-` escape.  Whenever the B-part scanned behind a `+` is empty
(`nblocklen < 1`) and the byte just before the next read position is `-`, the
part writes exactly the one code unit U+002B, the conversion of a base64 block
plays no role, and the flag only takes up what the scanner reported.  Decoding
the two bytes `+-` gives the single character `+` with no error. -/
theorem Utf7ToUni_plus_minus (E : Env) (pSrc : List Nat) (s : DecState) (nblocklen next : Nat)
    (e : Bool)
    (hscan : E.CheckUtf7BPart (pSrc.drop s.pr) = (nblocklen, next, e))
    (hempty : nblocklen < 1)
    (hminus : readBefore pSrc (s.pr + next) = some 0x2D) :
    Utf7ToUni_BPart E pSrc s
        = some { pr := s.pr + next, pw := s.pw ++ [0x2B], berror := s.berror || e }
    ∧ Utf7ToUni specEnv [0x2B, 0x2D] 1 = some ([0x2B], false) := by
  refine ⟨?_, by decide⟩
  unfold Utf7ToUni_BPart
  rw [hscan]
  simp [hempty, hminus]

/-- Witness of C3: the B-part of the input `+-`, read at index 1. -/
theorem Utf7ToUni_plus_minus_witness :
    specEnv.CheckUtf7BPart ([0x2B, 0x2D].drop 1) = (0, 1, false)
    ∧ readBefore [0x2B, 0x2D] (1 + 1) = some 0x2D
    ∧ Utf7ToUni_BPart specEnv [0x2B, 0x2D] { pr := 1, pw := [], berror := false }
        = some { pr := 2, pw := [0x2B], berror := false } :=
  ⟨by decide, by decide,
   (Utf7ToUni_plus_minus specEnv [0x2B, 0x2D] { pr := 1, pw := [], berror := false } 0 1 false
      (by decide) (by decide) (by decide)).1⟩

/-- C4: D-part decoding.  For a block of `n` bytes `_Utf7SetDToUni_block` writes
exactly `n` code units (the value it returns); a byte of the direct set, the
set the code tests with `IsUtf7Direct`, is written as the code unit of the same
value, and every other byte `b` as the hex-fallback unit `0xDC00 + b`. -/
theorem Utf7SetDToUni_block_spec (E : Env) (pSrc : List Nat) :
    (_Utf7SetDToUni_block E pSrc).length = pSrc.length
    ∧ ∀ (i b : Nat), pSrc[i]? = some b →
        (_Utf7SetDToUni_block E pSrc)[i]?
          = some (if IsUtf7Direct E b = true then b else 0xDC00 + b) :=
  ⟨Utf7SetDToUni_block_length E pSrc, fun i b h => by
    simpa using Utf7SetDToUni_block_get E pSrc i b h⟩

/-- Witness of C4: the bytes `A` and 0x80 are written as U+0041 and U+DC80. -/
theorem Utf7SetDToUni_block_spec_witness :
    (_Utf7SetDToUni_block specEnv [0x41, 0x80]).length = 2
    ∧ (_Utf7SetDToUni_block specEnv [0x41, 0x80])[0]? = some 0x41
    ∧ (_Utf7SetDToUni_block specEnv [0x41, 0x80])[1]? = some 0xDC80 :=
  ⟨(Utf7SetDToUni_block_spec specEnv [0x41, 0x80]).1,
   (Utf7SetDToUni_block_spec specEnv [0x41, 0x80]).2 0 0x41 rfl,
   (Utf7SetDToUni_block_spec specEnv [0x41, 0x80]).2 1 0x80 rfl⟩

/-- C5: odd trailing byte of a B-part.  When the scratch buffer is allocated and
the base64 payload decodes to the `2 * k + 1` bytes `b0 … b(2k)`,
`_Utf7SetBToUni_block` writes `k + 1` code units, the first `k` being the
big-endian pairs and the last `0xDC00 + b(2k)`, returns `k + 1` and sets the
error flag; in `Utf7ToUni` the flag is then set behind that part and stays set
to the end of the loop. -/
theorem Utf7SetBToUni_block_odd (E : Env) (pSrc : List Nat) (bError : Bool) (k : Nat)
    (halloc : E.alloc pSrc.length = true)
    (hodd : (_DecodeBase64 pSrc).length = 2 * k + 1) :
    ((_Utf7SetBToUni_block E pSrc bError).written.length = k + 1
      ∧ (_Utf7SetBToUni_block E pSrc bError).ret = k + 1
      ∧ (_Utf7SetBToUni_block E pSrc bError).bError = true
      ∧ (∀ (i b0 b1 : Nat), (_DecodeBase64 pSrc)[2 * i]? = some b0 →
          (_DecodeBase64 pSrc)[2 * i + 1]? = some b1 →
          (_Utf7SetBToUni_block E pSrc bError).written[i]? = some (b0 * 256 + b1))
      ∧ (∀ b : Nat, (_DecodeBase64 pSrc)[2 * k]? = some b →
          (_Utf7SetBToUni_block E pSrc bError).written[k]? = some (0xDC00 + b)))
    ∧ ∀ (src : List Nat) (s : DecState) (next : Nat) (e : Bool),
        E.CheckUtf7BPart (src.drop s.pr) = (pSrc.length, next, e) →
        readBlock src s.pr pSrc.length = some pSrc →
        ∃ s1, Utf7ToUni_BPart E src s = some s1
          ∧ s1.pw = s.pw ++ (_Utf7SetBToUni_block E pSrc e).written
          ∧ s1.berror = true
          ∧ ∀ (fuel : Nat) (r : DecState), Utf7ToUni_loop E src fuel s1 = some r →
              r.berror = true := by
  have hlen : (wcharsOfBytes (SwapHLByte ((_DecodeBase64 pSrc).take (2 * k)))).length = k := by
    rw [beUnits_length, List.length_take, hodd]; omega
  refine ⟨?_, ?_⟩
  · rw [SetB_odd E pSrc bError k halloc hodd]
    refine ⟨?_, rfl, rfl, ?_, ?_⟩
    · simp [hlen, BinToText, hodd]
    · intro i b0 b1 h0 h1
      have hi : 2 * i + 1 < 2 * k + 1 := by
        rw [← hodd]
        exact (List.getElem?_eq_some_iff.1 h1).1
      have hget := beUnits_get ((_DecodeBase64 pSrc).take (2 * k)) i b0 b1
        (by rw [List.getElem?_take_of_lt (by omega)]; exact h0)
        (by rw [List.getElem?_take_of_lt (by omega)]; exact h1)
      rw [List.getElem?_append_left (by rw [hlen]; omega)]
      exact hget
    · intro b hb
      rw [List.getElem?_append_right (by rw [hlen])]
      simp [hlen, BinToText, BinToTextUnit, hb]
  · intro src s next e hsc hblk
    have hne : ¬ pSrc.length < 1 := by
      intro h0
      have : pSrc = [] := List.eq_nil_of_length_eq_zero (by omega)
      rw [this] at hodd
      simp [_DecodeBase64, decodeSextets] at hodd
    refine ⟨{ pr := s.pr + next, pw := s.pw ++ (_Utf7SetBToUni_block E pSrc e).written,
              berror := (s.berror || e) || (_Utf7SetBToUni_block E pSrc e).bError }, ?_, rfl, ?_, ?_⟩
    · unfold Utf7ToUni_BPart
      rw [hsc]
      simp only [hne, if_false, Option.some_bind, Bool.false_eq_true, hblk, Option.map_some']
    · simp [SetB_odd E pSrc e k halloc hodd]
    · intro fuel r hr
      exact loop_berror E src fuel _ r hr (by simp [SetB_odd E pSrc e k halloc hodd])

/-- Witness of C5: the block `AIUA` decodes to the three bytes 00 85 00 and is
written as U+0085 U+DC00 with the flag set. -/
theorem Utf7SetBToUni_block_odd_witness :
    specEnv.alloc [0x41, 0x49, 0x55, 0x41].length = true
    ∧ (_DecodeBase64 [0x41, 0x49, 0x55, 0x41]).length = 2 * 1 + 1
    ∧ (_Utf7SetBToUni_block specEnv [0x41, 0x49, 0x55, 0x41] false).written.length = 1 + 1
    ∧ (_Utf7SetBToUni_block specEnv [0x41, 0x49, 0x55, 0x41] false).ret = 1 + 1
    ∧ (_Utf7SetBToUni_block specEnv [0x41, 0x49, 0x55, 0x41] false).bError = true
    ∧ (_Utf7SetBToUni_block specEnv [0x41, 0x49, 0x55, 0x41] false).written[0]? = some 0x85
    ∧ (_Utf7SetBToUni_block specEnv [0x41, 0x49, 0x55, 0x41] false).written[1]? = some 0xDC00 :=
  have h := Utf7SetBToUni_block_odd specEnv [0x41, 0x49, 0x55, 0x41] false 1
    (by decide) (by decide)
  ⟨by decide, by decide, h.1.1, h.1.2.1, h.1.2.2.1,
   h.1.2.2.2.1 0 0x00 0x85 (by decide) (by decide), h.1.2.2.2.2 0x00 (by decide)⟩

/-- C6: on the run U+0000 U+3042 `_UniToUtf7SetB_block` does not write the
base64 encoding of the bytes 00 00 30 42 (`+AAAwQg-`): its `wcsncpy` stops at
the NUL and fills the rest with NUL, so it writes `+AAAAAA-`, the encoding of
the bytes 00 00 00 00.  For every non-empty run of `n` units without U+0000,
when the scratch buffer is allocated, it writes `+`, the base64 encoding of the
`2 * n` big-endian bytes, and `-`, which are `2 + ceil(8n/3)` bytes. -/
theorem UniToUtf7SetB_block_truncates_at_nul :
    (_UniToUtf7SetB_block specEnv [0x0000, 0x3042]
        = [0x2B, 0x41, 0x41, 0x41, 0x41, 0x41, 0x41, 0x2D]
      ∧ [0x2B] ++ _EncodeBase64 (bigEndianBytes [0x0000, 0x3042]) ++ [0x2D]
        = [0x2B, 0x41, 0x41, 0x41, 0x77, 0x51, 0x67, 0x2D]
      ∧ [0x2B] ++ _EncodeBase64 (bigEndianBytes [0x0000, 0x0000]) ++ [0x2D]
        = [0x2B, 0x41, 0x41, 0x41, 0x41, 0x41, 0x41, 0x2D])
    ∧ ∀ (E : Env) (R : List Nat), R ≠ [] → (∀ u ∈ R, u ≠ 0) → E.alloc R.length = true →
        _UniToUtf7SetB_block E R = [0x2B] ++ _EncodeBase64 (bigEndianBytes R) ++ [0x2D]
        ∧ (_UniToUtf7SetB_block E R).length = 2 + (8 * R.length + 2) / 3 :=
  ⟨by decide, fun E R hne hnul halloc => SetB_block_without_nul E R hne hnul halloc⟩

/-- Counterexample to C7: in the input U+3042 U+002B the `+` follows a unit
outside set D, and `UniToUtf7` writes the eight bytes `+MEIAKw-`, one base64 run
holding both units, in which the two bytes `+-` do not occur. -/
theorem UniToUtf7_plus_inside_run :
    UniToUtf7 specEnv (CNativeW [0x3042, 0x2B]) 2 1
        = some [0x2B, 0x4D, 0x45, 0x49, 0x41, 0x4B, 0x77, 0x2D]
    ∧ ¬ ([0x2B, 0x2D] <:+: [0x2B, 0x4D, 0x45, 0x49, 0x41, 0x4B, 0x77, 0x2D]) := by
  decide

/-- C7, amended: a U+002B that a pass of the loop meets as the first unit
outside set D (it starts the input or the rest of the input, or follows a run
`d` of set-D units) is written as the two bytes `+-` behind the bytes of `d`,
and the rest of the input is encoded behind it; a run of units outside set D
that starts with another unit `c` is handed to `_UniToUtf7SetB_block` as a whole
and written as one base64 run, a U+002B inside it included. -/
theorem UniToUtf7_plus_at_pass_start (E : Env) (d rest : List Nat) (fuel : Nat)
    (hplus : IsUtf7SetD E 0x2B = false)
    (hd : ∀ u ∈ d, IsUtf7SetD E u = true)
    (h1 : 1 ≤ fuel) (hlen : rest.length ≤ fuel) :
    (∃ o, UniToUtf7 E (CNativeW rest) rest.length fuel = some o
      ∧ UniToUtf7 E (CNativeW (d ++ 0x2B :: rest)) (d ++ 0x2B :: rest).length (fuel + 1)
          = some (d ++ [0x2B, 0x2D] ++ o))
    ∧ ∀ (c : Nat) (b : List Nat), c ≠ 0x2B → (∀ u ∈ c :: b, IsUtf7SetD E u = false) →
        (∀ u ∈ rest.head?, IsUtf7SetD E u = true) →
        ∃ o, UniToUtf7 E (CNativeW rest) rest.length fuel = some o
          ∧ UniToUtf7 E (CNativeW (d ++ (c :: b) ++ rest)) (d ++ (c :: b) ++ rest).length
              (fuel + 1)
              = some (d ++ _UniToUtf7SetB_block E (c :: b) ++ o) := by
  constructor
  · obtain ⟨hl, ho⟩ := pass_setD_run E 0 (0x2B :: rest) d hd
    obtain ⟨hl2, ho2⟩ := pass_plus E 0 rest hplus
    rw [hl2] at hl
    rw [ho2] at ho
    refine UniToUtf7_first_pass E _ rest _ fuel ?_ ho h1 hlen
    rw [hl]
    have e1 : d ++ 0x2B :: rest = (d ++ [0x2B]) ++ rest := by simp
    have e2 : d.length + 1 = (d ++ [0x2B]).length := by simp
    rw [e1, e2, List.drop_left]
  · intro c b hc hb hrest
    obtain ⟨hl, ho⟩ := pass_setD_run E 0 ((c :: b) ++ rest) d hd
    obtain ⟨hl2, ho2⟩ := pass_run E 0 c b rest hc hb hrest
    rw [hl2] at hl
    rw [ho2] at ho
    rw [← List.append_assoc] at hl ho
    refine UniToUtf7_first_pass E _ rest _ fuel ?_ ho h1 hlen
    rw [hl, ← List.length_append, List.drop_left]

/-- Witness of C7, amended: `a+b` is written `a+-b`, and `a` U+3042 U+002B `b`
is written `a+MEIAKw-b`. -/
theorem UniToUtf7_plus_at_pass_start_witness :
    IsUtf7SetD specEnv 0x2B = false
    ∧ UniToUtf7 specEnv (CNativeW [0x61, 0x2B, 0x62]) 3 2 = some [0x61, 0x2B, 0x2D, 0x62]
    ∧ UniToUtf7 specEnv (CNativeW [0x61, 0x3042, 0x2B, 0x62]) 4 2
        = some [0x61, 0x2B, 0x4D, 0x45, 0x49, 0x41, 0x4B, 0x77, 0x2D, 0x62] :=
  have h := UniToUtf7_plus_at_pass_start specEnv [0x61] [0x62] 1 (by decide)
    (by decide) (by decide) (by decide)
  ⟨by decide,
   by
    obtain ⟨o, ho, hres⟩ := h.1
    have : o = [0x62] := Option.some.inj (ho.symm.trans (by decide))
    subst this
    exact hres,
   by
    obtain ⟨o, ho, hres⟩ := h.2 0x3042 [0x2B] (by decide) (by decide) (by decide)
    have : o = [0x62] := Option.some.inj (ho.symm.trans (by decide))
    subst this
    exact hres⟩

/-- C8: set-D runs are emitted verbatim.  For a string `d` all of whose units
are in set D, `UniToUtf7` writes `d.length` bytes, byte `i` being unit `i` of
`d`; and for every input `A ++ d ++ B` the run `d` appears in the output as the
same values in the same order. -/
theorem UniToUtf7_setD_verbatim (E : Env) (A d B : List Nat) (fuel : Nat)
    (hd : ∀ u ∈ d, IsUtf7SetD E u = true)
    (hlen : (A ++ d ++ B).length ≤ fuel) (h1 : 1 ≤ fuel) :
    (∀ f, 1 ≤ f → UniToUtf7 E (CNativeW d) d.length f = some d)
    ∧ ∃ X Y, UniToUtf7 E (CNativeW (A ++ d ++ B)) (A ++ d ++ B).length fuel
        = some (X ++ d ++ Y) := by
  constructor
  · intro f hf
    exact UniToUtf7_all_setD E d f hd hf
  · by_cases hne : d = []
    · subst hne
      obtain ⟨o, ho⟩ := UniToUtf7_total E (A ++ [] ++ B) fuel h1 hlen
      exact ⟨o, [], by simpa using ho⟩
    · obtain ⟨X, Y, h⟩ := loop_verbatim E d B hne hd fuel A [] h1 hlen
      exact ⟨X, Y, by simpa [UniToUtf7, CNativeW] using h⟩

/-- Witness of C8: `ab` is written as `ab`, and inside U+3042 `ab` U+3042 it is
written between the two base64 runs. -/
theorem UniToUtf7_setD_verbatim_witness :
    UniToUtf7 specEnv (CNativeW [0x61, 0x62]) 2 1 = some [0x61, 0x62]
    ∧ ∃ X Y, UniToUtf7 specEnv (CNativeW ([0x3042] ++ [0x61, 0x62] ++ [0x3042])) 4 4
        = some (X ++ [0x61, 0x62] ++ Y) :=
  have h := UniToUtf7_setD_verbatim specEnv [0x3042] [0x61, 0x62] [0x3042] 4
    (by decide) (by decide) (by decide)
  ⟨h.1 1 (by decide), h.2⟩

/-- Counterexample to C9: the input consisting of the envelope unit U+DC41 is
written by `UniToUtf7` as the five bytes `+3EE-`, not as the single byte 0x41. -/
theorem UniToUtf7_envelope_not_passed_through :
    UniToUtf7 specEnv (CNativeW [0xDC41]) 1 1 = some [0x2B, 0x33, 0x45, 0x45, 0x2D]
    ∧ UniToUtf7 specEnv (CNativeW [0xDC41]) 1 1 ≠ some [0x41] := by
  decide

/-- C9, amended: `UniToUtf7` has no envelope passthrough.  A code unit `u` in
`0xDC00..0xDCFF` is outside set D, so it is never written verbatim; standing
between set-D units it is written, provided the scratch buffer is allocated,
as `+`, the base64 encoding of the two bytes 0xDC and `u % 256`, and `-`. -/
theorem UniToUtf7_envelope_base64 (E : Env) (u : Nat) (d rest : List Nat) (fuel : Nat)
    (hu : 0xDC00 ≤ u ∧ u ≤ 0xDCFF)
    (halloc : E.alloc 1 = true)
    (hd : ∀ v ∈ d, IsUtf7SetD E v = true)
    (hrest : ∀ v ∈ rest.head?, IsUtf7SetD E v = true)
    (h1 : 1 ≤ fuel) (hlen : rest.length ≤ fuel) :
    IsUtf7SetD E u = false
    ∧ ∃ o, UniToUtf7 E (CNativeW rest) rest.length fuel = some o
        ∧ UniToUtf7 E (CNativeW (d ++ [u] ++ rest)) (d ++ [u] ++ rest).length (fuel + 1)
            = some (d ++ ([0x2B] ++ _EncodeBase64 [0xDC, u % 256] ++ [0x2D]) ++ o) := by
  have hnd : IsUtf7SetD E u = false := by
    unfold IsUtf7SetD
    have : ¬ u < 0x80 := by omega
    simp [this]
  refine ⟨hnd, ?_⟩
  obtain ⟨hl, ho⟩ := pass_setD_run E 0 ([u] ++ rest) d hd
  obtain ⟨hl2, ho2⟩ := pass_run E 0 u [] rest (by omega)
    (by intro v hv; simp at hv; rw [hv]; exact hnd) hrest
  rw [hl2] at hl
  rw [ho2, SetB_single_envelope E u hu halloc] at ho
  rw [← List.append_assoc] at hl ho
  refine UniToUtf7_first_pass E _ rest _ fuel ?_ ho h1 hlen
  rw [hl, ← List.length_append, List.drop_left]

/-- Witness of C9, amended: `a` U+DC41 `b` is written `a+3EE-b`. -/
theorem UniToUtf7_envelope_base64_witness :
    (0xDC00 ≤ 0xDC41 ∧ 0xDC41 ≤ 0xDCFF)
    ∧ specEnv.alloc 1 = true
    ∧ IsUtf7SetD specEnv 0xDC41 = false
    ∧ UniToUtf7 specEnv (CNativeW [0x61, 0xDC41, 0x62]) 3 2
        = some [0x61, 0x2B, 0x33, 0x45, 0x45, 0x2D, 0x62] :=
  have h := UniToUtf7_envelope_base64 specEnv 0xDC41 [0x61] [0x62] 1 (by decide) (by decide)
    (by decide) (by decide) (by decide) (by decide)
  ⟨by decide, by decide, h.1,
   by
    obtain ⟨o, ho, hres⟩ := h.2
    have : o = [0x62] := Option.some.inj (ho.symm.trans (by decide))
    subst this
    exact hres⟩

/-- C10: envelope units only on incomplete decodes.  Let the scanners report
what the specification asks of them (`DPartErrorsReported`,
`BPartErrorsReported`).  If `UTF7ToUnicode` returns `RESULT_COMPLETE`, then
`Utf7ToUni` left its error flag false and the decoded text holds no unit of
`0xDC00..0xDCFF` other than the low half of a surrogate pair; and a pass of the
loop whose D-part holds a byte outside the direct set, which is written as its
hex-fallback unit, makes the loop end with the flag set. -/
theorem UTF7ToUnicode_complete_noLoneEnvelope (E : Env) (pSrc dstOld out : List Nat)
    (fuel : Nat)
    (hD : DPartErrorsReported E) (hB : BPartErrorsReported E)
    (hres : UTF7ToUnicode E pSrc dstOld fuel = some (EConvertResult.RESULT_COMPLETE, out)) :
    Utf7ToUni E pSrc fuel = some (out, false)
    ∧ noLoneEnvelope out = true
    ∧ ∀ (s : DecState) (b : Nat),
        b ∈ (pSrc.drop s.pr).take (E.CheckUtf7DPart (pSrc.drop s.pr)).1 →
        IsUtf7Direct E b = false →
        ∀ (f : Nat) (r : DecState), Utf7ToUni_loop E pSrc f s = some r → r.berror = true := by
  have hU : Utf7ToUni E pSrc fuel = some (out, false) := by
    unfold UTF7ToUnicode at hres
    split at hres
    · simp at hres
    · simp only [Option.map_eq_some', Prod.mk.injEq] at hres
      obtain ⟨⟨o, e⟩, ho, hc, rfl⟩ := hres
      cases e with
      | false => exact ho
      | true => simp at hc
  refine ⟨hU, ?_, fun s b hb hnd f r => loop_fallback_flag E hD pSrc s b hb hnd f r⟩
  unfold Utf7ToUni at hU
  simp only [Option.map_eq_some', Prod.mk.injEq] at hU
  obtain ⟨r, hr, rfl, he⟩ := hU
  exact loop_noLone E hD hB pSrc fuel _ r hr he rfl

/-- Witness of C10: `a+2ADcAA-` decodes completely to `a` U+D800 U+DC00, where
the envelope unit U+DC00 is the low half of a pair. -/
theorem UTF7ToUnicode_complete_noLoneEnvelope_witness :
    UTF7ToUnicode specEnv [0x61, 0x2B, 0x32, 0x41, 0x44, 0x63, 0x41, 0x41, 0x2D] [] 1
        = some (EConvertResult.RESULT_COMPLETE, [0x61, 0xD800, 0xDC00])
    ∧ Utf7ToUni specEnv [0x61, 0x2B, 0x32, 0x41, 0x44, 0x63, 0x41, 0x41, 0x2D] 1
        = some ([0x61, 0xD800, 0xDC00], false)
    ∧ noLoneEnvelope [0x61, 0xD800, 0xDC00] = true :=
  have h := UTF7ToUnicode_complete_noLoneEnvelope specEnv
    [0x61, 0x2B, 0x32, 0x41, 0x44, 0x63, 0x41, 0x41, 0x2D] [] [0x61, 0xD800, 0xDC00] 1
    spec_DPartErrorsReported spec_BPartErrorsReported (by decide)
  ⟨by decide, h.1, h.2.1⟩

/-- C13: `GetBom` sets the destination to exactly the five bytes `2B 2F 76 38 2D`
(the characters `+/v8-`), whatever the destination held before. -/
theorem GetBom_bytes (pcmemBom : List Nat) :
    GetBom pcmemBom = [0x2B, 0x2F, 0x76, 0x38, 0x2D] := by
  rfl

/-- C14: `GetEol` yields, for each of the seven EOL styles, exactly: none the
empty string, CR LF `0D 0A`, LF `0A`, CR `0D`, NEL `+AIU-`, LS `+ICg-` and PS
`+ICk-`, whatever the destination held before; every style has its entry in the
table, and there are no others. -/
theorem GetEol_table (pcmemEol : List Nat) :
    GetEol pcmemEol EEolType.none = []
    ∧ GetEol pcmemEol EEolType.cr_and_lf = [0x0D, 0x0A]
    ∧ GetEol pcmemEol EEolType.line_feed = [0x0A]
    ∧ GetEol pcmemEol EEolType.carriage_return = [0x0D]
    ∧ GetEol pcmemEol EEolType.next_line = [0x2B, 0x41, 0x49, 0x55, 0x2D]
    ∧ GetEol pcmemEol EEolType.line_separator = [0x2B, 0x49, 0x43, 0x67, 0x2D]
    ∧ GetEol pcmemEol EEolType.paragraph_separator = [0x2B, 0x49, 0x43, 0x6B, 0x2D]
    ∧ (∀ e : EEolType, e.toIndex < aEolTable.length)
    ∧ ∀ e : EEolType, e = EEolType.none ∨ e = EEolType.cr_and_lf ∨ e = EEolType.line_feed
        ∨ e = EEolType.carriage_return ∨ e = EEolType.next_line
        ∨ e = EEolType.line_separator ∨ e = EEolType.paragraph_separator := by
  refine ⟨rfl, rfl, rfl, rfl, rfl, rfl, rfl, ?_, ?_⟩
  · intro e; cases e <;> decide
  · intro e; cases e <;> simp

/-- Counterexample to C20: the test `*pr == L'+'` of `UniToUtf7` reads the unit
at index `n`.  Two buffers that agree on the first `n` units are encoded
differently when one of them holds `+` at index `n`: for `n = 1` the buffers
`a +` and `a NUL` give `a+-` and `a`, and for `n = 0` the buffers `+` and `NUL`
give `+-` and nothing. -/
theorem UniToUtf7_reads_unit_behind_input :
    UniToUtf7 specEnv [0x61, 0x2B] 1 2 = some [0x61, 0x2B, 0x2D]
    ∧ UniToUtf7 specEnv [0x61, 0] 1 2 = some [0x61]
    ∧ UniToUtf7 specEnv [0x2B] 0 1 = some [0x2B, 0x2D]
    ∧ UniToUtf7 specEnv [0] 0 1 = some [] := by
  refine ⟨by decide, by decide, by decide, by decide⟩

/-- C20, amended: for every source buffer and length `n` (including `n = 0`),
the bytes `UniToUtf7` writes are determined by the first `n` code units as long
as the unit at index `n` is not `+`: two buffers that agree on the indices
`0..n-1` and hold units other than `+` at index `n` (such as the NUL behind the
string of a `CNativeW`, which is what `UnicodeToUTF7` passes) give the same
output, whatever is stored at index `n` and behind it, and with fuel for
`max 1 n` passes the output is returned and is the one of the NUL-terminated
buffer. -/
theorem UniToUtf7_within_input (E : Env) (S : List Nat) (t1 t2 : Nat)
    (junk1 junk2 : List Nat) (fuel : Nat) (h1 : t1 ≠ 0x2B) (h2 : t2 ≠ 0x2B)
    (hf : max 1 S.length ≤ fuel) :
    ∃ out, UniToUtf7 E (S ++ t1 :: junk1) S.length fuel = some out
      ∧ UniToUtf7 E (S ++ t2 :: junk2) S.length fuel = some out
      ∧ UniToUtf7 E (CNativeW S) S.length fuel = some out := by
  have hf1 : 1 ≤ fuel := le_trans (Nat.le_max_left _ _) hf
  have hf2 : S.length ≤ fuel := le_trans (Nat.le_max_right _ _) hf
  obtain ⟨out, hout⟩ := UniToUtf7_total E S fuel hf1 hf2
  have e1 := loop_behind E t1 junk1 h1 fuel S []
  have e2 := loop_behind E t2 junk2 h2 fuel S []
  unfold UniToUtf7 CNativeW at hout ⊢
  exact ⟨out, by rw [e1]; exact hout, by rw [e2]; exact hout, hout⟩

theorem UniToUtf7_within_input_witness :
    ∃ out, UniToUtf7 specEnv ([0x61, 0x3042] ++ 0x62 :: [0x2B]) [0x61, 0x3042].length 2 = some out
      ∧ UniToUtf7 specEnv ([0x61, 0x3042] ++ 0x2D :: []) [0x61, 0x3042].length 2 = some out
      ∧ UniToUtf7 specEnv (CNativeW [0x61, 0x3042]) [0x61, 0x3042].length 2 = some out :=
  UniToUtf7_within_input specEnv [0x61, 0x3042] 0x62 0x2D [0x2B] [] 2 (by decide) (by decide)
    (by decide)

/-- C18: when the scratch buffer of `_UniToUtf7SetB_block` cannot be allocated the
block returns 0 and the encoding goes on: for the text `a U+3042`, with the
output buffer of 11 bytes granted and the scratch buffer of one unit refused,
`UnicodeToUTF7` writes `a` alone and returns `RESULT_COMPLETE` (with the scratch
buffer granted it writes `a+MEI-`).  Only the failure to allocate the output
buffer is reported: the result is then `RESULT_FAILURE` and the destination is
left as it was; in every other case the result is `RESULT_COMPLETE`. -/
theorem UnicodeToUTF7_scratch_failure_unreported :
    specEnvNoScratch.alloc (2 * 5 + 1) = true
    ∧ specEnvNoScratch.alloc 1 = false
    ∧ UnicodeToUTF7 specEnvNoScratch [0x61, 0x3042] [] 2
        = some (EConvertResult.RESULT_COMPLETE, [0x61])
    ∧ UnicodeToUTF7 specEnv [0x61, 0x3042] [] 2
        = some (EConvertResult.RESULT_COMPLETE, [0x61, 0x2B, 0x4D, 0x45, 0x49, 0x2D])
    ∧ (∀ (E : Env) (S dstOld : List Nat) (fuel : Nat), E.alloc (S.length * 5 + 1) = false →
        UnicodeToUTF7 E S dstOld fuel = some (EConvertResult.RESULT_FAILURE, dstOld))
    ∧ ∀ (E : Env) (S dstOld : List Nat) (fuel : Nat) (r : EConvertResult × List Nat),
        E.alloc (S.length * 5 + 1) = true → UnicodeToUTF7 E S dstOld fuel = some r →
        r.1 = EConvertResult.RESULT_COMPLETE := by
  refine ⟨by decide, by decide, by decide, by decide, ?_, ?_⟩
  · intro E S dstOld fuel ha
    simp [UnicodeToUTF7, ha]
  · intro E S dstOld fuel r ha h
    simp only [UnicodeToUTF7, ha, Bool.true_eq_false, if_false, Option.map_eq_some'] at h
    obtain ⟨out, _, rfl⟩ := h
    rfl

/-- Counterexample to C19: the scanners of `overlapEnv` return blocks that lie
inside the remaining input, and base64 decoding of `m` characters yields at most
`3 m / 4` bytes, yet for the 3 bytes `abc` the loop writes the 6 units
`a b c b c c`, more than the 4 units `UTF7ToUnicode` allocates. -/
theorem Utf7ToUni_overrun_with_overlapping_blocks :
    (∀ bytes, (overlapEnv.CheckUtf7DPart bytes).1 ≤ bytes.length
        ∧ (overlapEnv.CheckUtf7DPart bytes).2.1 ≤ bytes.length)
    ∧ (∀ bytes, (overlapEnv.CheckUtf7BPart bytes).1 ≤ bytes.length
        ∧ (overlapEnv.CheckUtf7BPart bytes).2.1 ≤ bytes.length)
    ∧ (∀ l, 4 * (_DecodeBase64 l).length ≤ 3 * l.length)
    ∧ Utf7ToUni overlapEnv [0x61, 0x62, 0x63] 3
        = some ([0x61, 0x62, 0x63, 0x62, 0x63, 0x63], false) := by
  refine ⟨?_, ?_, DecodeBase64_length_le, by decide⟩
  · intro bytes
    simp [overlapEnv]
  · intro bytes
    simp [overlapEnv]

/-- C19, amended: let every scanner return a block that lies inside the bytes it steps
over (`pr + nblocklen ≤ pr_next ≤ pr_end`) and let the D scanner step over the
shift character behind its block unless it reaches the end of the input; base64
decoding of `m` characters yields at most `3 m / 4` bytes.  Then for an input of
`n` bytes `Utf7ToUni` returns (with fuel for more than `n` passes) and writes at
most `n` code units, which fits the `n + 1` units `UTF7ToUnicode` allocates. -/
theorem Utf7ToUni_output_bound (E : Env) (hE : BlocksInside E) (pSrc : List Nat) (fuel : Nat)
    (hf : pSrc.length < fuel) :
    ∃ out e, Utf7ToUni E pSrc fuel = some (out, e)
      ∧ out.length ≤ pSrc.length ∧ out.length < pSrc.length + 1 := by
  obtain ⟨r, hr, hpr, hpw⟩ := loop_inside E hE pSrc fuel { pr := 0, pw := [], berror := false }
    (Nat.zero_le _) (by simpa using hf)
  refine ⟨r.pw, r.berror, by simp [Utf7ToUni, hr], ?_, ?_⟩
  · simp only [List.length_nil] at hpw; omega
  · simp only [List.length_nil] at hpw; omega

theorem Utf7ToUni_output_bound_witness :
    ∃ out e, Utf7ToUni specEnv [0x61, 0x2B, 0x41, 0x49, 0x55, 0x2D, 0x2B, 0x2D] 9 = some (out, e)
      ∧ out.length ≤ [0x61, 0x2B, 0x41, 0x49, 0x55, 0x2D, 0x2B, 0x2D].length
      ∧ out.length < [0x61, 0x2B, 0x41, 0x49, 0x55, 0x2D, 0x2B, 0x2D].length + 1 :=
  Utf7ToUni_output_bound specEnv (spec_blocksInside specEnv specEnv_asSpecified)
    [0x61, 0x2B, 0x41, 0x49, 0x55, 0x2D, 0x2B, 0x2D] 9 (by decide)

/-- C12: with scanners as the specification describes them, for every byte
string `P` the decoding of `P` returns (with fuel for more than its length in
passes), and the decoding of `GetBom()` followed by `P` is the single unit
`U+FEFF` followed by exactly the units of the decoding of `P` alone, with the
same error flag. -/
theorem Utf7ToUni_bom_prefix (E : Env) (hE : AsSpecified E) (pcmemBom P : List Nat)
    (fuel : Nat) (hf : P.length < fuel) :
    ∃ out e, Utf7ToUni E P fuel = some (out, e)
      ∧ Utf7ToUni E (GetBom pcmemBom ++ P) (fuel + 1) = some (0xFEFF :: out, e) := by
  obtain ⟨r, hr, _, _⟩ := loop_inside E (spec_blocksInside E hE) P fuel
    { pr := 0, pw := [], berror := false } (Nat.zero_le _) (by simpa using hf)
  refine ⟨r.pw, r.berror, by simp [Utf7ToUni, hr], ?_⟩
  have hbom : GetBom pcmemBom = UTF7_BOM := rfl
  unfold Utf7ToUni
  rw [hbom, Utf7ToUni_loop, body_bom E hE P]
  cases P with
  | nil =>
    obtain ⟨g, rfl⟩ : ∃ g, fuel = g + 1 := ⟨fuel - 1, by omega⟩
    have h0 := decodeFrom_setD E hE [] [] false g (by simp)
    unfold decodeFrom at h0
    rw [hr] at h0
    simp only [Option.map_some', List.append_nil, Option.some.injEq, Prod.mk.injEq] at h0
    simp [h0.1, h0.2]
  | cons p P =>
    have hs := loop_shift_dec E (asSpecified_progress E hE) UTF7_BOM (p :: P) fuel
      { pr := 0, pw := [0xFEFF], berror := false }
    have hfr := loop_frame E (p :: P) [0xFEFF] false fuel { pr := 0, pw := [], berror := false }
    simp only [DecState.shift, DecState.frame, Nat.add_zero, List.append_nil, Bool.false_or,
      UTF7_BOM, List.length_cons, List.length_nil] at hs hfr
    simp only [ne_eq, reduceCtorEq, not_false_eq_true, decide_True, UTF7_BOM]
    rw [hs, hfr, hr]
    rfl

theorem Utf7ToUni_bom_prefix_witness :
    ∃ out e, Utf7ToUni specEnv [0x61, 0x2B, 0x41, 0x49, 0x55] 6 = some (out, e)
      ∧ Utf7ToUni specEnv (GetBom [] ++ [0x61, 0x2B, 0x41, 0x49, 0x55]) (6 + 1)
          = some (0xFEFF :: out, e) :=
  Utf7ToUni_bom_prefix specEnv specEnv_asSpecified [] [0x61, 0x2B, 0x41, 0x49, 0x55] 6
    (by decide)

/-- Counterexample to C15: the line `=?utf-8?B?QQ?= =?iso-2022-jp?B?QQ?=` holds
the encoded word `=?iso-2022-jp?B?QQ?=`, whose charset does not name the tag
UTF-8, and the decoder does not return the line byte for byte: the other word,
whose charset names the tag, is decoded, and the output is
`A =?iso-2022-jp?B?QQ?=`. -/
theorem MIMEHeaderDecode_decodes_matching_word :
    (parseEncodedWord [0x3D, 0x3F, 0x69, 0x73, 0x6F, 0x2D, 0x32, 0x30, 0x32, 0x32, 0x2D, 0x6A,
        0x70, 0x3F, 0x42, 0x3F, 0x51, 0x51, 0x3F, 0x3D]).map
        (fun w => (w.length, charsetNames testAliases ECodeType.CODE_UTF8 w.charset))
      = some (20, false)
    ∧ [0x3D, 0x3F, 0x69, 0x73, 0x6F, 0x2D, 0x32, 0x30, 0x32, 0x32, 0x2D, 0x6A, 0x70, 0x3F, 0x42,
        0x3F, 0x51, 0x51, 0x3F, 0x3D]
      <:+ [0x3D, 0x3F, 0x75, 0x74, 0x66, 0x2D, 0x38, 0x3F, 0x42, 0x3F, 0x51, 0x51, 0x3F, 0x3D, 0x20,
        0x3D, 0x3F, 0x69, 0x73, 0x6F, 0x2D, 0x32, 0x30, 0x32, 0x32, 0x2D, 0x6A, 0x70, 0x3F, 0x42,
        0x3F, 0x51, 0x51, 0x3F, 0x3D]
    ∧ MIMEHeaderDecode testAliases
        [0x3D, 0x3F, 0x75, 0x74, 0x66, 0x2D, 0x38, 0x3F, 0x42, 0x3F, 0x51, 0x51, 0x3F, 0x3D, 0x20,
          0x3D, 0x3F, 0x69, 0x73, 0x6F, 0x2D, 0x32, 0x30, 0x32, 0x32, 0x2D, 0x6A, 0x70, 0x3F, 0x42,
          0x3F, 0x51, 0x51, 0x3F, 0x3D] ECodeType.CODE_UTF8
      = some ([0x41, 0x20, 0x3D, 0x3F, 0x69, 0x73, 0x6F, 0x2D, 0x32, 0x30, 0x32, 0x32, 0x2D, 0x6A,
          0x70, 0x3F, 0x42, 0x3F, 0x51, 0x51, 0x3F, 0x3D], true) := by
  refine ⟨by decide, ⟨[0x3D, 0x3F, 0x75, 0x74, 0x66, 0x2D, 0x38, 0x3F, 0x42, 0x3F, 0x51, 0x51,
    0x3F, 0x3D, 0x20], rfl⟩, by decide⟩

/-- C15, amended: for every header line in which no encoded word
`=?CHARSET?B-or-Q?PAYLOAD?=` has a `CHARSET` that names the caller-supplied
encoding tag, `MIMEHeaderDecode` returns true and its output is byte for byte
the input line. -/
theorem MIMEHeaderDecode_charset_mismatch (aliases : ECodeType → List (List Nat))
    (pSrc : List Nat) (eCodetype : ECodeType)
    (h : ∀ suf ∈ pSrc.tails,
      (parseEncodedWord suf).all (fun w => !charsetNames aliases eCodetype w.charset) = true) :
    MIMEHeaderDecode aliases pSrc eCodetype = some (pSrc, true) := by
  unfold MIMEHeaderDecode
  rw [scan_unchanged aliases eCodetype pSrc.length pSrc (le_refl _)
    (fun suf hs => h suf ((List.mem_tails suf pSrc).2 hs))]
  rfl

theorem MIMEHeaderDecode_charset_mismatch_witness :
    MIMEHeaderDecode testAliases
        [0x46, 0x72, 0x6F, 0x6D, 0x3A, 0x20, 0x3D, 0x3F, 0x69, 0x73, 0x6F, 0x2D, 0x32, 0x30, 0x32,
          0x32, 0x2D, 0x6A, 0x70, 0x3F, 0x42, 0x3F, 0x47, 0x79, 0x52, 0x43, 0x4A, 0x54, 0x55, 0x6C,
          0x4C, 0x79, 0x56, 0x70, 0x47, 0x79, 0x68, 0x43, 0x3F, 0x3D] ECodeType.CODE_UTF8
      = some ([0x46, 0x72, 0x6F, 0x6D, 0x3A, 0x20, 0x3D, 0x3F, 0x69, 0x73, 0x6F, 0x2D, 0x32, 0x30,
          0x32, 0x32, 0x2D, 0x6A, 0x70, 0x3F, 0x42, 0x3F, 0x47, 0x79, 0x52, 0x43, 0x4A, 0x54, 0x55,
          0x6C, 0x4C, 0x79, 0x56, 0x70, 0x47, 0x79, 0x68, 0x43, 0x3F, 0x3D], true) :=
  MIMEHeaderDecode_charset_mismatch testAliases _ ECodeType.CODE_UTF8 (by decide)

/-- C21: for every input `S`, held NUL-terminated, `UniToUtf7` returns (with fuel
for `max 1 n` passes) and every byte it writes is the value of a set-D
character, a character of the base64 alphabet, `+` or `-`, and is therefore
less than `0x80`. -/
theorem UniToUtf7_seven_bit_clean (E : Env) (S : List Nat) (fuel : Nat)
    (h1 : 1 ≤ fuel) (hlen : S.length ≤ fuel) :
    ∃ out, UniToUtf7 E (CNativeW S) S.length fuel = some out
      ∧ ∀ b ∈ out,
          (IsUtf7SetD E b = true ∨ (base64Value b).isSome = true ∨ b = 0x2B ∨ b = 0x2D)
          ∧ b < 0x80 := by
  obtain ⟨out, hout⟩ := UniToUtf7_total E S fuel h1 hlen
  refine ⟨out, hout, ?_⟩
  intro b hb
  have h := hout
  unfold UniToUtf7 CNativeW at h
  have hbyte := loop_bytes E 0 [] fuel S [] out (by simp) h b hb
  exact ⟨hbyte, encoderByte_lt E b hbyte⟩

theorem UniToUtf7_seven_bit_clean_witness :
    ∃ out, UniToUtf7 specEnv (CNativeW [0x61, 0x3042, 0x2B, 0xFF]) 4 4 = some out
      ∧ ∀ b ∈ out,
          (IsUtf7SetD specEnv b = true ∨ (base64Value b).isSome = true ∨ b = 0x2B ∨ b = 0x2D)
          ∧ b < 0x80 :=
  UniToUtf7_seven_bit_clean specEnv [0x61, 0x3042, 0x2B, 0xFF] 4 (by decide) (by decide)

/-- C23: in `UniToUtf7` on an input of `n` code units behind which the
terminating NUL is stored, every pass through the body of the `do … while` that
starts with unread input (`pr < n`) moves the read position forward by at least
one unit and not behind the first `n` units; the loop returns after at least
one and at most `max 1 n` passes. -/
theorem UniToUtf7_terminates (E : Env) (S : List Nat) (fuel : Nat)
    (hf : max 1 S.length ≤ fuel) :
    (∀ (pr : Nat) (pw : List Nat), pr < S.length →
      ∃ pr1 pw1, UniToUtf7_body E (CNativeW S) S.length pr pw = some (pr1, pw1)
        ∧ pr < pr1 ∧ pr1 ≤ S.length)
    ∧ ∃ k out, UniToUtf7_passes E (CNativeW S) S.length fuel 0 [] = some k
        ∧ 1 ≤ k ∧ k ≤ max 1 S.length
        ∧ UniToUtf7 E (CNativeW S) S.length fuel = some out := by
  have h1 : 1 ≤ fuel := le_trans (Nat.le_max_left _ _) hf
  have h2 : S.length ≤ fuel := le_trans (Nat.le_max_right _ _) hf
  refine ⟨fun pr pw hpr => body_progress E S pr pw hpr, ?_⟩
  obtain ⟨k, hk, hk1, hk2⟩ := passes_bound E 0 [] fuel S [] h1 h2
  obtain ⟨out, hout⟩ := UniToUtf7_total E S fuel h1 h2
  exact ⟨k, out, hk, hk1, hk2, hout⟩

theorem UniToUtf7_terminates_witness :
    (∀ (pr : Nat) (pw : List Nat), pr < [0x3042, 0x61, 0x2B].length →
      ∃ pr1 pw1, UniToUtf7_body specEnv (CNativeW [0x3042, 0x61, 0x2B])
          [0x3042, 0x61, 0x2B].length pr pw = some (pr1, pw1)
        ∧ pr < pr1 ∧ pr1 ≤ [0x3042, 0x61, 0x2B].length)
    ∧ ∃ k out, UniToUtf7_passes specEnv (CNativeW [0x3042, 0x61, 0x2B])
          [0x3042, 0x61, 0x2B].length 3 0 [] = some k
        ∧ 1 ≤ k ∧ k ≤ max 1 [0x3042, 0x61, 0x2B].length
        ∧ UniToUtf7 specEnv (CNativeW [0x3042, 0x61, 0x2B]) [0x3042, 0x61, 0x2B].length 3
            = some out :=
  UniToUtf7_terminates specEnv [0x3042, 0x61, 0x2B] 3 (by decide)

/-- C22: let the scanners be as the specification describes them and let CR and
LF be set-D characters.  Then for each of the seven EOL styles the bytes of
`GetEol` are exactly what `UniToUtf7` writes for the Unicode line terminator of
the style (nothing, U+000D U+000A, U+000A, U+000D, U+0085, U+2028, U+2029), and
`Utf7ToUni` decodes them to that terminator with the error flag not set. -/
theorem GetEol_agrees_with_codec (E : Env) (hE : AsSpecified E)
    (hCR : IsUtf7SetD E 0x0D = true) (hLF : IsUtf7SetD E 0x0A = true)
    (pcmemEol : List Nat) (e : EEolType) (fuel : Nat) (hf : 3 ≤ fuel) :
    UniToUtf7 E (CNativeW (eolTerminator e)) (eolTerminator e).length fuel
        = some (GetEol pcmemEol e)
    ∧ Utf7ToUni E (GetEol pcmemEol e) fuel = some (eolTerminator e, false) := by
  have henc : UniToUtf7 E (CNativeW (eolTerminator e)) (eolTerminator e).length fuel
      = some (GetEol pcmemEol e) := by
    cases e with
    | none => exact UniToUtf7_all_setD E [] fuel (by simp) (by omega)
    | cr_and_lf =>
      exact UniToUtf7_all_setD E [0x0D, 0x0A] fuel
        (by intro u hu; simp only [List.mem_cons, List.mem_singleton, List.not_mem_nil,
              or_false] at hu; rcases hu with rfl | rfl <;> assumption) (by omega)
    | line_feed =>
      exact UniToUtf7_all_setD E [0x0A] fuel
        (by intro u hu; simp only [List.mem_singleton] at hu; subst hu; exact hLF) (by omega)
    | carriage_return =>
      exact UniToUtf7_all_setD E [0x0D] fuel
        (by intro u hu; simp only [List.mem_singleton] at hu; subst hu; exact hCR) (by omega)
    | next_line =>
      exact UniToUtf7_single E 0x85 fuel (by decide) (hE.allocated 1) (by omega)
    | line_separator =>
      exact UniToUtf7_single E 0x2028 fuel (by decide) (hE.allocated 1) (by omega)
    | paragraph_separator =>
      exact UniToUtf7_single E 0x2029 fuel (by decide) (hE.allocated 1) (by omega)
  refine ⟨henc, ?_⟩
  apply decode_of_encode E hE (eolTerminator e) (GetEol pcmemEol e) fuel _ _ _ _ henc
  · cases e <;> simp only [eolTerminator, List.length_cons, List.length_nil] <;> omega
  · cases e <;> decide
  · cases e <;> decide
  · cases e <;> decide

theorem GetEol_agrees_with_codec_witness :
    UniToUtf7 specEnv (CNativeW (eolTerminator EEolType.next_line))
        (eolTerminator EEolType.next_line).length 3
        = some (GetEol [] EEolType.next_line)
    ∧ Utf7ToUni specEnv (GetEol [] EEolType.next_line) 3
        = some (eolTerminator EEolType.next_line, false) :=
  GetEol_agrees_with_codec specEnv specEnv_asSpecified (by decide) (by decide) []
    EEolType.next_line 3 (by decide)

end CUtf7
